import Mathlib

/-!
# Maze generator and solver: a shallow embedding

Embedding of `common.c`, `generator.c` and `solver.c`.

* C `int` values are `Int`.  Every arithmetic step the programs take on them
  stays far inside the 32-bit range for the inputs considered (coordinates
  move by one inside the grid, connection flags are -1, 0 or 1), so no
  wrap-around is modelled.  The `unsigned int hex` parameter of
  `create_room_connections` is a `Nat`; an `int` is converted to it modulo
  `2^32`.
* A `struct maze_room maze[num_rows][num_cols]` is a `Grid`, a function from
  index pairs to rooms; a pointer `&maze[r][c]` is the index pair `(r, c)`,
  and `NULL` is `none`.
* `rand()` is a stream `rng : Nat → Nat` together with the number of calls
  made so far.
* Recursive functions take a fuel argument bounding the recursion depth and
  return `none` when it runs out.
* The solution file is the list of lines written to it; writes are taken to
  succeed.
-/

namespace Maze

/-! ## Data model (common.h is not in the sources) -/

/-- Modelled from the spec: the `Direction` enumeration of `common.h`, which is
not among the sources: four enumerators NORTH, SOUTH, WEST, EAST, with the
fixed opposite mapping North↔South, East↔West.  Their values are a parameter
of `get_opposite_dir_in`. -/
structure DirectionEnum where
  NORTH : Nat
  SOUTH : Nat
  WEST : Nat
  EAST : Nat

/-- The numbering of `Direction` read off the code.
`get_opposite_dir` returns `SOUTH` for 0, `NORTH` for 1, `EAST` for 2 and
`WEST` for 3, so NORTH = 0, SOUTH = 1, WEST = 2, EAST = 3 is the only
numbering by indices of `con[4]` under which it is the opposite mapping
(`direction_numbering_forced`); it is also the order in which `drunken_walk`
lists the directions, `{NORTH, SOUTH, WEST, EAST}`. -/
def Direction : DirectionEnum := ⟨0, 1, 2, 3⟩

/-- The value of the enumerator `NORTH`. -/
def NORTH : Nat := Direction.NORTH
/-- The value of the enumerator `SOUTH`. -/
def SOUTH : Nat := Direction.SOUTH
/-- The value of the enumerator `WEST`. -/
def WEST : Nat := Direction.WEST
/-- The value of the enumerator `EAST`. -/
def EAST : Nat := Direction.EAST

/-- Modelled from the spec: `struct maze_room` of `common.h` (not among the
sources), with the fields the programs use: the room's coordinates, the
`visited` flag, the four connections `con[0..3]` (-1 unset, 0 open, 1 wall)
and the `next` pointer (an index pair, `none` for `NULL`). -/
structure maze_room where
  row : Int
  col : Int
  visited : Int
  con : Nat → Int
  next : Option (Int × Int)

/-- A maze array `struct maze_room maze[num_rows][num_cols]`, indexed by
`(row, col)`.  Entries outside the array bounds are never read or written by
the programs. -/
structure Grid where
  cell : Int × Int → maze_room

/-- The room `maze[r][c]` is written `maze (r, c)`. -/
instance instCoeFunGrid : CoeFun Grid (fun _ => Int × Int → maze_room) := ⟨Grid.cell⟩

/-- An encoded maze `int encoded_maze[num_rows][num_cols]`. -/
abbrev Encoded := Int × Int → Int

/-- A room with its `visited` field replaced. -/
@[noinline]
def withVisited (room : maze_room) (v : Int) : maze_room :=
  { room with visited := v }

/-- A room with its connection `con[dir]` replaced. -/
@[noinline]
def withCon (room : maze_room) (dir : Nat) (v : Int) : maze_room :=
  { room with con := fun k => if k = dir then v else room.con k }

/-- A room with its `next` field replaced. -/
@[noinline]
def withNext (room : maze_room) (n : Option (Int × Int)) : maze_room :=
  { room with next := n }

/-- Assignment `maze[r][c] = x`. -/
@[noinline]
def setRoom (maze : Grid) (room : Int × Int) (x : maze_room) : Grid :=
  ⟨fun p => if p = room then x else maze p⟩

/-- Assignment `room->visited = v`. -/
def setVisited (maze : Grid) (room : Int × Int) (v : Int) : Grid :=
  setRoom maze room (withVisited (maze room) v)

/-- Assignment `room->con[dir] = v`. -/
def setCon (maze : Grid) (room : Int × Int) (dir : Nat) (v : Int) : Grid :=
  setRoom maze room (withCon (maze room) dir v)

/-- Assignment `room->next = n`. -/
def setNext (maze : Grid) (room : Int × Int) (n : Option (Int × Int)) : Grid :=
  setRoom maze room (withNext (maze room) n)

/-- The loop `for (i = 0; i < n; i++) body(i)` over a state. -/
def for_loop {σ : Type} (n : Int) (body : Int → σ → σ) (s : σ) : σ :=
  (List.range n.toNat).foldl (fun acc (i : Nat) => body (i : Int) acc) s

/-! ## common.c -/

/-- C `is_in_range` (common.c:20-25). -/
def is_in_range (row col num_rows num_cols : Int) : Int :=
  if num_rows > row ∧ row ≥ 0 ∧ num_cols > col ∧ col ≥ 0 then 1 else 0

/-- C `get_neighbor` (common.c:41-54); `room` is the pointer to the current
room, the result the pointer to its neighbour or `none` for `NULL`. -/
def get_neighbor (num_rows num_cols : Int) (maze : Grid) (room : Int × Int)
    (dir : Nat) : Option (Int × Int) :=
  let r := (maze room).row
  let c := (maze room).col
  let r := if dir = NORTH then r - 1 else r
  let r := if dir = SOUTH then r + 1 else r
  let c := if dir = WEST then c - 1 else c
  let c := if dir = EAST then c + 1 else c
  if is_in_range r c num_rows num_cols ≠ 0 then some (r, c) else none

/-- C `initialize_maze` (common.c:68-85). -/
def initialize_maze (num_rows num_cols : Int) (maze : Grid) : Grid :=
  for_loop num_rows (fun i maze =>
    for_loop num_cols (fun j maze =>
      setRoom maze (i, j)
        { row := i, col := j, visited := 0, con := fun _ => -1, next := none })
      maze) maze

/-! ## generator.c -/

/-- C `get_opposite_dir` (generator.c:17-23) over a given numbering of the
enumeration. -/
def get_opposite_dir_in (E : DirectionEnum) (dir : Nat) : Nat :=
  if dir = 0 then E.SOUTH
  else if dir = 1 then E.NORTH
  else if dir = 2 then E.EAST
  else if dir = 3 then E.WEST
  else 0

/-- C `get_opposite_dir` (generator.c:17-23). -/
def get_opposite_dir (dir : Nat) : Nat := get_opposite_dir_in Direction dir

/-- One iteration of the loop of `shuffle_array` (generator.c:38-41), with
`ran` the value of `rand() % 4`. -/
def shuffle_step (directions : List Nat) (i ran : Nat) : List Nat :=
  let tmp := directions.getD i 0
  let directions := directions.set i (directions.getD ran 0)
  directions.set ran tmp

/-- C `shuffle_array` (generator.c:34-43): the shuffled array and the number
of `rand()` calls made so far. -/
def shuffle_array (rng : Nat → Nat) (directions : List Nat) (calls : Nat) :
    List Nat × Nat :=
  [0, 1, 2, 3].foldl
    (fun acc i => (shuffle_step acc.1 i (rng acc.2 % 4), acc.2 + 1))
    (directions, calls)

/-- The state the generator threads through `drunken_walk`: the maze and the
number of `rand()` calls made so far. -/
structure GenState where
  maze : Grid
  calls : Nat

/-- The body of the loop of `drunken_walk` for one direction
(generator.c:71-92); `walk` is the recursive call. -/
def drunken_walk_dir (walk : Int → Int → GenState → Option GenState)
    (num_rows num_cols : Int) (cur_room : Int × Int) (dir : Nat)
    (s : GenState) : Option GenState :=
  match get_neighbor num_rows num_cols s.maze cur_room dir with
  | none => some { s with maze := setCon s.maze cur_room dir 1 }
  | some neighbor =>
    if (s.maze neighbor).visited = 0 then
      let s1 : GenState := { s with maze := setCon s.maze cur_room dir 0 }
      walk (s1.maze neighbor).row (s1.maze neighbor).col s1
    else
      let opp_dir := get_opposite_dir dir
      let c := (s.maze neighbor).con opp_dir
      if c = 0 ∨ c = 1 then
        some { s with maze := setCon s.maze cur_room dir c }
      else
        some { s with maze := setCon s.maze cur_room dir 1 }

/-- The loop `for (i = 0; i < 4; i++)` of `drunken_walk` over the remaining
indices `is`, reading `dir = d[i]`. -/
def drunken_walk_loop (walk : Int → Int → GenState → Option GenState)
    (num_rows num_cols : Int) (cur_room : Int × Int) (d : List Nat) :
    List Nat → GenState → Option GenState
  | [], s => some s
  | i :: is, s =>
    match drunken_walk_dir walk num_rows num_cols cur_room (d.getD i 0) s with
    | none => none
    | some s1 => drunken_walk_loop walk num_rows num_cols cur_room d is s1

/-- C `drunken_walk` (generator.c:59-94).  The first argument bounds the
recursion depth. -/
def drunken_walk (rng : Nat → Nat) (num_rows num_cols : Int) :
    Nat → Int → Int → GenState → Option GenState
  | 0, _, _, _ => none
  | fuel + 1, row, col, s =>
    let cur_room : Int × Int := (row, col)
    let maze := setVisited s.maze cur_room 1
    let sh := shuffle_array rng [NORTH, SOUTH, WEST, EAST] s.calls
    drunken_walk_loop (drunken_walk rng num_rows num_cols fuel)
      num_rows num_cols cur_room sh.1 [0, 1, 2, 3]
      { maze := maze, calls := sh.2 }

/-- C `encode_room` (generator.c:106-110). -/
def encode_room (room : maze_room) : Int :=
  8 * room.con 3 + 4 * room.con 2 + 2 * room.con 1 + room.con 0

/-- C `encode_maze` (generator.c:125-135). -/
def encode_maze (num_rows num_cols : Int) (maze : Grid) (result : Encoded) :
    Encoded :=
  for_loop num_rows (fun i result =>
    for_loop num_cols (fun j result =>
      fun p => if p = (i, j) then encode_room (maze (i, j)) else result p)
      result) result

/-- The generator's `main` from the dimension check on (generator.c:216-228),
without the file output: the exit status 1 when a dimension is not positive,
otherwise the encoded maze that is written to the file.  `maze` and `result`
are the arrays before they are filled. -/
def generator_main (rng : Nat → Nat) (fuel : Nat) (num_rows num_cols : Int)
    (maze : Grid) (result : Encoded) : Option (Int ⊕ Encoded) :=
  if num_rows ≤ 0 ∨ num_cols ≤ 0 then some (Sum.inl 1)
  else
    let maze := initialize_maze num_rows num_cols maze
    match drunken_walk rng num_rows num_cols fuel 0 0 { maze := maze, calls := 0 } with
    | none => none
    | some s => some (Sum.inr (encode_maze num_rows num_cols s.maze result))

/-! ## solver.c -/

/-- Conversion of an `int` argument to the `unsigned int` parameter `hex`. -/
def to_unsigned (x : Int) : Nat := (x % 4294967296).toNat

/-- One iteration of the loop of `create_room_connections` (solver.c:35-37):
the room after `room->con[i] = (hex & op) / op`. -/
def create_room_connections_step (hex : Nat) (room : maze_room) (i op : Nat) :
    maze_room :=
  let dec : Nat := (hex &&& op) / op
  { room with con := fun k => if k = i then (dec : Int) else room.con k }

/-- C `create_room_connections` (solver.c:32-39), as a function on the room
pointed to. -/
def create_room_connections (room : maze_room) (hex : Nat) : maze_room :=
  ([0, 1, 2, 3].foldl
    (fun acc i => (create_room_connections_step hex acc.1 i acc.2, acc.2 / 2))
    (room, 8)).1

/-- C `decode_maze` (solver.c:120-129). -/
def decode_maze (num_rows num_cols : Int) (maze : Grid) (encoded_maze : Encoded) :
    Grid :=
  for_loop num_rows (fun i maze =>
    for_loop num_cols (fun j maze =>
      setRoom maze (i, j)
        (create_room_connections (maze (i, j)) (to_unsigned (encoded_maze (i, j)))))
      maze) maze

/-- A line of the solution file: a header line or a `"%d, %d\n"` line. -/
inductive Line where
  | header : String → Line
  | coords : Int → Int → Line
deriving DecidableEq

/-- The state the solver threads through `dfs`: the maze and the lines
written to the solution file so far. -/
structure SolveState where
  maze : Grid
  out : List Line

/-- The line `fprintf(file, "%d, %d\n", room->row, room->col)` appended to
the file. -/
def print_room (s : SolveState) (room : Int × Int) : SolveState :=
  { s with out := s.out ++ [Line.coords (s.maze room).row (s.maze room).col] }

/-- The body of the loop of `dfs` for one index `i` (solver.c:85-101); `search`
is the recursive call.  The result is `some r` when the function returns `r`
from inside the loop and `none` when the loop goes on. -/
def dfs_dir (search : Int → Int → SolveState → Option (Int × SolveState))
    (full : Bool) (num_rows num_cols : Int) (cur_room : Int × Int) (i : Nat)
    (s : SolveState) : Option (Option Int × SolveState) :=
  let dir := 3 - i
  match get_neighbor num_rows num_cols s.maze cur_room i with
  | none => some (none, s)
  | some neighbor =>
    if (s.maze cur_room).con dir = 0 ∧ (s.maze neighbor).visited = 0 then
      let s1 : SolveState := { s with maze := setNext s.maze cur_room (some neighbor) }
      match search (s1.maze neighbor).row (s1.maze neighbor).col s1 with
      | none => none
      | some (r, s2) =>
        if r ≠ 0 then some (some 1, s2)
        else some (none, if full then print_room s2 cur_room else s2)
    else some (none, s)

/-- The loop `for (i = 0; i < 4; i++)` of `dfs` over the remaining indices,
followed by `return 0`. -/
def dfs_loop (search : Int → Int → SolveState → Option (Int × SolveState))
    (full : Bool) (num_rows num_cols : Int) (cur_room : Int × Int) :
    List Nat → SolveState → Option (Int × SolveState)
  | [], s => some (0, s)
  | i :: is, s =>
    match dfs_dir search full num_rows num_cols cur_room i s with
    | none => none
    | some (some r, s1) => some (r, s1)
    | some (none, s1) => dfs_loop search full num_rows num_cols cur_room is s1

/-- C `dfs` (solver.c:65-104).  `full` says whether the `FULL` macro is set;
the `Nat` argument bounds the recursion depth. -/
def dfs (full : Bool) (goal_row goal_col num_rows num_cols : Int) :
    Nat → Int → Int → SolveState → Option (Int × SolveState)
  | 0, _, _, _ => none
  | fuel + 1, row, col, s =>
    let cur_room : Int × Int := (row, col)
    let s := if full then print_room s cur_room else s
    if row = goal_row ∧ col = goal_col then some (1, s)
    else
      let s : SolveState := { s with maze := setVisited s.maze cur_room 1 }
      dfs_loop (dfs full goal_row goal_col num_rows num_cols fuel) full
        num_rows num_cols cur_room [0, 1, 2, 3] s

/-- C `print_pruned_path` (solver.c:142-151): the return value and the file
after the call.  The `Nat` argument bounds the recursion depth. -/
def print_pruned_path (maze : Grid) :
    Nat → Int × Int → List Line → Option (Int × List Line)
  | 0, _, _ => none
  | fuel + 1, room, out =>
    let out := out ++ [Line.coords (maze room).row (maze room).col]
    match (maze room).next with
    | some next =>
      match print_pruned_path maze fuel next out with
      | none => none
      | some (_, out1) => some (0, out1)
    | none => some (0, out)

/-- The solver's `main` from the dimension check on (solver.c:235-281): the
exit status and the lines written to the solution file.  `encoded` is what
`read_encoded_maze_from_file` stored, `none` when it reported an error;
`maze` is the array before it is initialized. -/
def solver_main (full : Bool) (fuel : Nat)
    (num_rows num_cols start_row start_col goal_row goal_col : Int)
    (encoded : Option Encoded) (maze : Grid) : Option (Int × List Line) :=
  if num_rows ≤ 0 ∨ num_cols ≤ 0 then some (1, [])
  else if start_row ≥ num_rows ∨ start_col ≥ num_cols ∨
      goal_row ≥ num_rows ∨ goal_row ≥ num_cols ∨
      start_row < 0 ∨ start_col < 0 ∨ goal_row < 0 ∨ goal_col < 0 then
    some (1, [])
  else
    let out : List Line := if full then [Line.header "FULL"] else []
    let maze := initialize_maze num_rows num_cols maze
    match encoded with
    | none => some (1, out)
    | some encoded_maze =>
      let maze := decode_maze num_rows num_cols maze encoded_maze
      match dfs full goal_row goal_col num_rows num_cols fuel start_row start_col
          { maze := maze, out := out } with
      | none => none
      | some (_, s) =>
        if full then some (0, s.out)
        else
          match print_pruned_path s.maze fuel (start_row, start_col)
              (s.out ++ [Line.header "PRUNED"]) with
          | none => none
          | some (r, out1) => if r ≠ 0 then some (1, out1) else some (0, out1)

/-! ## Specification vocabulary -/

/-- The index pair `p` lies inside a `R` by `C` array. -/
def InRange (R C : Nat) (p : Int × Int) : Prop :=
  0 ≤ p.1 ∧ p.1 < (R : Int) ∧ 0 ≤ p.2 ∧ p.2 < (C : Int)

/-- Membership in the array bounds is decidable. -/
instance instDecidableInRange (R C : Nat) (p : Int × Int) : Decidable (InRange R C p) := by
  unfold InRange; infer_instance

/-- The coordinates `get_neighbor` computes from a room at `p` (common.c:44-49). -/
def step_to (p : Int × Int) (dir : Nat) : Int × Int :=
  (if dir = SOUTH then (if dir = NORTH then p.1 - 1 else p.1) + 1
    else (if dir = NORTH then p.1 - 1 else p.1),
   if dir = EAST then (if dir = WEST then p.2 - 1 else p.2) + 1
    else (if dir = WEST then p.2 - 1 else p.2))

/-- Every room of the array stores its own coordinates, as `initialize_maze`
leaves them. -/
def coordsOK (R C : Nat) (m : Grid) : Prop :=
  ∀ p, InRange R C p → (m p).row = p.1 ∧ (m p).col = p.2

/-- The number of rooms of the array whose `visited` flag is 0. -/
def unvisitedCount (R C : Nat) (m : Grid) : Nat :=
  ((Finset.range R ×ˢ Finset.range C).filter
    (fun q => (m ((q.1 : Int), (q.2 : Int))).visited = 0)).card

/-- The invariant of the generator between two steps of `drunken_walk`, on a
maze `m` after `calls` calls of `rand()`.  `par` and `rank` are bookkeeping:
the room from which a visited room was entered, and the moment it was
entered. -/
structure GenInv (R C : Nat) (m : Grid) (calls : Nat)
    (par : Int × Int → Int × Int) (rank : Int × Int → Nat) : Prop where
  coords : coordsOK R C m
  flags : ∀ p, InRange R C p → ∀ d, d < 4 →
    (m p).con d = -1 ∨ (m p).con d = 0 ∨ (m p).con d = 1
  vis01 : ∀ p, InRange R C p → (m p).visited = 0 ∨ (m p).visited = 1
  fresh : ∀ p, InRange R C p → (m p).visited = 0 → ∀ d, d < 4 → (m p).con d = -1
  seen : ∀ p, InRange R C p → ∀ d, d < 4 → (m p).con d ≠ -1 →
    InRange R C (step_to p d) → (m (step_to p d)).visited = 1
  inside : ∀ p, InRange R C p → ∀ d, d < 4 → (m p).con d = 0 →
    InRange R C (step_to p d)
  sym : ∀ p, InRange R C p → ∀ d, d < 4 → InRange R C (step_to p d) →
    (m p).con d ≠ -1 → (m (step_to p d)).con (get_opposite_dir d) ≠ -1 →
    (m p).con d = (m (step_to p d)).con (get_opposite_dir d)
  tree : ∀ p, InRange R C p → ∀ d, d < 4 → (m p).con d = 0 →
    (par (step_to p d) = p ∧ step_to p d ≠ (0, 0)) ∨
    (par p = step_to p d ∧ p ≠ (0, 0))
  parent : ∀ p, InRange R C p → (m p).visited = 1 → p ≠ (0, 0) →
    InRange R C (par p) ∧ (m (par p)).visited = 1 ∧ rank (par p) < rank p ∧
    ∃ d, d < 4 ∧ step_to (par p) d = p ∧ (m (par p)).con d = 0
  clock : ∀ p, InRange R C p → (m p).visited = 1 → rank p < calls
  root : (m (0, 0)).visited = 1

/-- The array `shuffle_array` leaves from `{NORTH, SOUTH, WEST, EAST}` when the
four values of `rand() % 4` are `r0`, `r1`, `r2`, `r3`. -/
def shuffle4 (r0 r1 r2 r3 : Nat) : List Nat :=
  shuffle_step (shuffle_step (shuffle_step (shuffle_step
    [NORTH, SOUTH, WEST, EAST] 0 r0) 1 r1) 2 r2) 3 r3

/-- The directions `d[i]` read by the loop of `drunken_walk` for the indices
`is`, in order. -/
def dirs_of (d : List Nat) (is : List Nat) : List Nat :=
  is.map (fun i => d.getD i 0)

/-- What the loop of `drunken_walk` for the room `a` over the directions `ds`
does to the maze: rooms visited before are untouched apart from the
connections `ds` of `a`, which are now set, and every room visited during the
loop has all four connections set. -/
structure LoopPost (R C : Nat) (a : Int × Int) (ds : List Nat) (m m1 : Grid) : Prop where
  keep : ∀ p, InRange R C p → (m p).visited = 1 → p ≠ a → m1 p = m p
  keepA : (m1 a).visited = 1 ∧ ∀ x, x ∉ ds → (m1 a).con x = (m a).con x
  setA : ∀ x, x ∈ ds → (m1 a).con x ≠ -1
  done : ∀ p, InRange R C p → (m p).visited = 0 → (m1 p).visited = 1 →
    ∀ d, d < 4 → (m1 p).con d ≠ -1

/-- What a call of `drunken_walk` on the room `b` does to the maze: rooms
visited before are untouched, `b` is visited, and every room visited during
the call has all four connections set. -/
structure WalkPost (R C : Nat) (b : Int × Int) (m m1 : Grid) : Prop where
  keep : ∀ p, InRange R C p → (m p).visited = 1 → m1 p = m p
  here : (m1 b).visited = 1
  done : ∀ p, InRange R C p → (m p).visited = 0 → (m1 p).visited = 1 →
    ∀ d, d < 4 → (m1 p).con d ≠ -1

/-- The contract of `drunken_walk` at recursion depth `fuel`: called on an
unvisited room with no connection set, in a maze with at most `fuel`
unvisited rooms and in a state where the invariant holds once the room is
marked, it returns, re-establishes
the invariant and satisfies `WalkPost`. -/
def WalkSpec (rng : Nat → Nat) (R C fuel : Nat) : Prop :=
  ∀ (s : GenState) (b : Int × Int), InRange R C b → (s.maze b).visited = 0 →
    (∀ x, x < 4 → (s.maze b).con x = -1) →
    unvisitedCount R C s.maze ≤ fuel →
    (∃ par rank, GenInv R C (setVisited s.maze b 1) (s.calls + 4) par rank) →
    ∃ s1, drunken_walk rng R C fuel b.1 b.2 s = some s1 ∧
      (∃ par rank, GenInv R C s1.maze s1.calls par rank) ∧
      WalkPost R C b s.maze s1.maze

/-- What the generator leaves: every room of the array is visited, every
connection is open or wall, connections out of the array are walls, the two
sides of a shared wall agree, and the open connections are the edges along
which the rooms were entered: every room but the origin has a parent `par`
it is openly connected to, entered before it (`rank`), and every open
connection joins a room and its parent. -/
structure GenDone (R C : Nat) (m : Grid) : Prop where
  coords : coordsOK R C m
  visited : ∀ p, InRange R C p → (m p).visited = 1
  flags : ∀ p, InRange R C p → ∀ d, d < 4 → (m p).con d = 0 ∨ (m p).con d = 1
  walls : ∀ p, InRange R C p → ∀ d, d < 4 → ¬ InRange R C (step_to p d) →
    (m p).con d = 1
  sym : ∀ p, InRange R C p → ∀ d, d < 4 → InRange R C (step_to p d) →
    (m p).con d = (m (step_to p d)).con (get_opposite_dir d)
  tree : ∃ (par : Int × Int → Int × Int) (rank : Int × Int → Nat),
    (∀ p, InRange R C p → ∀ d, d < 4 → (m p).con d = 0 →
      (par (step_to p d) = p ∧ step_to p d ≠ (0, 0)) ∨
      (par p = step_to p d ∧ p ≠ (0, 0))) ∧
    (∀ p, InRange R C p → p ≠ (0, 0) →
      InRange R C (par p) ∧ rank (par p) < rank p ∧
      ∃ d, d < 4 ∧ step_to (par p) d = p ∧ (m (par p)).con d = 0)

/-- The generator's run from `main`: `initialize_maze` followed by
`drunken_walk(0, 0, ...)`, on an array `maze` of any prior content. -/
def generate (rng : Nat → Nat) (fuel : Nat) (num_rows num_cols : Int) (maze : Grid) :
    Option GenState :=
  drunken_walk rng num_rows num_cols fuel 0 0
    { maze := initialize_maze num_rows num_cols maze, calls := 0 }

/-- The coordinates of a vertex of the grid graph. -/
def cellOf {R C : Nat} (v : Fin R × Fin C) : Int × Int :=
  ((v.1.val : Int), (v.2.val : Int))

/-- The room `p` has an open connection (flag 0) towards its neighbour `q`. -/
def OpenTo (R C : Nat) (m : Grid) (p q : Int × Int) : Prop :=
  ∃ d, d < 4 ∧ get_neighbor R C m p d = some q ∧ (m p).con d = 0

/-- The graph of a maze: the vertices are the rooms of the array, and two
rooms are joined when they are neighbours with an open connection between
them. -/
def openGraph (R C : Nat) (m : Grid) : SimpleGraph (Fin R × Fin C) where
  Adj u v := u ≠ v ∧ (OpenTo R C m (cellOf u) (cellOf v) ∨ OpenTo R C m (cellOf v) (cellOf u))
  symm := fun _ _ h => ⟨h.1.symm, h.2.symm⟩
  loopless := fun _ h => h.1 rfl

/-- An array whose rooms hold zeros: some content of the memory before
`initialize_maze` runs. -/
def blank : Grid := ⟨fun _ => ⟨0, 0, 0, fun _ => 0, none⟩⟩

/-- All four connection flags of a room are 0 (open) or 1 (wall). -/
def flagsSet (room : maze_room) : Prop :=
  ∀ d, d < 4 → room.con d = 0 ∨ room.con d = 1

/-- A room with the given four connection flags `con[0..3]`. -/
def roomWith (c0 c1 c2 c3 : Int) : maze_room :=
  ⟨0, 0, 0, fun k => if k = 0 then c0 else if k = 1 then c1 else if k = 2 then c2 else c3, none⟩

/-- The invariant of the solver: every room of the array stores its own
coordinates, and a room that has not been visited has no `next` pointer. -/
structure SolveInv (R C : Nat) (m : Grid) : Prop where
  coords : coordsOK R C m
  nonext : ∀ p, InRange R C p → (m p).visited = 0 → (m p).next = none

/-- The list `l` is the chain of `next` pointers from its first room up to a
room whose `next` is `NULL`. -/
def NextChain (m : Grid) : List (Int × Int) → Prop
  | [] => False
  | [p] => (m p).next = none
  | p :: q :: rest => (m p).next = some q ∧ NextChain m (q :: rest)

/-- A step of `dfs`: from the room `p` to its neighbour `q` in a direction `i`
whose connection `dfs` treats as open, `p.con[3 - i] == 0`. -/
def OpenStep (R C : Nat) (m : Grid) (p q : Int × Int) : Prop :=
  ∃ i, i < 4 ∧ get_neighbor R C m p i = some q ∧ (m p).con (3 - i) = 0

/-- What `dfs` called on the room `a` of the maze `m0` and returning `ret`
leaves in the maze `m`: the invariant holds; only rooms that were unvisited
and are not the goal have changed, and they are now visited; connections and
coordinates are unchanged; and the chain of `next` pointers from `a` is a
list of distinct rooms, each newly visited (or the goal, on success), joined
by steps of `dfs`, ending at the goal on success. -/
structure DfsOK (R C : Nat) (goal a : Int × Int) (m0 : Grid) (ret : Int) (m : Grid) : Prop where
  inv : SolveInv R C m
  frame : ∀ p, m p ≠ m0 p →
    InRange R C p ∧ (m0 p).visited = 0 ∧ (m p).visited ≠ 0 ∧ p ≠ goal
  same : ∀ p, (m p).con = (m0 p).con ∧ (m p).row = (m0 p).row ∧ (m p).col = (m0 p).col
  chain : ∃ l : List (Int × Int), l.head? = some a ∧ NextChain m l ∧ l.Nodup ∧
    (∀ p ∈ l, InRange R C p ∧
      ((p = goal ∧ ret ≠ 0) ∨ ((m0 p).visited = 0 ∧ (m p).visited ≠ 0))) ∧
    l.Chain' (OpenStep R C m0) ∧ (ret ≠ 0 → l.getLast? = some goal)

/-- The rooms visited since `m0` have all their open neighbours visited in `m`,
apart from the neighbours of `a` in the directions `rest` still to be tried;
and `a` is visited. -/
def DfsClosed (R C : Nat) (a : Int × Int) (rest : List Nat) (m0 m : Grid) : Prop :=
  (m a).visited ≠ 0 ∧
  ∀ p, InRange R C p → (m0 p).visited = 0 → (m p).visited ≠ 0 →
    ∀ i, i < 4 → (p = a → i ∉ rest) →
    ∀ q, get_neighbor R C m0 p i = some q → (m0 p).con (3 - i) = 0 →
      (m q).visited ≠ 0

/-- The contract of `dfs` at recursion depth `fuel`: called on an unvisited
room of a maze with at most `fuel` unvisited rooms, it returns 0 or 1 and
satisfies `DfsOK`; when it returns 0 the rooms it visited are closed under
steps of `dfs`. -/
def DfsSpec (full : Bool) (R C : Nat) (goal : Int × Int) (fuel : Nat) : Prop :=
  ∀ (s : SolveState) (a : Int × Int), SolveInv R C s.maze → InRange R C a →
    (s.maze a).visited = 0 → unvisitedCount R C s.maze ≤ fuel →
    ∃ ret s1, dfs full goal.1 goal.2 R C fuel a.1 a.2 s = some (ret, s1) ∧
      (ret = 0 ∨ ret = 1) ∧ DfsOK R C goal a s.maze ret s1.maze ∧
      (ret = 0 → DfsClosed R C a [] s.maze s1.maze)

/-- The line `fprintf(file, "%d, %d\n", ...)` writes for the room at `p` when
the room stores its own coordinates. -/
def lineOf (p : Int × Int) : Line := Line.coords p.1 p.2

/-- The maze the solver's `main` searches: `initialize_maze` followed by
`decode_maze` of the matrix read from the file. -/
def load_maze (num_rows num_cols : Int) (maze : Grid) (encoded_maze : Encoded) : Grid :=
  decode_maze num_rows num_cols (initialize_maze num_rows num_cols maze) encoded_maze

/-- The 256 sequences of four values `rand() % 4` that `shuffle_array` can
draw. -/
def all_draws : List (Nat × Nat × Nat × Nat) :=
  (List.range 4).flatMap fun r0 => (List.range 4).flatMap fun r1 =>
    (List.range 4).flatMap fun r2 => (List.range 4).map fun r3 => (r0, r1, r2, r3)

/-- The number of draw sequences for which `shuffle_array` turns
`{NORTH, SOUTH, WEST, EAST}` into the array `l`. -/
def shuffle_count (l : List Nat) : Nat :=
  (all_draws.filter (fun x => decide (shuffle4 x.1 x.2.1 x.2.2.1 x.2.2.2 = l))).length

/-- The step of `dfs` in the words of the specification, to be compared with
`dfs_dir`: `dfs` steps towards `get_neighbor(cell, i)` exactly when the cell of
the generator's maze `gen` has `con[i] == 0` and the neighbour is unvisited. -/
def dfs_dir_direct (gen : Grid)
    (search : Int → Int → SolveState → Option (Int × SolveState))
    (full : Bool) (num_rows num_cols : Int) (cur_room : Int × Int) (i : Nat)
    (s : SolveState) : Option (Option Int × SolveState) :=
  match get_neighbor num_rows num_cols s.maze cur_room i with
  | none => some (none, s)
  | some neighbor =>
    if (gen cur_room).con i = 0 ∧ (s.maze neighbor).visited = 0 then
      let s1 : SolveState := { s with maze := setNext s.maze cur_room (some neighbor) }
      match search (s1.maze neighbor).row (s1.maze neighbor).col s1 with
      | none => none
      | some (r, s2) =>
        if r ≠ 0 then some (some 1, s2)
        else some (none, if full then print_room s2 cur_room else s2)
    else some (none, s)

/-- The mazes `m` and `m1` agree in every field that `dfs` reads: the
coordinates, the `visited` flags and the connections (the `next` pointers may
differ). -/
def SameSearch (m m1 : Grid) : Prop :=
  ∀ p, (m p).row = (m1 p).row ∧ (m p).col = (m1 p).col ∧
    (m p).visited = (m1 p).visited ∧ (m p).con = (m1 p).con

/-- The maze `m` with every `next` pointer set to `NULL`. -/
def forget_next (m : Grid) : Grid := ⟨fun p => withNext (m p) none⟩

/-- The record of the calls of `drunken_walk`: for each call, in order, the room
it was entered on and the `visited` flag of that room at the moment of the
call. -/
abbrev CallLog := List ((Int × Int) × Int)

/-- The body of the loop of `drunken_walk` (`drunken_walk_dir`) with the record
of calls passed along. -/
def drunken_walk_dir_traced
    (walk : Int → Int → GenState × CallLog → Option (GenState × CallLog))
    (num_rows num_cols : Int) (cur_room : Int × Int) (dir : Nat)
    (st : GenState × CallLog) : Option (GenState × CallLog) :=
  match get_neighbor num_rows num_cols st.1.maze cur_room dir with
  | none => some ({ st.1 with maze := setCon st.1.maze cur_room dir 1 }, st.2)
  | some neighbor =>
    if (st.1.maze neighbor).visited = 0 then
      let s1 : GenState := { st.1 with maze := setCon st.1.maze cur_room dir 0 }
      walk (s1.maze neighbor).row (s1.maze neighbor).col (s1, st.2)
    else
      let opp_dir := get_opposite_dir dir
      let c := (st.1.maze neighbor).con opp_dir
      if c = 0 ∨ c = 1 then
        some ({ st.1 with maze := setCon st.1.maze cur_room dir c }, st.2)
      else
        some ({ st.1 with maze := setCon st.1.maze cur_room dir 1 }, st.2)

/-- The loop of `drunken_walk` (`drunken_walk_loop`) with the record of calls
passed along. -/
def drunken_walk_loop_traced
    (walk : Int → Int → GenState × CallLog → Option (GenState × CallLog))
    (num_rows num_cols : Int) (cur_room : Int × Int) (d : List Nat) :
    List Nat → GenState × CallLog → Option (GenState × CallLog)
  | [], st => some st
  | i :: is, st =>
    match drunken_walk_dir_traced walk num_rows num_cols cur_room (d.getD i 0) st with
    | none => none
    | some st1 => drunken_walk_loop_traced walk num_rows num_cols cur_room d is st1

/-- C `drunken_walk` (generator.c:59-94) with a record of its calls: the same
function as `drunken_walk`, which in addition appends to the record, on entry,
the room of the call and the `visited` flag found there. -/
def drunken_walk_traced (rng : Nat → Nat) (num_rows num_cols : Int) :
    Nat → Int → Int → GenState × CallLog → Option (GenState × CallLog)
  | 0, _, _, _ => none
  | fuel + 1, row, col, st =>
    let cur_room : Int × Int := (row, col)
    let log := st.2 ++ [(cur_room, (st.1.maze cur_room).visited)]
    let maze := setVisited st.1.maze cur_room 1
    let sh := shuffle_array rng [NORTH, SOUTH, WEST, EAST] st.1.calls
    drunken_walk_loop_traced (drunken_walk_traced rng num_rows num_cols fuel)
      num_rows num_cols cur_room sh.1 [0, 1, 2, 3]
      ({ maze := maze, calls := sh.2 }, log)

/-- The record `log` lists, without repetition, the rooms of the maze `m` whose
`visited` flag is set; each was inside the array and unvisited when it was
entered. -/
structure TraceInv (R C : Nat) (m : Grid) (log : CallLog) : Prop where
  coords : coordsOK R C m
  nodup : (log.map Prod.fst).Nodup
  entries : ∀ e ∈ log, InRange R C e.1 ∧ e.2 = 0
  seen : ∀ p, InRange R C p → (p ∈ log.map Prod.fst ↔ (m p).visited ≠ 0)

/-- The rooms of the 2 by 3 maze that the generator builds when `rand()`
returns 0, 1, 2, ... (encoded d 5 9 / 6 a e): the corridor
(0,0) - (1,0) - (1,1) - (0,1) - (0,2) - (1,2). -/
def rooms_2x3 : Grid :=
  ⟨fun p =>
    if p = (0, 0) then roomWith 1 0 1 1
    else if p = (0, 1) then roomWith 1 0 1 0
    else if p = (0, 2) then roomWith 1 0 0 1
    else if p = (1, 0) then roomWith 0 1 1 0
    else if p = (1, 1) then roomWith 0 1 0 1
    else if p = (1, 2) then roomWith 0 1 1 1
    else roomWith 1 1 1 1⟩

/-- An encoded 2 by 3 matrix in which the room (1, 2) is walled off: the matrix
of `rooms_2x3` with b for (0, 2) and f for (1, 2). -/
def blocked_2x3 : Encoded := fun p =>
  if p = (0, 0) then 13 else if p = (0, 1) then 5 else if p = (0, 2) then 11
  else if p = (1, 0) then 6 else if p = (1, 1) then 10 else 15

/-! ## Theorems -/

/-! ### Field updates -/

@[simp] theorem setRoom_apply (m : Grid) (a p : Int × Int) (x : maze_room) :
    setRoom m a x p = if p = a then x else m p := rfl

@[simp] theorem setCon_row (m : Grid) (a p : Int × Int) (d : Nat) (v : Int) :
    (setCon m a d v p).row = (m p).row := by
  unfold setCon withCon; simp only [setRoom_apply]; split_ifs with h <;> simp [h]

@[simp] theorem setCon_col (m : Grid) (a p : Int × Int) (d : Nat) (v : Int) :
    (setCon m a d v p).col = (m p).col := by
  unfold setCon withCon; simp only [setRoom_apply]; split_ifs with h <;> simp [h]

@[simp] theorem setCon_visited (m : Grid) (a p : Int × Int) (d : Nat) (v : Int) :
    (setCon m a d v p).visited = (m p).visited := by
  unfold setCon withCon; simp only [setRoom_apply]; split_ifs with h <;> simp [h]

@[simp] theorem setCon_next (m : Grid) (a p : Int × Int) (d : Nat) (v : Int) :
    (setCon m a d v p).next = (m p).next := by
  unfold setCon withCon; simp only [setRoom_apply]; split_ifs with h <;> simp [h]

theorem setCon_con (m : Grid) (a p : Int × Int) (d k : Nat) (v : Int) :
    (setCon m a d v p).con k = if p = a ∧ k = d then v else (m p).con k := by
  unfold setCon withCon; simp only [setRoom_apply]
  by_cases h : p = a <;> by_cases h2 : k = d <;> simp [h, h2]

@[simp] theorem setVisited_row (m : Grid) (a p : Int × Int) (v : Int) :
    (setVisited m a v p).row = (m p).row := by
  unfold setVisited withVisited; simp only [setRoom_apply]; split_ifs with h <;> simp [h]

@[simp] theorem setVisited_col (m : Grid) (a p : Int × Int) (v : Int) :
    (setVisited m a v p).col = (m p).col := by
  unfold setVisited withVisited; simp only [setRoom_apply]; split_ifs with h <;> simp [h]

@[simp] theorem setVisited_con (m : Grid) (a p : Int × Int) (v : Int) :
    (setVisited m a v p).con = (m p).con := by
  unfold setVisited withVisited; simp only [setRoom_apply]; split_ifs with h <;> simp [h]

@[simp] theorem setVisited_next (m : Grid) (a p : Int × Int) (v : Int) :
    (setVisited m a v p).next = (m p).next := by
  unfold setVisited withVisited; simp only [setRoom_apply]; split_ifs with h <;> simp [h]

theorem setVisited_visited (m : Grid) (a p : Int × Int) (v : Int) :
    (setVisited m a v p).visited = if p = a then v else (m p).visited := by
  unfold setVisited withVisited; simp only [setRoom_apply]; split_ifs with h <;> simp

@[simp] theorem setNext_row (m : Grid) (a p : Int × Int) (n : Option (Int × Int)) :
    (setNext m a n p).row = (m p).row := by
  unfold setNext withNext; simp only [setRoom_apply]; split_ifs with h <;> simp [h]

@[simp] theorem setNext_col (m : Grid) (a p : Int × Int) (n : Option (Int × Int)) :
    (setNext m a n p).col = (m p).col := by
  unfold setNext withNext; simp only [setRoom_apply]; split_ifs with h <;> simp [h]

@[simp] theorem setNext_con (m : Grid) (a p : Int × Int) (n : Option (Int × Int)) :
    (setNext m a n p).con = (m p).con := by
  unfold setNext withNext; simp only [setRoom_apply]; split_ifs with h <;> simp [h]

@[simp] theorem setNext_visited (m : Grid) (a p : Int × Int) (n : Option (Int × Int)) :
    (setNext m a n p).visited = (m p).visited := by
  unfold setNext withNext; simp only [setRoom_apply]; split_ifs with h <;> simp [h]

theorem setNext_next (m : Grid) (a p : Int × Int) (n : Option (Int × Int)) :
    (setNext m a n p).next = if p = a then n else (m p).next := by
  unfold setNext withNext; simp only [setRoom_apply]; split_ifs with h <;> simp

theorem setCon_other (m : Grid) (a p : Int × Int) (d : Nat) (v : Int) (h : p ≠ a) :
    setCon m a d v p = m p := by
  unfold setCon; simp [h]

theorem setVisited_other (m : Grid) (a p : Int × Int) (v : Int) (h : p ≠ a) :
    setVisited m a v p = m p := by
  unfold setVisited; simp [h]

theorem setNext_other (m : Grid) (a p : Int × Int) (n : Option (Int × Int)) (h : p ≠ a) :
    setNext m a n p = m p := by
  unfold setNext; simp [h]

/-! ### Directions and coordinates -/
theorem get_opposite_dir_lt {d : Nat} (h : d < 4) : get_opposite_dir d < 4 := by
  interval_cases d <;> decide

theorem get_opposite_dir_involutive {d : Nat} (h : d < 4) :
    get_opposite_dir (get_opposite_dir d) = d := by
  interval_cases d <;> decide

theorem step_to_opposite (p : Int × Int) {d : Nat} (h : d < 4) :
    step_to (step_to p d) (get_opposite_dir d) = p := by
  obtain ⟨r, c⟩ := p
  interval_cases d <;>
    simp [step_to, get_opposite_dir, get_opposite_dir_in, Direction, NORTH, SOUTH, WEST, EAST]

theorem step_to_ne (p : Int × Int) {d : Nat} (h : d < 4) : step_to p d ≠ p := by
  obtain ⟨r, c⟩ := p
  interval_cases d <;>
    simp [step_to, Direction, NORTH, SOUTH, WEST, EAST]

theorem step_to_injective (p : Int × Int) {d e : Nat} (hd : d < 4) (he : e < 4)
    (h : step_to p d = step_to p e) : d = e := by
  obtain ⟨r, c⟩ := p
  interval_cases d <;> interval_cases e <;>
    simp [step_to, Direction, NORTH, SOUTH, WEST, EAST] at h ⊢ <;> omega

theorem is_in_range_ne_zero (R C : Nat) (r c : Int) :
    is_in_range r c R C ≠ 0 ↔ InRange R C (r, c) := by
  unfold is_in_range InRange
  split_ifs with h
  · simp; omega
  · simp; omega

theorem get_neighbor_eq (R C : Nat) (m : Grid) (p : Int × Int) (d : Nat)
    (h : (m p).row = p.1 ∧ (m p).col = p.2) :
    get_neighbor R C m p d =
      if InRange R C (step_to p d) then some (step_to p d) else none := by
  unfold get_neighbor
  simp only [h.1, h.2, is_in_range_ne_zero]
  rfl

/-! ### The array loops -/

theorem for_loop_zero {σ : Type} (body : Int → σ → σ) (s : σ) :
    for_loop ((0 : Nat) : Int) body s = s := by
  simp [for_loop]

theorem for_loop_succ {σ : Type} (n : Nat) (body : Int → σ → σ) (s : σ) :
    for_loop ((n + 1 : Nat) : Int) body s = body (n : Int) (for_loop (n : Int) body s) := by
  simp only [for_loop, Int.toNat_ofNat, List.range_succ, List.foldl_append, List.foldl_cons,
    List.foldl_nil]

/-- The inner loop over the columns of row `i` applies `f` to each room of
that row once.  `get` and `set` read and write an entry of the array. -/
theorem for_loop_row {σ α : Type} (get : σ → Int × Int → α)
    (set : σ → Int × Int → α → σ)
    (hset : ∀ g a x p, get (set g a x) p = if p = a then x else get g p)
    (C : Nat) (i : Int) (f : Int × Int → α → α) (g : σ) (p : Int × Int) :
    get (for_loop (C : Int) (fun j g => set g (i, j) (f (i, j) (get g (i, j)))) g) p =
      if p.1 = i ∧ 0 ≤ p.2 ∧ p.2 < (C : Int) then f p (get g p) else get g p := by
  induction C with
  | zero =>
    rw [for_loop_zero]
    have : ¬ (p.1 = i ∧ 0 ≤ p.2 ∧ p.2 < ((0 : Nat) : Int)) := by
      simp only [Nat.cast_zero]; omega
    rw [if_neg this]
  | succ n ih =>
    rw [for_loop_succ, hset]
    obtain ⟨r, c⟩ := p
    by_cases h1 : (r, c) = (i, (n : Int))
    · have hr : r = i := (Prod.mk.inj h1).1
      have hc : c = (n : Int) := (Prod.mk.inj h1).2
      subst hr hc
      rw [if_pos rfl, ih]
      have h2 : ¬ (r = r ∧ (0 : Int) ≤ (n : Int) ∧ (n : Int) < (n : Int)) := by omega
      have h3 : r = r ∧ (0 : Int) ≤ (n : Int) ∧ (n : Int) < ((n + 1 : Nat) : Int) := by
        refine ⟨rfl, ?_, ?_⟩ <;> push_cast <;> omega
      rw [if_neg h2, if_pos h3]
    · rw [if_neg h1, ih]
      by_cases h3 : r = i ∧ 0 ≤ c ∧ c < (n : Int)
      · have h4 : r = i ∧ 0 ≤ c ∧ c < ((n + 1 : Nat) : Int) :=
          ⟨h3.1, h3.2.1, by push_cast; omega⟩
        rw [if_pos h3, if_pos h4]
      · have h4 : ¬ (r = i ∧ 0 ≤ c ∧ c < ((n + 1 : Nat) : Int)) := by
          intro hx
          have hx3 := hx.2.2
          push_cast at hx3
          by_cases hcn : c = (n : Int)
          · exact h1 (by rw [hx.1, hcn])
          · exact h3 ⟨hx.1, hx.2.1, by omega⟩
        rw [if_neg h3, if_neg h4]

/-- The two nested loops over an `R` by `C` array apply `f` to each room of
the array once and leave everything else alone. -/
theorem for_loop_grid {σ α : Type} (get : σ → Int × Int → α)
    (set : σ → Int × Int → α → σ)
    (hset : ∀ g a x p, get (set g a x) p = if p = a then x else get g p)
    (R C : Nat) (f : Int × Int → α → α) (g : σ) (p : Int × Int) :
    get (for_loop (R : Int) (fun i g =>
        for_loop (C : Int) (fun j g => set g (i, j) (f (i, j) (get g (i, j)))) g) g) p =
      if InRange R C p then f p (get g p) else get g p := by
  induction R with
  | zero =>
    rw [for_loop_zero]
    have : ¬ InRange 0 C p := by unfold InRange; push_cast; omega
    rw [if_neg this]
  | succ n ih =>
    rw [for_loop_succ, for_loop_row get set hset, ih]
    obtain ⟨r, c⟩ := p
    unfold InRange
    dsimp only
    by_cases h1 : r = (n : Int) ∧ 0 ≤ c ∧ c < (C : Int)
    · have h2 : ¬ (0 ≤ r ∧ r < (n : Int) ∧ 0 ≤ c ∧ c < (C : Int)) := by omega
      have h3 : 0 ≤ r ∧ r < ((n + 1 : Nat) : Int) ∧ 0 ≤ c ∧ c < (C : Int) := by
        push_cast; omega
      rw [if_pos h1, if_neg h2, if_pos h3]
    · rw [if_neg h1]
      by_cases h2 : 0 ≤ r ∧ r < (n : Int) ∧ 0 ≤ c ∧ c < (C : Int)
      · have h3 : 0 ≤ r ∧ r < ((n + 1 : Nat) : Int) ∧ 0 ≤ c ∧ c < (C : Int) := by
          push_cast; omega
        rw [if_pos h2, if_pos h3]
      · have h3 : ¬ (0 ≤ r ∧ r < ((n + 1 : Nat) : Int) ∧ 0 ≤ c ∧ c < (C : Int)) := by
          push_cast; omega
        rw [if_neg h2, if_neg h3]

theorem initialize_maze_eq (R C : Nat) (m : Grid) (p : Int × Int) :
    initialize_maze R C m p =
      if InRange R C p then
        { row := p.1, col := p.2, visited := 0, con := fun _ => -1, next := none }
      else m p :=
  for_loop_grid (fun g : Grid => g.cell) setRoom (fun _ _ _ _ => rfl) R C
    (fun p _ => { row := p.1, col := p.2, visited := 0, con := fun _ => -1, next := none }) m p

theorem decode_maze_eq (R C : Nat) (m : Grid) (enc : Encoded) (p : Int × Int) :
    decode_maze R C m enc p =
      if InRange R C p then create_room_connections (m p) (to_unsigned (enc p))
      else m p :=
  for_loop_grid (fun g : Grid => g.cell) setRoom (fun _ _ _ _ => rfl) R C
    (fun p x => create_room_connections x (to_unsigned (enc p))) m p

theorem encode_maze_eq (R C : Nat) (m : Grid) (result : Encoded) (p : Int × Int) :
    encode_maze R C m result p =
      if InRange R C p then encode_room (m p) else result p :=
  for_loop_grid (fun g : Encoded => g) (fun g a x => fun p => if p = a then x else g p)
    (fun _ _ _ _ => rfl) R C (fun p _ => encode_room (m p)) result p

/-! ### The generator invariant -/

/-- Writing a justified value into an unset connection of a visited room keeps
the generator invariant. -/
theorem GenInv.write_con {R C : Nat} {m : Grid} {calls : Nat}
    {par : Int × Int → Int × Int} {rank : Int × Int → Nat}
    (h : GenInv R C m calls par rank) {a : Int × Int} {d : Nat} {v : Int}
    (ha : InRange R C a) (hva : (m a).visited = 1) (hd : d < 4)
    (hold : (m a).con d = -1) (hv : v = 0 ∨ v = 1)
    (j1 : InRange R C (step_to a d) → (m (step_to a d)).visited = 1)
    (j2 : v = 0 → InRange R C (step_to a d))
    (j3 : InRange R C (step_to a d) →
      (m (step_to a d)).con (get_opposite_dir d) ≠ -1 →
      v = (m (step_to a d)).con (get_opposite_dir d))
    (j4 : v = 0 → (par (step_to a d) = a ∧ step_to a d ≠ (0, 0)) ∨
      (par a = step_to a d ∧ a ≠ (0, 0))) :
    GenInv R C (setCon m a d v) calls par rank := by
  refine ⟨?_, ?_, ?_, ?_, ?_, ?_, ?_, ?_, ?_, ?_, ?_⟩
  · intro p hp; simpa using h.coords p hp
  · intro p hp e he
    rw [setCon_con]
    split_ifs with hc
    · rcases hv with rfl | rfl <;> simp
    · exact h.flags p hp e he
  · intro p hp; simpa using h.vis01 p hp
  · intro p hp hvis e he
    rw [setCon_con]
    simp only [setCon_visited] at hvis
    split_ifs with hc
    · rw [hc.1, hva] at hvis; simp at hvis
    · exact h.fresh p hp hvis e he
  · intro p hp e he hne hin
    simp only [setCon_visited]
    rw [setCon_con] at hne
    split_ifs at hne with hc
    · rw [hc.1, hc.2]; rw [hc.1, hc.2] at hin; exact j1 hin
    · exact h.seen p hp e he hne hin
  · intro p hp e he h0
    rw [setCon_con] at h0
    split_ifs at h0 with hc
    · rw [hc.1, hc.2]; exact j2 h0
    · exact h.inside p hp e he h0
  · intro p hp e he hin h1 h2
    simp only [setCon_con] at h1 h2 ⊢
    by_cases hc : p = a ∧ e = d
    · obtain ⟨rfl, rfl⟩ := hc
      have hne : ¬ (step_to p e = p ∧ get_opposite_dir e = e) := fun hx =>
        step_to_ne p he hx.1
      simp only [and_self, if_true, hne, if_false] at h1 h2 ⊢
      exact j3 hin h2
    · simp only [hc, if_false] at h1 ⊢
      by_cases hc2 : step_to p e = a ∧ get_opposite_dir e = d
      · simp only [hc2, and_self, if_true] at h2 ⊢
        have hp2 : p = step_to a d := by
          rw [← hc2.1, ← hc2.2, step_to_opposite p he]
        have he2 : e = get_opposite_dir d := by
          rw [← hc2.2, get_opposite_dir_involutive he]
        rw [hp2, he2] at h1 ⊢
        rw [hp2] at hp
        exact (j3 hp h1).symm
      · simp only [hc2, if_false] at h2 ⊢
        exact h.sym p hp e he hin h1 h2
  · intro p hp e he h0
    rw [setCon_con] at h0
    split_ifs at h0 with hc
    · rw [hc.1, hc.2]; exact j4 h0
    · exact h.tree p hp e he h0
  · intro p hp hvis hne
    simp only [setCon_visited] at hvis ⊢
    obtain ⟨h1, h2, h3, e, he, h4, h5⟩ := h.parent p hp hvis hne
    refine ⟨h1, h2, h3, e, he, h4, ?_⟩
    rw [setCon_con]
    split_ifs with hc
    · rw [hc.1, hc.2, hold] at h5; simp at h5
    · exact h5
  · intro p hp hvis
    simp only [setCon_visited] at hvis
    exact h.clock p hp hvis
  · simpa using h.root

/-- Opening the connection from a visited room `a` towards an unvisited
neighbour `b` and marking `b` visited keeps the generator invariant, with `b`
entered from `a`. -/
theorem GenInv.enter {R C : Nat} {m : Grid} {calls calls1 : Nat}
    {par : Int × Int → Int × Int} {rank : Int × Int → Nat}
    (h : GenInv R C m calls par rank) {a : Int × Int} {d : Nat}
    (ha : InRange R C a) (hva : (m a).visited = 1) (hd : d < 4)
    (hold : (m a).con d = -1) (hb : InRange R C (step_to a d))
    (hvb : (m (step_to a d)).visited = 0) (hcalls : calls < calls1) :
    GenInv R C (setVisited (setCon m a d 0) (step_to a d) 1) calls1
      (fun p => if p = step_to a d then a else par p)
      (fun p => if p = step_to a d then calls else rank p) := by
  have hab : a ≠ step_to a d := fun hx => by
    rw [← hx, hva] at hvb; simp at hvb
  have hroot : step_to a d ≠ (0, 0) := fun hx => by
    rw [hx, h.root] at hvb; simp at hvb
  refine ⟨?_, ?_, ?_, ?_, ?_, ?_, ?_, ?_, ?_, ?_, ?_⟩
  · intro p hp; simpa using h.coords p hp
  · intro p hp e he
    simp only [setVisited_con, setCon_con]
    split_ifs with hc
    · simp
    · exact h.flags p hp e he
  · intro p hp
    simp only [setVisited_visited, setCon_visited]
    split_ifs with hc
    · simp
    · exact h.vis01 p hp
  · intro p hp hvis e he
    simp only [setVisited_visited, setCon_visited] at hvis
    simp only [setVisited_con, setCon_con]
    split_ifs at hvis with hc
    · simp at hvis
    · have hpa : ¬ (p = a ∧ e = d) := fun hx => by
        rw [hx.1, hva] at hvis; simp at hvis
      simp only [hpa, if_false]
      exact h.fresh p hp hvis e he
  · intro p hp e he hne hin
    simp only [setVisited_visited, setCon_visited]
    simp only [setVisited_con, setCon_con] at hne
    by_cases hc : step_to p e = step_to a d
    · simp [hc]
    · simp only [hc, if_false]
      have hpa : ¬ (p = a ∧ e = d) := fun hx => hc (by rw [hx.1, hx.2])
      simp only [hpa, if_false] at hne
      exact h.seen p hp e he hne hin
  · intro p hp e he h0
    simp only [setVisited_con, setCon_con] at h0
    split_ifs at h0 with hc
    · rw [hc.1, hc.2]; exact hb
    · exact h.inside p hp e he h0
  · intro p hp e he hin h1 h2
    simp only [setVisited_con, setCon_con] at h1 h2 ⊢
    by_cases hc : p = a ∧ e = d
    · obtain ⟨rfl, rfl⟩ := hc
      have hne : ¬ (step_to p e = p ∧ get_opposite_dir e = e) := fun hx =>
        step_to_ne p he hx.1
      simp only [hne, if_false] at h2
      exact absurd (h.fresh _ hb hvb _ (get_opposite_dir_lt he)) h2
    · simp only [hc, if_false] at h1 ⊢
      by_cases hc2 : step_to p e = a ∧ get_opposite_dir e = d
      · have hp2 : p = step_to a d := by
          rw [← hc2.1, ← hc2.2, step_to_opposite p he]
        rw [hp2] at h1
        exact absurd (h.fresh _ hb hvb _ he) h1
      · simp only [hc2, if_false] at h2 ⊢
        exact h.sym p hp e he hin h1 h2
  · intro p hp e he h0
    simp only [setVisited_con, setCon_con] at h0
    by_cases hc : p = a ∧ e = d
    · obtain ⟨rfl, rfl⟩ := hc
      exact Or.inl ⟨if_pos rfl, hroot⟩
    · simp only [hc, if_false] at h0
      have hin := h.inside p hp e he h0
      have hs := h.seen p hp e he (by rw [h0]; simp) hin
      have h1 : step_to p e ≠ step_to a d := fun hx => by
        rw [hx, hvb] at hs; simp at hs
      have h2 : p ≠ step_to a d := fun hx => by
        have := h.fresh _ hb hvb e he
        rw [← hx, h0] at this; simp at this
      simp only [h1, h2, if_false]
      exact h.tree p hp e he h0
  · intro p hp hvis hne
    simp only [setVisited_visited, setCon_visited] at hvis ⊢
    by_cases hc : p = step_to a d
    · subst hc
      simp only [if_true, hab, if_false]
      refine ⟨ha, hva, h.clock a ha hva, d, hd, rfl, ?_⟩
      simp [setCon_con]
    · simp only [hc, if_false] at hvis ⊢
      obtain ⟨h1, h2, h3, e, he, h4, h5⟩ := h.parent p hp hvis hne
      have hpb : par p ≠ step_to a d := fun hx => by
        rw [hx, hvb] at h2; simp at h2
      simp only [hpb, if_false]
      refine ⟨h1, h2, h3, e, he, h4, ?_⟩
      simp only [setVisited_con, setCon_con]
      split_ifs with hx
      · rfl
      · exact h5
  · intro p hp hvis
    simp only [setVisited_visited, setCon_visited] at hvis
    by_cases hc : p = step_to a d
    · simp [hc, hcalls]
    · simp only [hc, if_false] at hvis ⊢
      exact lt_trans (h.clock p hp hvis) hcalls
  · simp only [setVisited_visited, setCon_visited]
    split_ifs
    · rfl
    · exact h.root

/-! ### Counting unvisited rooms -/

theorem unvisitedCount_le_of_imp {R C : Nat} {m m1 : Grid}
    (h : ∀ p, InRange R C p → (m1 p).visited = 0 → (m p).visited = 0) :
    unvisitedCount R C m1 ≤ unvisitedCount R C m := by
  unfold unvisitedCount
  apply Finset.card_le_card
  intro q hq
  simp only [Finset.mem_filter, Finset.mem_product, Finset.mem_range] at hq ⊢
  refine ⟨hq.1, h _ ?_ hq.2⟩
  unfold InRange
  simp only
  omega

theorem unvisitedCount_lt_of_imp {R C : Nat} {m m1 : Grid} {b : Int × Int}
    (h : ∀ p, InRange R C p → (m1 p).visited = 0 → (m p).visited = 0)
    (hb : InRange R C b) (hb0 : (m b).visited = 0) (hb1 : (m1 b).visited ≠ 0) :
    unvisitedCount R C m1 < unvisitedCount R C m := by
  unfold unvisitedCount
  apply Finset.card_lt_card
  rw [Finset.ssubset_iff_of_subset]
  · obtain ⟨r, c⟩ := b
    unfold InRange at hb
    simp only at hb
    refine ⟨(r.toNat, c.toNat), ?_, ?_⟩
    · simp only [Finset.mem_filter, Finset.mem_product, Finset.mem_range]
      have h1 : ((r.toNat : Nat) : Int) = r := Int.toNat_of_nonneg hb.1
      have h2 : ((c.toNat : Nat) : Int) = c := Int.toNat_of_nonneg hb.2.2.1
      rw [h1, h2]
      exact ⟨⟨by omega, by omega⟩, hb0⟩
    · simp only [Finset.mem_filter, Finset.mem_product, Finset.mem_range, not_and]
      intro _
      have h1 : ((r.toNat : Nat) : Int) = r := Int.toNat_of_nonneg hb.1
      have h2 : ((c.toNat : Nat) : Int) = c := Int.toNat_of_nonneg hb.2.2.1
      rw [h1, h2]
      exact hb1
  · intro q hq
    simp only [Finset.mem_filter, Finset.mem_product, Finset.mem_range] at hq ⊢
    refine ⟨hq.1, h _ ?_ hq.2⟩
    unfold InRange
    simp only
    omega

theorem unvisitedCount_le_mul (R C : Nat) (m : Grid) : unvisitedCount R C m ≤ R * C := by
  unfold unvisitedCount
  calc _ ≤ (Finset.range R ×ˢ Finset.range C).card := Finset.card_filter_le _ _
    _ = R * C := by simp

theorem unvisitedCount_setVisited_lt {R C : Nat} {m : Grid} {b : Int × Int}
    (hb : InRange R C b) (hb0 : (m b).visited = 0) :
    unvisitedCount R C (setVisited m b 1) < unvisitedCount R C m := by
  apply unvisitedCount_lt_of_imp _ hb hb0
  · simp [setVisited_visited]
  · intro p _ hp
    rw [setVisited_visited] at hp
    split_ifs at hp with hc
    · simp at hp
    · exact hp

/-! ### The shuffle -/

theorem shuffle_array_eq (rng : Nat → Nat) (calls : Nat) :
    shuffle_array rng [NORTH, SOUTH, WEST, EAST] calls =
      (shuffle4 (rng calls % 4) (rng (calls + 1) % 4) (rng (calls + 2) % 4)
        (rng (calls + 3) % 4), calls + 4) := rfl

theorem shuffle4_dirs_fin : ∀ r0 r1 r2 r3 : Fin 4,
    (dirs_of (shuffle4 r0 r1 r2 r3) [0, 1, 2, 3]).Nodup ∧
    (∀ x ∈ dirs_of (shuffle4 r0 r1 r2 r3) [0, 1, 2, 3], x < 4) ∧
    (∀ x, x < 4 → x ∈ dirs_of (shuffle4 r0 r1 r2 r3) [0, 1, 2, 3]) := by
  decide

theorem shuffle_array_dirs (rng : Nat → Nat) (calls : Nat) :
    (dirs_of (shuffle_array rng [NORTH, SOUTH, WEST, EAST] calls).1 [0, 1, 2, 3]).Nodup ∧
    (∀ x ∈ dirs_of (shuffle_array rng [NORTH, SOUTH, WEST, EAST] calls).1 [0, 1, 2, 3], x < 4) ∧
    (∀ x, x < 4 → x ∈ dirs_of (shuffle_array rng [NORTH, SOUTH, WEST, EAST] calls).1 [0, 1, 2, 3]) := by
  rw [shuffle_array_eq]
  exact shuffle4_dirs_fin ⟨rng calls % 4, Nat.mod_lt _ (by decide)⟩
    ⟨rng (calls + 1) % 4, Nat.mod_lt _ (by decide)⟩
    ⟨rng (calls + 2) % 4, Nat.mod_lt _ (by decide)⟩
    ⟨rng (calls + 3) % 4, Nat.mod_lt _ (by decide)⟩

/-! ### The contract of `drunken_walk` -/

/-- One direction of the loop of `drunken_walk`. -/
theorem drunken_walk_dir_spec {rng : Nat → Nat} {R C fuel : Nat}
    (hwalk : WalkSpec rng R C fuel) {a : Int × Int} (ha : InRange R C a)
    {x : Nat} (hx : x < 4) {s : GenState}
    (hinv : ∃ par rank, GenInv R C s.maze s.calls par rank)
    (hva : (s.maze a).visited = 1) (hcon : (s.maze a).con x = -1)
    (hU : unvisitedCount R C s.maze ≤ fuel) :
    ∃ s1, drunken_walk_dir (drunken_walk rng R C fuel) R C a x s = some s1 ∧
      (∃ par rank, GenInv R C s1.maze s1.calls par rank) ∧
      LoopPost R C a [x] s.maze s1.maze := by
  obtain ⟨par, rank, h⟩ := hinv
  have post : ∀ v : Int, v ≠ -1 → LoopPost R C a [x] s.maze (setCon s.maze a x v) := by
    intro v hv
    refine ⟨?_, ?_, ?_, ?_⟩
    · intro p _ _ hne
      exact setCon_other _ _ _ _ _ hne
    · refine ⟨by simpa using hva, fun y hy => ?_⟩
      rw [setCon_con]
      have : ¬ (a = a ∧ y = x) := fun hc => hy (by simp [hc.2])
      rw [if_neg this]
    · intro y hy
      rw [List.mem_singleton] at hy
      rw [hy, setCon_con]
      simpa using hv
    · intro p _ hvp hvp1
      rw [setCon_visited, hvp] at hvp1
      simp at hvp1
  unfold drunken_walk_dir
  rw [get_neighbor_eq R C s.maze a x (h.coords a ha)]
  by_cases hin : InRange R C (step_to a x)
  · simp only [hin, if_true]
    by_cases hvb : (s.maze (step_to a x)).visited = 0
    · simp only [hvb, if_true, setCon_row, setCon_col]
      rw [(h.coords _ hin).1, (h.coords _ hin).2]
      have hent := h.enter ha hva hx hcon hin hvb (Nat.lt_add_of_pos_right (by decide : 0 < 4))
      obtain ⟨s1, hs1, hinv1, hpost⟩ :=
        hwalk { s with maze := setCon s.maze a x 0 } (step_to a x) hin
          (by simpa using hvb)
          (fun y hy => by
            have hne : step_to a x ≠ a := step_to_ne a hx
            simp only [setCon_other _ _ _ _ _ hne]
            exact h.fresh _ hin hvb y hy)
          (le_trans (unvisitedCount_le_of_imp (fun p _ hp => by simpa using hp)) hU)
          ⟨_, _, hent⟩
      replace hpost : WalkPost R C (step_to a x) (setCon s.maze a x 0) s1.maze := hpost
      refine ⟨s1, hs1, hinv1, ?_, ?_, ?_, ?_⟩
      · intro p hp hvp hne
        rw [hpost.keep p hp (by simpa using hvp), setCon_other _ _ _ _ _ hne]
      · rw [hpost.keep a ha (by simpa using hva)]
        exact (post 0 (by decide)).keepA
      · intro y hy
        rw [hpost.keep a ha (by simpa using hva)]
        exact (post 0 (by decide)).setA y hy
      · intro p hp hvp hvp1
        exact hpost.done p hp (by simpa using hvp) hvp1
    · have hvb1 : (s.maze (step_to a x)).visited = 1 := by
        rcases h.vis01 _ hin with h0 | h1
        · exact absurd h0 hvb
        · exact h1
      simp only [hvb, if_false]
      have key : ∀ v : Int, (v = 0 ∨ v = 1) →
          ((s.maze (step_to a x)).con (get_opposite_dir x) ≠ -1 →
            v = (s.maze (step_to a x)).con (get_opposite_dir x)) →
          (v = 0 → (s.maze (step_to a x)).con (get_opposite_dir x) = 0) →
          (∃ par rank, GenInv R C (setCon s.maze a x v) s.calls par rank) ∧
            LoopPost R C a [x] s.maze (setCon s.maze a x v) := by
        intro v hv hj hj0
        refine ⟨⟨par, rank, h.write_con ha hva hx hcon hv (fun _ => hvb1) (fun _ => hin)
          (fun _ => hj) ?_⟩, post v (by rcases hv with rfl | rfl <;> decide)⟩
        intro hv0
        have := h.tree _ hin _ (get_opposite_dir_lt hx) (hj0 hv0)
        rw [step_to_opposite a hx] at this
        exact this.symm
      by_cases hc : (s.maze (step_to a x)).con (get_opposite_dir x) = 0 ∨
          (s.maze (step_to a x)).con (get_opposite_dir x) = 1
      · simp only [hc, if_true]
        exact ⟨_, rfl, key _ hc (fun _ => rfl) (fun h0 => h0)⟩
      · simp only [hc, if_false]
        refine ⟨_, rfl, key 1 (Or.inr rfl) (fun hne => ?_) (fun h0 => by simp at h0)⟩
        rcases h.flags _ hin _ (get_opposite_dir_lt hx) with hm | hm | hm
        · exact absurd hm hne
        · exact absurd (Or.inl hm) hc
        · exact absurd (Or.inr hm) hc
  · simp only [hin, if_false]
    refine ⟨_, rfl, ⟨par, rank, h.write_con ha hva hx hcon (Or.inr rfl)
      (fun hc => absurd hc hin) (fun hc => by simp at hc) (fun hc => absurd hc hin)
      (fun hc => by simp at hc)⟩, post 1 (by decide)⟩

theorem LoopPost.unvisited_before {R C : Nat} {a : Int × Int} {ds : List Nat} {m m1 : Grid}
    (h : LoopPost R C a ds m m1)
    (hv : ∀ p, InRange R C p → (m p).visited = 0 ∨ (m p).visited = 1) :
    ∀ p, InRange R C p → (m1 p).visited = 0 → (m p).visited = 0 := by
  intro p hp h0
  rcases hv p hp with h1 | h1
  · exact h1
  · by_cases hpa : p = a
    · rw [hpa, h.keepA.1] at h0; simp at h0
    · rw [h.keep p hp h1 hpa, h1] at h0; simp at h0

/-- The loop of `drunken_walk` over the remaining indices `is`. -/
theorem drunken_walk_loop_spec {rng : Nat → Nat} {R C fuel : Nat}
    (hwalk : WalkSpec rng R C fuel) {a : Int × Int} (ha : InRange R C a)
    (d : List Nat) : ∀ (is : List Nat) (s : GenState),
    (dirs_of d is).Nodup → (∀ x ∈ dirs_of d is, x < 4) →
    (∃ par rank, GenInv R C s.maze s.calls par rank) →
    (s.maze a).visited = 1 → (∀ x ∈ dirs_of d is, (s.maze a).con x = -1) →
    unvisitedCount R C s.maze ≤ fuel →
    ∃ s1, drunken_walk_loop (drunken_walk rng R C fuel) R C a d is s = some s1 ∧
      (∃ par rank, GenInv R C s1.maze s1.calls par rank) ∧
      LoopPost R C a (dirs_of d is) s.maze s1.maze := by
  intro is
  induction is with
  | nil =>
    intro s _ _ hinv hva _ _
    refine ⟨s, rfl, hinv, fun _ _ _ _ => rfl, ⟨hva, fun _ _ => rfl⟩, ?_, ?_⟩
    · intro x hx
      simp [dirs_of] at hx
    · intro p _ h0 h1
      rw [h0] at h1; simp at h1
  | cons i is ih =>
    intro s hnd hlt hinv hva hcon hU
    have hd : dirs_of d (i :: is) = d.getD i 0 :: dirs_of d is := rfl
    rw [hd] at hnd hlt hcon ⊢
    have hx4 : d.getD i 0 < 4 := hlt _ (List.mem_cons_self _ _)
    obtain ⟨s1, hs1, hinv1, hp1⟩ :=
      drunken_walk_dir_spec hwalk ha hx4 hinv hva (hcon _ (List.mem_cons_self _ _)) hU
    have hv01 : ∀ p, InRange R C p → (s.maze p).visited = 0 ∨ (s.maze p).visited = 1 := by
      obtain ⟨_, _, h⟩ := hinv
      exact h.vis01
    have hv01' : ∀ p, InRange R C p → (s1.maze p).visited = 0 ∨ (s1.maze p).visited = 1 := by
      obtain ⟨_, _, h⟩ := hinv1
      exact h.vis01
    have hmono := hp1.unvisited_before hv01
    have hnotin : ∀ y ∈ dirs_of d is, y ∉ [d.getD i 0] := by
      intro y hy hc
      rw [List.mem_singleton] at hc
      rw [hc] at hy
      exact (List.nodup_cons.1 hnd).1 hy
    obtain ⟨s2, hs2, hinv2, hp2⟩ := ih s1 (List.nodup_cons.1 hnd).2
      (fun y hy => hlt y (List.mem_cons_of_mem _ hy)) hinv1 hp1.keepA.1
      (fun y hy => by
        rw [hp1.keepA.2 y (hnotin y hy)]
        exact hcon y (List.mem_cons_of_mem _ hy))
      (le_trans (unvisitedCount_le_of_imp hmono) hU)
    refine ⟨s2, ?_, hinv2, ?_, ?_, ?_, ?_⟩
    · simp only [drunken_walk_loop, hs1, hs2]
    · intro p hp hvp hne
      rw [hp2.keep p hp (by rw [hp1.keep p hp hvp hne]; exact hvp) hne, hp1.keep p hp hvp hne]
    · refine ⟨hp2.keepA.1, fun y hy => ?_⟩
      rw [List.mem_cons, not_or] at hy
      rw [hp2.keepA.2 y hy.2, hp1.keepA.2 y (by simpa using hy.1)]
    · intro y hy
      rw [List.mem_cons] at hy
      rcases hy with rfl | hy
      · rw [hp2.keepA.2 _ (List.nodup_cons.1 hnd).1]
        exact hp1.setA _ (List.mem_singleton_self _)
      · exact hp2.setA y hy
    · intro p hp h0 h2 e he
      rcases hv01' p hp with h1 | h1
      · exact hp2.done p hp h1 h2 e he
      · have hne : p ≠ a := fun hc => by
          rw [hc, hva] at h0; simp at h0
        rw [hp2.keep p hp h1 hne]
        exact hp1.done p hp h0 h1 e he

/-- The contract of `drunken_walk` holds at every recursion depth. -/
theorem drunken_walk_spec (rng : Nat → Nat) (R C : Nat) :
    ∀ fuel, WalkSpec rng R C fuel := by
  intro fuel
  induction fuel with
  | zero =>
    intro s b hb hvb _ hU _
    have := unvisitedCount_setVisited_lt hb hvb
    omega
  | succ fuel ih =>
    intro s b hb hvb hfresh hU hinv
    have hdirs := shuffle_array_dirs rng s.calls
    have hcalls : (shuffle_array rng [NORTH, SOUTH, WEST, EAST] s.calls).2 = s.calls + 4 := by
      rw [shuffle_array_eq]
    have hlt := unvisitedCount_setVisited_lt hb hvb
    obtain ⟨s1, hs1, hinv1, hp1⟩ := drunken_walk_loop_spec ih hb
      (shuffle_array rng [NORTH, SOUTH, WEST, EAST] s.calls).1 [0, 1, 2, 3]
      { maze := setVisited s.maze b 1,
        calls := (shuffle_array rng [NORTH, SOUTH, WEST, EAST] s.calls).2 }
      hdirs.1 hdirs.2.1 (by rw [hcalls]; exact hinv)
      (by simp [setVisited_visited])
      (fun x hx => by
        simp only [setVisited_con]
        exact hfresh x (hdirs.2.1 x hx))
      (by simp only; omega)
    replace hp1 : LoopPost R C b
      (dirs_of (shuffle_array rng [NORTH, SOUTH, WEST, EAST] s.calls).1 [0, 1, 2, 3])
      (setVisited s.maze b 1) s1.maze := hp1
    refine ⟨s1, hs1, hinv1, ?_, hp1.keepA.1, ?_⟩
    · intro p hp hvp
      have hne : p ≠ b := fun hc => by
        rw [hc, hvb] at hvp; simp at hvp
      rw [hp1.keep p hp (by rw [setVisited_other _ _ _ _ hne]; exact hvp) hne,
        setVisited_other _ _ _ _ hne]
    · intro p hp h0 h1 e he
      by_cases hc : p = b
      · rw [hc]
        exact hp1.setA e (hdirs.2.2 e he)
      · exact hp1.done p hp (by rw [setVisited_other _ _ _ _ hc]; exact h0) h1 e he

/-! ### The generated maze -/

/-- Every room of the array is reached from the origin by steps to
neighbours inside the array. -/
theorem grid_induction {R C : Nat} (P : Int × Int → Prop) (h0 : P (0, 0))
    (hstep : ∀ p, InRange R C p → P p → ∀ d, d < 4 → InRange R C (step_to p d) →
      P (step_to p d)) :
    ∀ p, InRange R C p → P p := by
  have hrow : ∀ n : Nat, (n : Int) < R → 0 < C → P ((n : Int), 0) := by
    intro n
    induction n with
    | zero => intro _ _; exact h0
    | succ k ih =>
      intro hk hC
      have hk1 : (k : Int) < R := by push_cast at hk; omega
      have hin : InRange R C ((k : Int), 0) := ⟨by omega, hk1, le_refl _, by omega⟩
      have hs : step_to ((k : Int), 0) 1 = (((k + 1 : Nat) : Int), 0) := by
        simp [step_to, Direction, NORTH, SOUTH, WEST, EAST]
      have := hstep _ hin (ih hk1 hC) 1 (by decide)
      rw [hs] at this
      exact this ⟨by omega, hk, le_refl _, by omega⟩
  have hcol : ∀ (r : Int) (n : Nat), 0 ≤ r → r < R → (n : Int) < C → P (r, (n : Int)) := by
    intro r n hr0 hr
    induction n with
    | zero =>
      intro hC
      have := hrow r.toNat (by rw [Int.toNat_of_nonneg hr0]; exact hr) (by simpa using hC)
      rw [Int.toNat_of_nonneg hr0] at this
      exact this
    | succ k ih =>
      intro hk
      have hk1 : (k : Int) < C := by push_cast at hk; omega
      have hin : InRange R C (r, (k : Int)) := ⟨hr0, hr, by omega, hk1⟩
      have hs : step_to (r, (k : Int)) 3 = (r, ((k + 1 : Nat) : Int)) := by
        simp [step_to, Direction, NORTH, SOUTH, WEST, EAST]
      have := hstep _ hin (ih hk1) 3 (by decide)
      rw [hs] at this
      exact this ⟨hr0, hr, by omega, hk⟩
  intro p hp
  obtain ⟨r, c⟩ := p
  have := hcol r c.toNat hp.1 hp.2.1 (by rw [Int.toNat_of_nonneg hp.2.2.1]; exact hp.2.2.2)
  rw [Int.toNat_of_nonneg hp.2.2.1] at this
  exact this

theorem initialize_maze_apply {R C : Nat} (m : Grid) {p : Int × Int} (hp : InRange R C p) :
    initialize_maze R C m p =
      { row := p.1, col := p.2, visited := 0, con := fun _ => -1, next := none } := by
  rw [initialize_maze_eq]
  exact if_pos hp

theorem initialize_maze_inv (R C : Nat) (hR : 0 < R) (hC : 0 < C) (m0 : Grid) :
    GenInv R C (setVisited (initialize_maze R C m0) (0, 0) 1) 4 (fun p => p) (fun _ => 0) := by
  have h00 : InRange R C (0, 0) := ⟨le_refl _, by simpa using hR, le_refl _, by simpa using hC⟩
  have hcon : ∀ p, InRange R C p → ∀ d,
      (setVisited (initialize_maze R C m0) (0, 0) 1 p).con d = -1 := by
    intro p hp d
    simp [initialize_maze_eq, hp]
  have hvis : ∀ p, InRange R C p →
      (setVisited (initialize_maze R C m0) (0, 0) 1 p).visited = if p = (0, 0) then 1 else 0 := by
    intro p hp
    simp only [setVisited_visited, initialize_maze_eq, hp, if_true]
  refine ⟨?_, ?_, ?_, ?_, ?_, ?_, ?_, ?_, ?_, ?_, ?_⟩
  · intro p hp
    simp [initialize_maze_eq, hp]
  · intro p hp d _
    exact Or.inl (hcon p hp d)
  · intro p hp
    rw [hvis p hp]
    split_ifs <;> simp
  · intro p hp _ d _
    exact hcon p hp d
  · intro p hp d _ hne
    exact absurd (hcon p hp d) hne
  · intro p hp d _ h0
    rw [hcon p hp d] at h0; simp at h0
  · intro p hp d _ _ hne
    exact absurd (hcon p hp d) hne
  · intro p hp d _ h0
    rw [hcon p hp d] at h0; simp at h0
  · intro p hp hv hne
    rw [hvis p hp, if_neg hne] at hv; simp at hv
  · intro _ _ _; decide
  · rw [hvis _ h00]; simp

/-- The generator returns for every positive size, every `rand()` stream and
every fuel of at least `R * C`, and leaves a maze satisfying `GenDone`. -/
theorem generate_done (rng : Nat → Nat) (R C : Nat) (hR : 0 < R) (hC : 0 < C)
    (fuel : Nat) (hfuel : R * C ≤ fuel) (m0 : Grid) :
    ∃ s, generate rng fuel R C m0 = some s ∧ GenDone R C s.maze := by
  have h00 : InRange R C (0, 0) := ⟨le_refl _, by simpa using hR, le_refl _, by simpa using hC⟩
  have hinit : ∀ p, InRange R C p → (initialize_maze R C m0 p).visited = 0 := by
    intro p hp; simp [initialize_maze_eq, hp]
  obtain ⟨s, hs, ⟨par, rank, hinv⟩, hpost⟩ := drunken_walk_spec rng R C fuel
    { maze := initialize_maze R C m0, calls := 0 } (0, 0) h00 (hinit _ h00)
    (by intro x _; show (initialize_maze R C m0 (0, 0)).con x = -1
        rw [initialize_maze_apply m0 h00])
    (le_trans (unvisitedCount_le_mul R C _) hfuel)
    ⟨_, _, initialize_maze_inv R C hR hC m0⟩
  replace hpost : WalkPost R C (0, 0) (initialize_maze R C m0) s.maze := hpost
  have hset : ∀ p, InRange R C p → (s.maze p).visited = 1 → ∀ d, d < 4 →
      (s.maze p).con d ≠ -1 := fun p hp hv => hpost.done p hp (hinit p hp) hv
  have hall : ∀ p, InRange R C p → (s.maze p).visited = 1 := by
    apply grid_induction
    · exact hinv.root
    · intro p hp hv d hd hin
      exact hinv.seen p hp d hd (hset p hp hv d hd) hin
  have hflags : ∀ p, InRange R C p → ∀ d, d < 4 →
      (s.maze p).con d = 0 ∨ (s.maze p).con d = 1 := by
    intro p hp d hd
    rcases hinv.flags p hp d hd with h | h
    · exact absurd h (hset p hp (hall p hp) d hd)
    · exact h
  refine ⟨s, hs, hinv.coords, hall, hflags, ?_, ?_, par, rank, hinv.tree, ?_⟩
  · intro p hp d hd hout
    rcases hflags p hp d hd with h | h
    · exact absurd (hinv.inside p hp d hd h) hout
    · exact h
  · intro p hp d hd hin
    exact hinv.sym p hp d hd hin (hset p hp (hall p hp) d hd)
      (hset _ hin (hall _ hin) _ (get_opposite_dir_lt hd))
  · intro p hp hne
    obtain ⟨h1, _, h3, h4⟩ := hinv.parent p hp (hall p hp) hne
    exact ⟨h1, h3, h4⟩

/-! ### Graphs with a parent relation are trees -/

/-- In a graph all of whose edges join a vertex to its unique parent, where
parents have smaller rank, a walk that leaves the descendants of `v` uses the
edge between `v` and its parent. -/
theorem walk_uses_parent_edge {V : Type} (G : SimpleGraph V)
    (Par : V → V → Prop)
    (huniq : ∀ u w v, Par u v → Par w v → u = w)
    (hedge : ∀ u v, G.Adj u v → Par u v ∨ Par v u)
    {u v : V} (huv : Par u v) :
    ∀ {a b : V} (p : G.Walk a b), Relation.ReflTransGen Par v a →
      ¬ Relation.ReflTransGen Par v b → s(u, v) ∈ p.edges := by
  intro a b p
  induction p with
  | nil => intro ha hb; exact absurd ha hb
  | cons hadj p ih =>
    rename_i x y z
    intro hx hz
    rw [SimpleGraph.Walk.edges_cons, List.mem_cons]
    by_cases hy : Relation.ReflTransGen Par v y
    · exact Or.inr (ih hy hz)
    · left
      rcases hedge x y hadj with hxy | hyx
      · exact absurd (Relation.ReflTransGen.tail hx hxy) hy
      · rcases Relation.ReflTransGen.cases_tail hx with hxv | ⟨w, hw, hwx⟩
        · subst hxv
          rw [huniq u y _ huv hyx]
          exact Sym2.eq_swap
        · rw [huniq w y x hwx hyx] at hw
          exact absurd hw hy

theorem rank_le_of_descendant {V : Type} (Par : V → V → Prop) (rank : V → Nat)
    (hrank : ∀ u v, Par u v → rank u < rank v) {v a : V}
    (h : Relation.ReflTransGen Par v a) : rank v ≤ rank a := by
  induction h with
  | refl => exact le_refl _
  | tail _ hbc ih => exact le_trans ih (le_of_lt (hrank _ _ hbc))

/-- A graph in which every vertex but `root` has a parent of smaller rank it
is adjacent to, parents are unique, and every edge joins a vertex to its
parent, is a tree. -/
theorem isTree_of_parent {V : Type} (G : SimpleGraph V) (root : V)
    (Par : V → V → Prop) (rank : V → Nat)
    (hex : ∀ v, v ≠ root → ∃ u, Par u v)
    (hadj : ∀ u v, Par u v → G.Adj u v)
    (hrank : ∀ u v, Par u v → rank u < rank v)
    (huniq : ∀ u w v, Par u v → Par w v → u = w)
    (hedge : ∀ u v, G.Adj u v → Par u v ∨ Par v u) : G.IsTree := by
  have hreach : ∀ n v, rank v ≤ n → G.Reachable root v := by
    intro n
    induction n with
    | zero =>
      intro v hv
      by_cases hroot : v = root
      · rw [hroot]
      · obtain ⟨u, hu⟩ := hex v hroot
        have := hrank u v hu
        omega
    | succ k ih =>
      intro v hv
      by_cases hroot : v = root
      · rw [hroot]
      · obtain ⟨u, hu⟩ := hex v hroot
        have := hrank u v hu
        exact (ih u (by omega)).trans (hadj u v hu).reachable
  haveI : Nonempty V := ⟨root⟩
  refine ⟨⟨fun a b => ((hreach _ a (le_refl _)).symm).trans (hreach _ b (le_refl _))⟩, ?_⟩
  rw [SimpleGraph.isAcyclic_iff_forall_adj_isBridge]
  intro x y hxy
  rw [SimpleGraph.isBridge_iff_adj_and_forall_walk_mem_edges]
  refine ⟨hxy, fun p => ?_⟩
  rcases hedge x y hxy with h | h
  · have := walk_uses_parent_edge G Par huniq hedge h p.reverse Relation.ReflTransGen.refl
      (fun hc => by
        have := rank_le_of_descendant Par rank hrank hc
        have := hrank x y h
        omega)
    rwa [SimpleGraph.Walk.edges_reverse, List.mem_reverse] at this
  · have := walk_uses_parent_edge G Par huniq hedge h p Relation.ReflTransGen.refl
      (fun hc => by
        have := rank_le_of_descendant Par rank hrank hc
        have := hrank y x h
        omega)
    rwa [Sym2.eq_swap] at this

/-! ### The maze graph -/

theorem cellOf_inRange {R C : Nat} (v : Fin R × Fin C) : InRange R C (cellOf v) := by
  unfold InRange cellOf
  have h1 := v.1.isLt
  have h2 := v.2.isLt
  simp only
  omega

theorem cellOf_injective {R C : Nat} {u v : Fin R × Fin C} (h : cellOf u = cellOf v) :
    u = v := by
  unfold cellOf at h
  have h1 := (Prod.mk.inj h).1
  have h2 := (Prod.mk.inj h).2
  apply Prod.ext
  · apply Fin.ext; exact_mod_cast h1
  · apply Fin.ext; exact_mod_cast h2

theorem exists_cellOf {R C : Nat} {p : Int × Int} (hp : InRange R C p) :
    ∃ v : Fin R × Fin C, cellOf v = p := by
  obtain ⟨r, c⟩ := p
  unfold InRange at hp
  simp only at hp
  refine ⟨(⟨r.toNat, by omega⟩, ⟨c.toNat, by omega⟩), ?_⟩
  unfold cellOf
  simp only [Int.toNat_of_nonneg hp.1, Int.toNat_of_nonneg hp.2.2.1]

theorem openTo_iff {R C : Nat} {m : Grid} (hc : coordsOK R C m) {p q : Int × Int}
    (hp : InRange R C p) :
    OpenTo R C m p q ↔ ∃ d, d < 4 ∧ step_to p d = q ∧ InRange R C q ∧ (m p).con d = 0 := by
  unfold OpenTo
  constructor
  · rintro ⟨d, hd, hn, h0⟩
    rw [get_neighbor_eq R C m p d (hc p hp)] at hn
    split_ifs at hn with hin
    have := Option.some.inj hn
    exact ⟨d, hd, this, this ▸ hin, h0⟩
  · rintro ⟨d, hd, hs, hin, h0⟩
    refine ⟨d, hd, ?_, h0⟩
    rw [get_neighbor_eq R C m p d (hc p hp), hs, if_pos hin]

/-- The graph of a maze satisfying `GenDone` is a tree. -/
theorem GenDone.isTree {R C : Nat} {m : Grid} (h : GenDone R C m) (hR : 0 < R) (hC : 0 < C) :
    (openGraph R C m).IsTree := by
  obtain ⟨par, rank, htree, hpar⟩ := h.tree
  have hkey : ∀ u v : Fin R × Fin C, OpenTo R C m (cellOf u) (cellOf v) →
      (par (cellOf v) = cellOf u ∧ cellOf v ≠ (0, 0)) ∨
      (par (cellOf u) = cellOf v ∧ cellOf u ≠ (0, 0)) := by
    intro u v ho
    obtain ⟨d, hd, hs, _, h0⟩ := (openTo_iff h.coords (cellOf_inRange u)).1 ho
    have := htree _ (cellOf_inRange u) d hd h0
    rw [hs] at this
    exact this
  apply isTree_of_parent (openGraph R C m) (⟨0, hR⟩, ⟨0, hC⟩)
    (fun u v => par (cellOf v) = cellOf u ∧ cellOf v ≠ (0, 0))
    (fun v => rank (cellOf v))
  · intro v hv
    have hne : cellOf v ≠ (0, 0) := fun hc => hv (cellOf_injective (by rw [hc]; rfl))
    obtain ⟨hin, _, _⟩ := hpar _ (cellOf_inRange v) hne
    obtain ⟨u, hu⟩ := exists_cellOf hin
    exact ⟨u, hu.symm, hne⟩
  · rintro u v ⟨huv, hne⟩
    obtain ⟨_, hr, d, hd, hs, h0⟩ := hpar _ (cellOf_inRange v) hne
    rw [huv] at hr hs h0
    refine ⟨fun hc => ?_, Or.inl ?_⟩
    · rw [hc] at hr; exact lt_irrefl _ hr
    · exact (openTo_iff h.coords (cellOf_inRange u)).2 ⟨d, hd, hs, cellOf_inRange v, h0⟩
  · rintro u v ⟨huv, hne⟩
    obtain ⟨_, hr, _⟩ := hpar _ (cellOf_inRange v) hne
    rw [huv] at hr
    exact hr
  · rintro u w v ⟨h1, _⟩ ⟨h2, _⟩
    exact cellOf_injective (h1.symm.trans h2)
  · rintro u v ⟨_, ho | ho⟩
    · exact hkey u v ho
    · exact (hkey v u ho).symm

/-- A tree on the rooms of an `R` by `C` array has `R * C - 1` edges. -/
theorem card_edgeSet_of_isTree {R C : Nat} {G : SimpleGraph (Fin R × Fin C)}
    (h : G.IsTree) : Nat.card G.edgeSet = R * C - 1 := by
  classical
  have h1 := h.card_edgeFinset
  rw [Fintype.card_prod, Fintype.card_fin, Fintype.card_fin] at h1
  rw [Nat.card_eq_fintype_card, ← SimpleGraph.edgeFinset_card]
  omega

/-! ### Encoding and decoding of rooms -/

theorem direction_numbering_fin : ∀ n s w e : Fin 4,
    (get_opposite_dir_in ⟨n, s, w, e⟩ n = s ∧ get_opposite_dir_in ⟨n, s, w, e⟩ s = n ∧
     get_opposite_dir_in ⟨n, s, w, e⟩ w = e ∧ get_opposite_dir_in ⟨n, s, w, e⟩ e = w ∧
     n ≠ s ∧ n ≠ w ∧ n ≠ e ∧ s ≠ w ∧ s ≠ e ∧ w ≠ e) →
    n.val = 0 ∧ s.val = 1 ∧ w.val = 2 ∧ e.val = 3 := by
  decide

/-- The numbering of the directions is forced by `get_opposite_dir`: among the
numberings by indices of `con[4]`, it maps every direction to its opposite
only under NORTH = 0, SOUTH = 1, WEST = 2 and EAST = 3. -/
theorem direction_numbering_forced (E : DirectionEnum)
    (hlt : E.NORTH < 4 ∧ E.SOUTH < 4 ∧ E.WEST < 4 ∧ E.EAST < 4)
    (hN : get_opposite_dir_in E E.NORTH = E.SOUTH)
    (hS : get_opposite_dir_in E E.SOUTH = E.NORTH)
    (hW : get_opposite_dir_in E E.WEST = E.EAST)
    (hE : get_opposite_dir_in E E.EAST = E.WEST)
    (hNS : E.NORTH ≠ E.SOUTH) (hNW : E.NORTH ≠ E.WEST) (hNE : E.NORTH ≠ E.EAST)
    (hSW : E.SOUTH ≠ E.WEST) (hSE : E.SOUTH ≠ E.EAST) (hWE : E.WEST ≠ E.EAST) :
    E.NORTH = 0 ∧ E.SOUTH = 1 ∧ E.WEST = 2 ∧ E.EAST = 3 := by
  obtain ⟨n, s, w, e⟩ := E
  exact direction_numbering_fin ⟨n, hlt.1⟩ ⟨s, hlt.2.1⟩ ⟨w, hlt.2.2.1⟩ ⟨e, hlt.2.2.2⟩
    ⟨hN, hS, hW, hE, fun h => hNS (congrArg Fin.val h), fun h => hNW (congrArg Fin.val h),
      fun h => hNE (congrArg Fin.val h), fun h => hSW (congrArg Fin.val h),
      fun h => hSE (congrArg Fin.val h), fun h => hWE (congrArg Fin.val h)⟩

theorem create_room_connections_con (room : maze_room) (hex k : Nat) :
    (create_room_connections room hex).con k =
      if k = 3 then (((hex &&& 1) / 1 : Nat) : Int)
      else if k = 2 then (((hex &&& 2) / 2 : Nat) : Int)
      else if k = 1 then (((hex &&& 4) / 4 : Nat) : Int)
      else if k = 0 then (((hex &&& 8) / 8 : Nat) : Int)
      else room.con k := by
  simp only [create_room_connections, create_room_connections_step, List.foldl_cons,
    List.foldl_nil]

theorem create_room_connections_row (room : maze_room) (hex : Nat) :
    (create_room_connections room hex).row = room.row := rfl

theorem create_room_connections_col (room : maze_room) (hex : Nat) :
    (create_room_connections room hex).col = room.col := rfl

theorem create_room_connections_visited (room : maze_room) (hex : Nat) :
    (create_room_connections room hex).visited = room.visited := rfl

theorem create_room_connections_next (room : maze_room) (hex : Nat) :
    (create_room_connections room hex).next = room.next := rfl

theorem and_div_le_one (hex op : Nat) (hop : 0 < op) : (hex &&& op) / op ≤ 1 := by
  have h : hex &&& op ≤ op := Nat.and_le_right
  calc (hex &&& op) / op ≤ op / op := Nat.div_le_div_right h
    _ = 1 := Nat.div_self hop

/-- Whatever the value of `hex`, `create_room_connections` sets each of the
four connections to 0 or 1. -/
theorem create_room_connections_flagsSet (room : maze_room) (hex : Nat) :
    flagsSet (create_room_connections room hex) := by
  intro d hd
  rw [create_room_connections_con]
  have h1 := and_div_le_one hex 1 (by decide)
  have h2 := and_div_le_one hex 2 (by decide)
  have h4 := and_div_le_one hex 4 (by decide)
  have h8 := and_div_le_one hex 8 (by decide)
  split_ifs <;> omega

theorem decode_bits (c0 c1 c2 c3 : Int) (h0 : c0 = 0 ∨ c0 = 1) (h1 : c1 = 0 ∨ c1 = 1)
    (h2 : c2 = 0 ∨ c2 = 1) (h3 : c3 = 0 ∨ c3 = 1) :
    ((((to_unsigned (8 * c3 + 4 * c2 + 2 * c1 + c0)) &&& 1) / 1 : Nat) : Int) = c0 ∧
    ((((to_unsigned (8 * c3 + 4 * c2 + 2 * c1 + c0)) &&& 2) / 2 : Nat) : Int) = c1 ∧
    ((((to_unsigned (8 * c3 + 4 * c2 + 2 * c1 + c0)) &&& 4) / 4 : Nat) : Int) = c2 ∧
    ((((to_unsigned (8 * c3 + 4 * c2 + 2 * c1 + c0)) &&& 8) / 8 : Nat) : Int) = c3 := by
  rcases h0 with rfl | rfl <;> rcases h1 with rfl | rfl <;> rcases h2 with rfl | rfl <;>
    rcases h3 with rfl | rfl <;> decide

/-- The room decoded from the encoding of a room whose flags are 0 or 1 has
the flags in reversed index order: `con[3 - i]` of the decoded room is
`con[i]` of the encoded one. -/
theorem decode_encode_room_con (room0 room : maze_room) (h : flagsSet room)
    (i : Nat) (hi : i < 4) :
    (create_room_connections room0 (to_unsigned (encode_room room))).con (3 - i) =
      room.con i := by
  have hb := decode_bits _ _ _ _ (h 0 (by decide)) (h 1 (by decide)) (h 2 (by decide))
    (h 3 (by decide))
  rw [create_room_connections_con]
  unfold encode_room
  interval_cases i
  · exact hb.1
  · exact hb.2.1
  · exact hb.2.2.1
  · exact hb.2.2.2

/-! ### The solver invariant -/

theorem get_neighbor_congr (R C : Int) {m m1 : Grid} {p : Int × Int} (i : Nat)
    (hr : (m1 p).row = (m p).row) (hc : (m1 p).col = (m p).col) :
    get_neighbor R C m1 p i = get_neighbor R C m p i := by
  unfold get_neighbor
  rw [hr, hc]

theorem get_neighbor_inRange {R C : Nat} {m : Grid} {p q : Int × Int} {i : Nat}
    (h : get_neighbor R C m p i = some q) : InRange R C q := by
  unfold get_neighbor at h
  simp only [is_in_range_ne_zero] at h
  rw [Option.ite_none_right_eq_some] at h
  rw [← Option.some.inj h.2]
  exact h.1

theorem DfsOK.keep {R C : Nat} {goal a : Int × Int} {m0 m : Grid} {ret : Int}
    (h : DfsOK R C goal a m0 ret m) {p : Int × Int} (hp : (m0 p).visited ≠ 0) :
    m p = m0 p := by
  by_contra hne
  exact hp (h.frame p hne).2.1

theorem DfsOK.keep_goal {R C : Nat} {goal a : Int × Int} {m0 m : Grid} {ret : Int}
    (h : DfsOK R C goal a m0 ret m) : m goal = m0 goal := by
  by_contra hne
  exact (h.frame goal hne).2.2.2 rfl

theorem DfsOK.unvisited {R C : Nat} {goal a : Int × Int} {m0 m : Grid} {ret : Int}
    (h : DfsOK R C goal a m0 ret m) {p : Int × Int} (hp : (m p).visited = 0) :
    (m0 p).visited = 0 ∧ m p = m0 p := by
  by_cases hne : m p = m0 p
  · exact ⟨by rw [← hne]; exact hp, hne⟩
  · exact absurd hp (h.frame p hne).2.2.1

theorem DfsOK.visited_mono {R C : Nat} {goal a : Int × Int} {m0 m : Grid} {ret : Int}
    (h : DfsOK R C goal a m0 ret m) {p : Int × Int} (hp : (m0 p).visited ≠ 0) :
    (m p).visited ≠ 0 := by
  rw [h.keep hp]; exact hp

/-- The state of `dfs` on entering the loop: the room has just been marked. -/
theorem DfsOK.start {R C : Nat} {goal a : Int × Int} {m0 : Grid}
    (hinv : SolveInv R C m0) (ha : InRange R C a) (hag : a ≠ goal)
    (ha0 : (m0 a).visited = 0) :
    DfsOK R C goal a m0 0 (setVisited m0 a 1) ∧
      DfsClosed R C a [0, 1, 2, 3] m0 (setVisited m0 a 1) := by
  have hva : (setVisited m0 a 1 a).visited ≠ 0 := by simp [setVisited_visited]
  refine ⟨⟨⟨?_, ?_⟩, ?_, ?_, ?_⟩, hva, ?_⟩
  · intro p hp; simpa using hinv.coords p hp
  · intro p hp hv
    rw [setVisited_visited] at hv
    split_ifs at hv with hc
    · simp at hv
    · rw [setVisited_next]; exact hinv.nonext p hp hv
  · intro p hne
    by_cases hc : p = a
    · rw [hc]; exact ⟨ha, ha0, hva, hag⟩
    · exact absurd (setVisited_other _ _ _ _ hc) hne
  · intro p; simp
  · refine ⟨[a], rfl, ?_, List.nodup_singleton a, ?_, List.chain'_singleton a, ?_⟩
    · show (setVisited m0 a 1 a).next = none
      rw [setVisited_next]; exact hinv.nonext a ha ha0
    · intro p hp
      rw [List.mem_singleton] at hp
      rw [hp]
      exact ⟨ha, Or.inr ⟨ha0, hva⟩⟩
    · intro h; exact absurd rfl h
  · intro p _ hp0 hp1 i hi hrest
    have hpa : p = a := by
      by_contra hc
      rw [setVisited_other _ _ _ _ hc] at hp1
      exact hp1 hp0
    have := hrest hpa
    simp only [List.mem_cons, List.mem_singleton, List.not_mem_nil, or_false, not_or] at this
    omega

/-- A direction of the loop of `dfs` that is not taken, because the
neighbour in it is missing, walled off or visited. -/
theorem DfsClosed.skip {R C : Nat} {a : Int × Int} {i : Nat} {is : List Nat} {m0 m : Grid}
    (h : DfsClosed R C a (i :: is) m0 m)
    (hi : ∀ q, get_neighbor R C m0 a i = some q → (m0 a).con (3 - i) = 0 →
      (m q).visited ≠ 0) :
    DfsClosed R C a is m0 m := by
  refine ⟨h.1, ?_⟩
  intro p hp hp0 hp1 j hj hrest q hq hcon
  by_cases hc : p = a ∧ j = i
  · rw [hc.1, hc.2] at hq hcon
    exact hi q hq hcon
  · refine h.2 p hp hp0 hp1 j hj (fun hpa => ?_) q hq hcon
    rw [List.mem_cons, not_or]
    exact ⟨fun hji => hc ⟨hpa, hji⟩, hrest hpa⟩

theorem OpenStep.congr {R C : Nat} {m m1 : Grid}
    (h : ∀ p, (m1 p).con = (m p).con ∧ (m1 p).row = (m p).row ∧ (m1 p).col = (m p).col)
    {p q : Int × Int} (hs : OpenStep R C m p q) : OpenStep R C m1 p q := by
  obtain ⟨i, hi, hn, hc⟩ := hs
  refine ⟨i, hi, ?_, ?_⟩
  · rw [get_neighbor_congr R C i (h p).2.1 (h p).2.2]; exact hn
  · rw [(h p).1]; exact hc

/-- A direction of the loop of `dfs` that is taken: the outcome of the
recursive call on the neighbour `q` extends to an outcome for `a`. -/
theorem DfsOK.push_ok {R C : Nat} {goal a q : Int × Int} {m0 m m2 : Grid} {ret : Int} {i : Nat}
    (hok : DfsOK R C goal a m0 0 m) (ha : InRange R C a) (hag : a ≠ goal)
    (ha0 : (m0 a).visited = 0) (hva : (m a).visited ≠ 0) (hi : i < 4)
    (hn : get_neighbor R C m a i = some q) (hcon : (m a).con (3 - i) = 0)
    (hq : DfsOK R C goal q (setNext m a (some q)) ret m2) :
    DfsOK R C goal a m0 ret m2 := by
  have hva1 : (setNext m a (some q) a).visited ≠ 0 := by simpa using hva
  have f1 : m2 a = setNext m a (some q) a := hq.keep hva1
  have f2 : ∀ p, p ≠ a → setNext m a (some q) p = m p := fun p hp => setNext_other _ _ _ _ hp
  have hsame : ∀ p, (m2 p).con = (m0 p).con ∧ (m2 p).row = (m0 p).row ∧
      (m2 p).col = (m0 p).col := by
    intro p
    have h1 := hq.same p
    have h2 := hok.same p
    simp only [setNext_con, setNext_row, setNext_col] at h1
    exact ⟨h1.1.trans h2.1, h1.2.1.trans h2.2.1, h1.2.2.trans h2.2.2⟩
  have hsame1 : ∀ p, ((setNext m a (some q)) p).con = (m0 p).con ∧
      ((setNext m a (some q)) p).row = (m0 p).row ∧
      ((setNext m a (some q)) p).col = (m0 p).col := by
    intro p
    simp only [setNext_con, setNext_row, setNext_col]
    exact hok.same p
  have hsame2 : ∀ p, (m0 p).con = ((setNext m a (some q)) p).con ∧
      (m0 p).row = ((setNext m a (some q)) p).row ∧
      (m0 p).col = ((setNext m a (some q)) p).col :=
    fun p => ⟨(hsame1 p).1.symm, (hsame1 p).2.1.symm, (hsame1 p).2.2.symm⟩
  have hva2 : (m2 a).visited ≠ 0 := by rw [f1]; exact hva1
  refine ⟨hq.inv, ?_, hsame, ?_⟩
  · intro p hne
    by_cases h1 : m2 p = setNext m a (some q) p
    · by_cases hpa : p = a
      · rw [hpa]; exact ⟨ha, ha0, hva2, hag⟩
      · rw [h1, f2 p hpa] at hne
        obtain ⟨g1, g2, g3, g4⟩ := hok.frame p hne
        refine ⟨g1, g2, ?_, g4⟩
        rw [h1, f2 p hpa]; exact g3
    · obtain ⟨g1, g2, g3, g4⟩ := hq.frame p h1
      rw [setNext_visited] at g2
      exact ⟨g1, (hok.unvisited g2).1, g3, g4⟩
  · obtain ⟨lq, hhead, hchain, hnd, helems, hsteps, hlast⟩ := hq.chain
    cases lq with
    | nil => simp at hhead
    | cons q1 rest =>
      have hq1 : q1 = q := by simpa using hhead
      subst hq1
      refine ⟨a :: q1 :: rest, rfl, ?_, ?_, ?_, ?_, ?_⟩
      · refine ⟨?_, hchain⟩
        rw [f1, setNext_next, if_pos rfl]
      · refine List.nodup_cons.2 ⟨fun hmem => ?_, hnd⟩
        rcases (helems a hmem).2 with h | h
        · exact hag h.1
        · exact hva1 h.1
      · intro p hp
        rw [List.mem_cons] at hp
        rcases hp with rfl | hp
        · exact ⟨ha, Or.inr ⟨ha0, hva2⟩⟩
        · refine ⟨(helems p hp).1, ?_⟩
          rcases (helems p hp).2 with h | h
          · exact Or.inl h
          · rw [setNext_visited] at h
            exact Or.inr ⟨(hok.unvisited h.1).1, h.2⟩
      · refine List.Chain'.cons ?_ (hsteps.imp (fun _ _ hs => OpenStep.congr hsame2 hs))
        refine ⟨i, hi, ?_, ?_⟩
        · rw [← get_neighbor_congr R C i (hok.same a).2.1 (hok.same a).2.2]; exact hn
        · rw [← (hok.same a).1]; exact hcon
      · intro hr
        rw [List.getLast?_cons_cons]
        exact hlast hr

/-- After a recursive call of `dfs` on the neighbour `q` that returned 0, the
rooms visited so far are closed apart from the directions of `a` still to be
tried. -/
theorem DfsClosed.push_closed {R C : Nat} {goal a q : Int × Int} {m0 m m2 : Grid} {i : Nat}
    {is : List Nat}
    (hok : DfsOK R C goal a m0 0 m) (hcl : DfsClosed R C a (i :: is) m0 m)
    (hn : get_neighbor R C m a i = some q)
    (hq : DfsOK R C goal q (setNext m a (some q)) 0 m2)
    (hqc : DfsClosed R C q [] (setNext m a (some q)) m2) :
    DfsClosed R C a is m0 m2 := by
  have hmono : ∀ p, (m p).visited ≠ 0 → (m2 p).visited ≠ 0 := by
    intro p hp
    exact hq.visited_mono (by rw [setNext_visited]; exact hp)
  refine ⟨hmono a hcl.1, ?_⟩
  intro p hp hp0 hp1 j hj hrest q1 hq1 hcon
  by_cases hv : (setNext m a (some q) p).visited = 0
  · refine hqc.2 p hp hv hp1 j hj (fun _ => List.not_mem_nil _) q1 ?_ ?_
    · rw [get_neighbor_congr R C j (setNext_row m a p (some q)) (setNext_col m a p (some q)),
        get_neighbor_congr R C j (hok.same p).2.1 (hok.same p).2.2]
      exact hq1
    · rw [setNext_con, (hok.same p).1]; exact hcon
  · rw [setNext_visited] at hv
    by_cases hc : p = a ∧ j = i
    · rw [hc.1, hc.2, ← get_neighbor_congr R C i (hok.same a).2.1 (hok.same a).2.2, hn] at hq1
      rw [← Option.some.inj hq1]
      exact hqc.1
    · refine hmono q1 (hcl.2 p hp hp0 hv j hj (fun hpa => ?_) q1 hq1 hcon)
      rw [List.mem_cons, not_or]
      exact ⟨fun hji => hc ⟨hpa, hji⟩, hrest hpa⟩

theorem SolveInv.setNext {R C : Nat} {m : Grid} (h : SolveInv R C m) {a : Int × Int}
    (hva : (m a).visited ≠ 0) (n : Option (Int × Int)) : SolveInv R C (setNext m a n) := by
  refine ⟨?_, ?_⟩
  · intro p hp; simpa using h.coords p hp
  · intro p hp hv
    rw [setNext_visited] at hv
    have hne : p ≠ a := fun hc => hva (by rw [← hc]; exact hv)
    rw [setNext_other _ _ _ _ hne]
    exact h.nonext p hp hv

/-- The loop of `dfs` over the remaining indices `is`. -/
theorem dfs_loop_spec {full : Bool} {R C : Nat} {goal : Int × Int} {fuel : Nat}
    (hrec : DfsSpec full R C goal fuel) {a : Int × Int} {m0 : Grid}
    (ha : InRange R C a) (hag : a ≠ goal) (ha0 : (m0 a).visited = 0) :
    ∀ (is : List Nat) (s : SolveState), (∀ i ∈ is, i < 4) →
      DfsOK R C goal a m0 0 s.maze → DfsClosed R C a is m0 s.maze →
      unvisitedCount R C s.maze ≤ fuel →
      ∃ ret s1, dfs_loop (dfs full goal.1 goal.2 R C fuel) full R C a is s = some (ret, s1) ∧
        (ret = 0 ∨ ret = 1) ∧ DfsOK R C goal a m0 ret s1.maze ∧
        (ret = 0 → DfsClosed R C a [] m0 s1.maze) := by
  intro is
  induction is with
  | nil =>
    intro s _ hok hcl _
    exact ⟨0, s, rfl, Or.inl rfl, hok, fun _ => hcl⟩
  | cons i is ih =>
    intro s hlt hok hcl hU
    have hi : i < 4 := hlt i (List.mem_cons_self _ _)
    have hlt1 : ∀ j ∈ is, j < 4 := fun j hj => hlt j (List.mem_cons_of_mem _ hj)
    have hgn0 : get_neighbor R C m0 a i = get_neighbor R C s.maze a i :=
      (get_neighbor_congr R C i (hok.same a).2.1 (hok.same a).2.2).symm
    cases hgn : get_neighbor R C s.maze a i with
    | none =>
      have hskip : DfsClosed R C a is m0 s.maze := hcl.skip (fun q hq _ => by
        rw [hgn0, hgn] at hq; exact absurd hq (by simp))
      obtain ⟨ret, s1, h1, h2⟩ := ih s hlt1 hok hskip hU
      refine ⟨ret, s1, ?_, h2⟩
      simp only [dfs_loop, dfs_dir, hgn, h1]
    | some q =>
      have hq : InRange R C q := get_neighbor_inRange hgn
      by_cases hcond : (s.maze a).con (3 - i) = 0 ∧ (s.maze q).visited = 0
      · have hinv1 : SolveInv R C (setNext s.maze a (some q)) := hok.inv.setNext hcl.1 _
        have hU1 : unvisitedCount R C (setNext s.maze a (some q)) ≤ fuel :=
          le_trans (unvisitedCount_le_of_imp (fun p _ hp => by simpa using hp)) hU
        obtain ⟨r, s2, hs2, hr01, hok2, hcl2⟩ :=
          hrec { s with maze := setNext s.maze a (some q) } q hinv1 hq
            (by simpa using hcond.2) hU1
        replace hok2 : DfsOK R C goal q (setNext s.maze a (some q)) r s2.maze := hok2
        have hcall : dfs full goal.1 goal.2 R C fuel
            ((setNext s.maze a (some q)) q).row ((setNext s.maze a (some q)) q).col
            { s with maze := setNext s.maze a (some q) } = some (r, s2) := by
          rw [(hinv1.coords q hq).1, (hinv1.coords q hq).2]
          exact hs2
        have hpush := hok.push_ok ha hag ha0 hcl.1 hi hgn hcond.1 hok2
        rcases hr01 with hr | hr
        · subst hr
          have hclosed : DfsClosed R C a is m0 s2.maze :=
            DfsClosed.push_closed hok hcl hgn hok2 (hcl2 rfl)
          have hU2 : unvisitedCount R C s2.maze ≤ fuel :=
            le_trans (unvisitedCount_le_of_imp (fun p _ hp => by
              have := (hok2.unvisited hp).1
              simpa using this)) hU1
          obtain ⟨ret, s3, h1, h2⟩ := ih (if full then print_room s2 a else s2) hlt1
            (by split_ifs <;> exact hpush) (by split_ifs <;> exact hclosed)
            (by split_ifs <;> exact hU2)
          refine ⟨ret, s3, ?_, h2⟩
          simp only [dfs_loop, dfs_dir, hgn, hcond, and_self, if_true, hcall]
          simpa using h1
        · subst hr
          refine ⟨1, s2, ?_, Or.inr rfl, hpush, fun h => absurd h (by decide)⟩
          simp only [dfs_loop, dfs_dir, hgn, hcond, and_self, if_true, hcall]
          simp
      · have hskip : DfsClosed R C a is m0 s.maze := hcl.skip (fun q1 hq1 hc1 => by
          rw [hgn0, hgn] at hq1
          rw [← Option.some.inj hq1]
          intro hv
          apply hcond
          refine ⟨?_, hv⟩
          rw [(hok.same a).1]; exact hc1)
        obtain ⟨ret, s1, h1, h2⟩ := ih s hlt1 hok hskip hU
        refine ⟨ret, s1, ?_, h2⟩
        simp only [dfs_loop, dfs_dir, hgn, hcond, if_false, h1]

/-- The contract of `dfs` holds at every recursion depth. -/
theorem dfs_spec (full : Bool) (R C : Nat) (goal : Int × Int) :
    ∀ fuel, DfsSpec full R C goal fuel := by
  intro fuel
  induction fuel with
  | zero =>
    intro s a _ ha ha0 hU
    have := unvisitedCount_setVisited_lt ha ha0
    omega
  | succ fuel ih =>
    intro s a hinv ha ha0 hU
    by_cases hag : a = goal
    · refine ⟨1, if full then print_room s a else s, ?_, Or.inr rfl, ?_, fun h => absurd h (by decide)⟩
      · simp only [dfs, hag, and_self, if_true]
      · have hm : (if full then print_room s a else s).maze = s.maze := by
          split_ifs <;> rfl
        rw [hm]
        refine ⟨hinv, fun p hne => absurd rfl hne, fun p => ⟨rfl, rfl, rfl⟩, [a], rfl, ?_,
          List.nodup_singleton a, ?_, List.chain'_singleton a, fun _ => by rw [hag]; rfl⟩
        · exact hinv.nonext a ha ha0
        · intro p hp
          rw [List.mem_singleton] at hp
          rw [hp]
          exact ⟨ha, Or.inl ⟨hag, by decide⟩⟩
    · have hstart := DfsOK.start hinv ha hag ha0
      have hlt := unvisitedCount_setVisited_lt ha ha0
      obtain ⟨ret, s1, h1, h2⟩ := dfs_loop_spec ih ha hag ha0 [0, 1, 2, 3]
        { (if full then print_room s a else s) with
          maze := setVisited (if full then print_room s a else s).maze a 1 }
        (by decide)
        (by
          have hm : (if full then print_room s a else s).maze = s.maze := by
            split_ifs <;> rfl
          simp only [hm]; exact hstart.1)
        (by
          have hm : (if full then print_room s a else s).maze = s.maze := by
            split_ifs <;> rfl
          simp only [hm]; exact hstart.2)
        (by
          have hm : (if full then print_room s a else s).maze = s.maze := by
            split_ifs <;> rfl
          simp only [hm]; omega)
      refine ⟨ret, s1, ?_, h2⟩
      have hne : ¬ (a.1 = goal.1 ∧ a.2 = goal.2) := fun hc => hag (Prod.ext hc.1 hc.2)
      simp only [dfs, hne, if_false]
      exact h1

/-! ### The pruned path -/

theorem NextChain.tail {m : Grid} {p q : Int × Int} {rest : List (Int × Int)}
    (h : NextChain m (p :: q :: rest)) : NextChain m (q :: rest) := h.2

/-- Started at the head of a chain of `next` pointers, `print_pruned_path`
prints the rooms of the chain, in order, and returns 0. -/
theorem print_pruned_path_chain (m : Grid) :
    ∀ (l : List (Int × Int)) (p : Int × Int), l.head? = some p → NextChain m l →
      (∀ q ∈ l, (m q).row = q.1 ∧ (m q).col = q.2) →
      ∀ fuel, l.length ≤ fuel → ∀ out,
        print_pruned_path m fuel p out = some (0, out ++ l.map lineOf) := by
  intro l
  induction l with
  | nil => intro p h; simp at h
  | cons p1 rest ih =>
    intro p hhead hchain hcoords fuel hfuel out
    have hp : p1 = p := by simpa using hhead
    subst hp
    cases fuel with
    | zero => simp at hfuel
    | succ fuel =>
      have hc := hcoords p1 (List.mem_cons_self _ _)
      cases rest with
      | nil =>
        have hnone : (m p1).next = none := hchain
        simp only [print_pruned_path, hnone, hc.1, hc.2]
        rfl
      | cons q rest =>
        have hnext : (m p1).next = some q := hchain.1
        have := ih q rfl hchain.2 (fun x hx => hcoords x (List.mem_cons_of_mem _ hx)) fuel
          (by simpa using hfuel) (out ++ [Line.coords p1.1 p1.2])
        simp only [print_pruned_path, hnext, hc.1, hc.2, this]
        simp [lineOf]

/-- A list of distinct rooms of an `R` by `C` array has at most `R * C`
entries. -/
theorem length_le_of_nodup_inRange {R C : Nat} {l : List (Int × Int)} (hnd : l.Nodup)
    (hin : ∀ p ∈ l, InRange R C p) : l.length ≤ R * C := by
  have hinj : ∀ x ∈ l, ∀ y ∈ l,
      (fun p : Int × Int => (p.1.toNat, p.2.toNat)) x =
        (fun p : Int × Int => (p.1.toNat, p.2.toNat)) y → x = y := by
    intro x hx y hy hxy
    have h1 := hin x hx
    have h2 := hin y hy
    unfold InRange at h1 h2
    have ha := (Prod.mk.inj hxy).1
    have hb := (Prod.mk.inj hxy).2
    apply Prod.ext <;> omega
  have hnd1 := List.Nodup.map_on hinj hnd
  have hsub : (l.map (fun p : Int × Int => (p.1.toNat, p.2.toNat))).toFinset ⊆
      Finset.range R ×ˢ Finset.range C := by
    intro x hx
    rw [List.mem_toFinset, List.mem_map] at hx
    obtain ⟨p, hp, rfl⟩ := hx
    have h1 := hin p hp
    unfold InRange at h1
    simp only [Finset.mem_product, Finset.mem_range]
    omega
  have hcard := Finset.card_le_card hsub
  rw [List.toFinset_card_of_nodup hnd1, List.length_map] at hcard
  simpa using hcard

/-! ### Runs of `dfs` from `main` -/

/-- A run of `dfs` from an unvisited room with enough fuel returns 0 or 1,
and `print_pruned_path` then prints the chain of `next` pointers from the
start: distinct rooms joined by steps of `dfs`, ending at the goal when `dfs`
returned 1 and not containing the goal when it returned 0. -/
theorem dfs_path (full : Bool) {R C : Nat} (goal : Int × Int) {start : Int × Int} {m : Grid}
    (hinv : SolveInv R C m) (hs : InRange R C start) (hs0 : (m start).visited = 0)
    (fuel : Nat) (hfuel : R * C ≤ fuel) (out : List Line) :
    ∃ ret s1 l, dfs full goal.1 goal.2 R C fuel start.1 start.2 ⟨m, out⟩ = some (ret, s1) ∧
      (ret = 0 ∨ ret = 1) ∧ DfsOK R C goal start m ret s1.maze ∧
      (ret = 0 → DfsClosed R C start [] m s1.maze) ∧
      l.head? = some start ∧ NextChain s1.maze l ∧ l.Nodup ∧
      l.Chain' (OpenStep R C s1.maze) ∧
      (ret = 1 → l.getLast? = some goal) ∧ (ret = 0 → goal ∉ l) ∧
      (∀ out1, print_pruned_path s1.maze fuel start out1 = some (0, out1 ++ l.map lineOf)) := by
  obtain ⟨ret, s1, hdfs, hret, hok, hcl⟩ := dfs_spec full R C goal fuel ⟨m, out⟩ start hinv hs hs0
    (le_trans (unvisitedCount_le_mul R C m) hfuel)
  replace hok : DfsOK R C goal start m ret s1.maze := hok
  obtain ⟨l, hhead, hchain, hnd, helems, hsteps, hlast⟩ := hok.chain
  refine ⟨ret, s1, l, hdfs, hret, hok, hcl, hhead, hchain, hnd, ?_, ?_, ?_, ?_⟩
  · exact hsteps.imp (fun _ _ hstep => OpenStep.congr hok.same hstep)
  · intro h1; exact hlast (by rw [h1]; decide)
  · intro h0 hmem
    rcases (helems goal hmem).2 with h | h
    · exact h.2 h0
    · rw [hok.keep_goal] at h
      exact h.2 h.1
  · intro out1
    refine print_pruned_path_chain s1.maze l start hhead hchain ?_ fuel ?_ out1
    · intro q hq
      exact hok.inv.coords q (helems q hq).1
    · exact le_trans (length_le_of_nodup_inRange hnd (fun p hp => (helems p hp).1)) hfuel

/-- Completeness of `dfs`: started in a maze with no room visited, it returns 1
when the goal can be reached from the start by steps of `dfs`. -/
theorem dfs_complete {R C : Nat} {goal start : Int × Int} {m : Grid}
    (hfresh : ∀ p, InRange R C p → (m p).visited = 0)
    (hs : InRange R C start) (hg : InRange R C goal)
    (hreach : Relation.ReflTransGen (OpenStep R C m) start goal)
    {ret : Int} {m1 : Grid} (hok : DfsOK R C goal start m ret m1)
    (hcl : ret = 0 → DfsClosed R C start [] m m1) : ret ≠ 0 := by
  intro h0
  have hc := hcl h0
  have hall : ∀ q, Relation.ReflTransGen (OpenStep R C m) start q →
      InRange R C q ∧ (m1 q).visited ≠ 0 := by
    intro q hq
    induction hq with
    | refl => exact ⟨hs, hc.1⟩
    | tail _ hstep ih =>
      obtain ⟨i, hi, hn, hcon⟩ := hstep
      exact ⟨get_neighbor_inRange hn,
        hc.2 _ ih.1 (hfresh _ ih.1) ih.2 i hi (fun _ => List.not_mem_nil _) _ hn hcon⟩
  have := (hall goal hreach).2
  rw [hok.keep_goal] at this
  exact this (hfresh goal hg)

theorem load_maze_apply {R C : Nat} (m0 : Grid) (enc : Encoded) {p : Int × Int}
    (hp : InRange R C p) :
    load_maze R C m0 enc p =
      create_room_connections
        { row := p.1, col := p.2, visited := 0, con := fun _ => -1, next := none }
        (to_unsigned (enc p)) := by
  unfold load_maze
  rw [decode_maze_eq]
  simp only [hp, if_true]
  rw [initialize_maze_apply m0 hp]

/-- The maze the solver loads satisfies the solver invariant and has no room
visited. -/
theorem load_maze_inv (R C : Nat) (m0 : Grid) (enc : Encoded) :
    SolveInv R C (load_maze R C m0 enc) ∧
      ∀ p, InRange R C p → (load_maze R C m0 enc p).visited = 0 ∧
        (load_maze R C m0 enc p).next = none := by
  refine ⟨⟨?_, ?_⟩, ?_⟩
  · intro p hp
    rw [load_maze_apply m0 enc hp]
    exact ⟨rfl, rfl⟩
  · intro p hp _
    rw [load_maze_apply m0 enc hp]
    rfl
  · intro p hp
    rw [load_maze_apply m0 enc hp]
    exact ⟨rfl, rfl⟩

/-- In a maze whose connections `con[3 - i]` are the connections `con[i]` of
a generated maze, every room is joined to the origin by steps of `dfs`, in
both directions. -/
theorem GenDone.reach {R C : Nat} {m : Grid} (h : GenDone R C m) (hR : 0 < R) (hC : 0 < C)
    {m1 : Grid} (hcoords : coordsOK R C m1)
    (hcon : ∀ p, InRange R C p → ∀ i, i < 4 → (m1 p).con (3 - i) = (m p).con i) :
    ∀ p, InRange R C p →
      Relation.ReflTransGen (OpenStep R C m1) (0, 0) p ∧
      Relation.ReflTransGen (OpenStep R C m1) p (0, 0) := by
  obtain ⟨par, rank, _, hpar⟩ := h.tree
  have h00 : InRange R C (0, 0) := ⟨le_refl _, by simpa using hR, le_refl _, by simpa using hC⟩
  have key : ∀ n p, InRange R C p → rank p ≤ n →
      Relation.ReflTransGen (OpenStep R C m1) (0, 0) p ∧
      Relation.ReflTransGen (OpenStep R C m1) p (0, 0) := by
    intro n
    induction n with
    | zero =>
      intro p hp hr
      by_cases hroot : p = (0, 0)
      · rw [hroot]; exact ⟨Relation.ReflTransGen.refl, Relation.ReflTransGen.refl⟩
      · have := (hpar p hp hroot).2.1
        omega
    | succ k ih =>
      intro p hp hr
      by_cases hroot : p = (0, 0)
      · rw [hroot]; exact ⟨Relation.ReflTransGen.refl, Relation.ReflTransGen.refl⟩
      · obtain ⟨hin, hlt, d, hd, hstep, h0⟩ := hpar p hp hroot
        obtain ⟨ih1, ih2⟩ := ih (par p) hin (by omega)
        have hdown : OpenStep R C m1 (par p) p := by
          refine ⟨d, hd, ?_, ?_⟩
          · rw [get_neighbor_eq R C m1 (par p) d (hcoords _ hin), hstep, if_pos hp]
          · rw [hcon _ hin d hd]; exact h0
        have hup : OpenStep R C m1 p (par p) := by
          have hback : step_to p (get_opposite_dir d) = par p := by
            have := step_to_opposite (par p) hd
            rw [hstep] at this
            exact this
          refine ⟨get_opposite_dir d, get_opposite_dir_lt hd, ?_, ?_⟩
          · rw [get_neighbor_eq R C m1 p _ (hcoords _ hp), hback, if_pos hin]
          · rw [hcon _ hp _ (get_opposite_dir_lt hd)]
            have hsym := h.sym (par p) hin d hd (by rw [hstep]; exact hp)
            rw [hstep] at hsym
            rw [← hsym]; exact h0
        exact ⟨Relation.ReflTransGen.tail ih1 hdown, Relation.ReflTransGen.head hup ih2⟩
  intro p hp
  exact key (rank p) p hp (le_refl _)

/-- The maze loaded from the encoding of a generated maze holds, in
`con[3 - i]`, the connection `con[i]` of the generated maze. -/
theorem load_encode_con {R C : Nat} {m : Grid} (h : GenDone R C m) (m0 : Grid)
    (result : Encoded) :
    ∀ p, InRange R C p → ∀ i, i < 4 →
      (load_maze R C m0 (encode_maze R C m result) p).con (3 - i) = (m p).con i := by
  intro p hp i hi
  rw [load_maze_apply m0 _ hp, encode_maze_eq]
  simp only [hp, if_true]
  exact decode_encode_room_con _ _ (h.flags p hp) i hi

/-! ### The solver without `FULL` writes nothing during the search -/

theorem dfs_loop_out {search : Int → Int → SolveState → Option (Int × SolveState)}
    (hsearch : ∀ row col s r s1, search row col s = some (r, s1) → s1.out = s.out)
    (R C : Int) (a : Int × Int) :
    ∀ (is : List Nat) (s : SolveState) (r : Int) (s1 : SolveState),
      dfs_loop search false R C a is s = some (r, s1) → s1.out = s.out := by
  intro is
  induction is with
  | nil =>
    intro s r s1 h
    simp only [dfs_loop, Option.some.injEq, Prod.mk.injEq] at h
    rw [← h.2]
  | cons i is ih =>
    intro s r s1 h
    simp only [dfs_loop, dfs_dir] at h
    cases hgn : get_neighbor R C s.maze a i with
    | none =>
      simp only [hgn] at h
      exact ih s r s1 h
    | some q =>
      simp only [hgn] at h
      by_cases hcond : (s.maze a).con (3 - i) = 0 ∧ (s.maze q).visited = 0
      · simp only [hcond, and_self, if_true] at h
        simp only [setNext_row, setNext_col] at h
        cases hcall : search (s.maze q).row (s.maze q).col
            { s with maze := setNext s.maze a (some q) } with
        | none => simp [hcall] at h
        | some res =>
          obtain ⟨r2, s2⟩ := res
          have hout : s2.out = s.out :=
            hsearch _ _ { s with maze := setNext s.maze a (some q) } _ _ hcall
          simp only [hcall] at h
          by_cases hr : r2 = 0
          · simp only [hr, ne_eq, not_true_eq_false, if_false] at h
            have := ih s2 r s1 h
            rw [this, hout]
          · simp only [ne_eq, hr, not_false_eq_true, if_true, Option.some.injEq,
              Prod.mk.injEq] at h
            rw [← h.2, hout]
      · simp only [hcond, if_false] at h
        exact ih s r s1 h

theorem dfs_out (gr gc R C : Int) :
    ∀ (fuel : Nat) (row col : Int) (s : SolveState) (r : Int) (s1 : SolveState),
      dfs false gr gc R C fuel row col s = some (r, s1) → s1.out = s.out := by
  intro fuel
  induction fuel with
  | zero => intro row col s r s1 h; simp [dfs] at h
  | succ fuel ih =>
    intro row col s r s1 h
    simp only [dfs] at h
    by_cases hg : row = gr ∧ col = gc
    · simp only [hg, and_self, if_true, Option.some.injEq, Prod.mk.injEq] at h
      rw [← h.2]
      rfl
    · simp only [hg, if_false] at h
      have := dfs_loop_out ih R C (row, col) _ _ _ _ h
      rw [this]
      rfl

/-! ### A maze with no open connection -/

theorem dfs_loop_walled (search : Int → Int → SolveState → Option (Int × SolveState))
    (full : Bool) (R C : Int) (a : Int × Int) :
    ∀ (is : List Nat) (s : SolveState), (∀ i ∈ is, (s.maze a).con (3 - i) ≠ 0) →
      dfs_loop search full R C a is s = some (0, s) := by
  intro is
  induction is with
  | nil => intro s _; rfl
  | cons i is ih =>
    intro s h
    have h1 := h i (List.mem_cons_self _ _)
    have h2 := ih s (fun j hj => h j (List.mem_cons_of_mem _ hj))
    cases hgn : get_neighbor R C s.maze a i with
    | none => simp only [dfs_loop, dfs_dir, hgn, h2]
    | some q => simp only [dfs_loop, dfs_dir, hgn, h1, false_and, if_false, h2]

/-! ### The trace of the solver with `FULL` -/

theorem SameSearch.after_setNext {m m1 : Grid} (h : SameSearch m m1) (a : Int × Int)
    (x y : Option (Int × Int)) : SameSearch (setNext m a x) (setNext m1 a y) := by
  intro p
  simp only [setNext_row, setNext_col, setNext_visited, setNext_con]
  exact h p

theorem SameSearch.after_setVisited {m m1 : Grid} (h : SameSearch m m1) (a : Int × Int)
    (v : Int) : SameSearch (setVisited m a v) (setVisited m1 a v) := by
  intro p
  simp only [setVisited_row, setVisited_col, setVisited_visited, setVisited_con]
  obtain ⟨h1, h2, h3, h4⟩ := h p
  exact ⟨h1, h2, by rw [h3], h4⟩

theorem SameSearch.of_forget_next (m : Grid) : SameSearch (forget_next m) m :=
  fun _ => ⟨rfl, rfl, rfl, rfl⟩

theorem dfs_loop_same_search
    {search search1 : Int → Int → SolveState → Option (Int × SolveState)}
    (hsearch : ∀ row col s s1 r t, SameSearch s.maze s1.maze →
      search row col s = some (r, t) →
      ∃ t1, search1 row col s1 = some (r, t1) ∧ SameSearch t.maze t1.maze)
    (full : Bool) (R C : Int) (a : Int × Int) :
    ∀ (is : List Nat) (s s1 : SolveState) (r : Int) (t : SolveState),
      SameSearch s.maze s1.maze → dfs_loop search full R C a is s = some (r, t) →
      ∃ t1, dfs_loop search1 full R C a is s1 = some (r, t1) ∧
        SameSearch t.maze t1.maze := by
  intro is
  induction is with
  | nil =>
    intro s s1 r t hsame h
    simp only [dfs_loop, Option.some.injEq, Prod.mk.injEq] at h
    exact ⟨s1, by rw [← h.1]; rfl, by rw [← h.2]; exact hsame⟩
  | cons i is ih =>
    intro s s1 r t hsame h
    have hgn1 : get_neighbor R C s1.maze a i = get_neighbor R C s.maze a i :=
      get_neighbor_congr R C i (hsame a).1.symm (hsame a).2.1.symm
    simp only [dfs_loop, dfs_dir] at h ⊢
    rw [hgn1]
    cases hgn : get_neighbor R C s.maze a i with
    | none =>
      simp only [hgn] at h ⊢
      exact ih s s1 r t hsame h
    | some q =>
      simp only [hgn] at h ⊢
      rw [← (hsame a).2.2.2, ← (hsame q).2.2.1]
      by_cases hcond : (s.maze a).con (3 - i) = 0 ∧ (s.maze q).visited = 0
      · simp only [hcond, and_self, if_true] at h ⊢
        simp only [setNext_row, setNext_col] at h ⊢
        rw [← (hsame q).1, ← (hsame q).2.1]
        cases hcall : search (s.maze q).row (s.maze q).col
            { s with maze := setNext s.maze a (some q) } with
        | none => simp [hcall] at h
        | some res =>
          obtain ⟨r2, s2⟩ := res
          obtain ⟨t2, hcall1, hsame2⟩ := hsearch _ _
            { s with maze := setNext s.maze a (some q) }
            { s1 with maze := setNext s1.maze a (some q) } _ _
            (hsame.after_setNext a _ _) hcall
          simp only [hcall] at h
          simp only [hcall1]
          by_cases hr : r2 = 0
          · simp only [hr, ne_eq, not_true_eq_false, if_false] at h ⊢
            refine ih _ _ r t ?_ h
            cases full <;> exact hsame2
          · simp only [ne_eq, hr, not_false_eq_true, if_true, Option.some.injEq,
              Prod.mk.injEq] at h ⊢
            exact ⟨t2, ⟨h.1, rfl⟩, by rw [← h.2]; exact hsame2⟩
      · simp only [hcond, if_false] at h ⊢
        exact ih s s1 r t hsame h

theorem dfs_same_search (full : Bool) (gr gc R C : Int) :
    ∀ (fuel : Nat) (row col : Int) (s s1 : SolveState) (r : Int) (t : SolveState),
      SameSearch s.maze s1.maze → dfs full gr gc R C fuel row col s = some (r, t) →
      ∃ t1, dfs full gr gc R C fuel row col s1 = some (r, t1) ∧
        SameSearch t.maze t1.maze := by
  intro fuel
  induction fuel with
  | zero => intro row col s s1 r t _ h; simp [dfs] at h
  | succ fuel ih =>
    intro row col s s1 r t hsame h
    simp only [dfs] at h ⊢
    by_cases hg : row = gr ∧ col = gc
    · simp only [hg, and_self, if_true, Option.some.injEq, Prod.mk.injEq] at h ⊢
      refine ⟨_, ⟨h.1, rfl⟩, ?_⟩
      rw [← h.2]
      cases full <;> exact hsame
    · simp only [hg, if_false] at h ⊢
      refine dfs_loop_same_search ih full R C (row, col) _ _ _ r t ?_ h
      refine SameSearch.after_setVisited ?_ (row, col) 1
      cases full <;> exact hsame

theorem forget_next_same (m : Grid) (p : Int × Int) :
    (forget_next m p).con = (m p).con ∧ (forget_next m p).row = (m p).row ∧
    (forget_next m p).col = (m p).col := ⟨rfl, rfl, rfl⟩

theorem forget_next_visited (m : Grid) (p : Int × Int) :
    (forget_next m p).visited = (m p).visited := rfl

theorem forget_next_next (m : Grid) (p : Int × Int) : (forget_next m p).next = none := rfl

theorem forget_next_inv {R C : Nat} {m : Grid} (h : coordsOK R C m) :
    SolveInv R C (forget_next m) := by
  refine ⟨fun p hp => ?_, fun p _ _ => forget_next_next m p⟩
  rw [(forget_next_same m p).2.1, (forget_next_same m p).2.2]
  exact h p hp

theorem reflTransGen_of_chain {α : Type} (r : α → α → Prop) :
    ∀ (l : List α) (a b : α), (a :: l).Chain' r → (a :: l).getLast? = some b →
      Relation.ReflTransGen r a b := by
  intro l
  induction l with
  | nil =>
    intro a b _ h
    simp only [List.getLast?_singleton, Option.some.injEq] at h
    rw [h]
  | cons c l ih =>
    intro a b hch h
    rw [List.chain'_cons] at hch
    rw [List.getLast?_cons_cons] at h
    exact Relation.ReflTransGen.head hch.1 (ih c b hch.2 h)

/-! ### The calls of `drunken_walk` -/

theorem drunken_walk_dir_traced_fst
    {walkT : Int → Int → GenState × CallLog → Option (GenState × CallLog)}
    {walk : Int → Int → GenState → Option GenState}
    (hwalk : ∀ row col s log, (walkT row col (s, log)).map Prod.fst = walk row col s)
    (R C : Int) (a : Int × Int) (dir : Nat) (s : GenState) (log : CallLog) :
    (drunken_walk_dir_traced walkT R C a dir (s, log)).map Prod.fst =
      drunken_walk_dir walk R C a dir s := by
  unfold drunken_walk_dir_traced drunken_walk_dir
  cases hgn : get_neighbor R C s.maze a dir with
  | none => simp only [hgn, Option.map_some']
  | some q =>
    simp only [hgn]
    split_ifs with h1 h2
    · exact hwalk _ _ _ _
    · rfl
    · rfl

theorem drunken_walk_loop_traced_fst
    {walkT : Int → Int → GenState × CallLog → Option (GenState × CallLog)}
    {walk : Int → Int → GenState → Option GenState}
    (hwalk : ∀ row col s log, (walkT row col (s, log)).map Prod.fst = walk row col s)
    (R C : Int) (a : Int × Int) (d : List Nat) :
    ∀ (is : List Nat) (s : GenState) (log : CallLog),
      (drunken_walk_loop_traced walkT R C a d is (s, log)).map Prod.fst =
        drunken_walk_loop walk R C a d is s := by
  intro is
  induction is with
  | nil => intro s log; rfl
  | cons i is ih =>
    intro s log
    have hd := drunken_walk_dir_traced_fst hwalk R C a (d.getD i 0) s log
    simp only [drunken_walk_loop_traced, drunken_walk_loop]
    cases hT : drunken_walk_dir_traced walkT R C a (d.getD i 0) (s, log) with
    | none =>
      rw [hT] at hd
      simp only [Option.map_none'] at hd
      simp only [← hd, Option.map_none']
    | some st1 =>
      obtain ⟨s1, log1⟩ := st1
      rw [hT] at hd
      simp only [Option.map_some'] at hd
      simp only [← hd]
      exact ih s1 log1

theorem drunken_walk_traced_fst (rng : Nat → Nat) (R C : Int) :
    ∀ (fuel : Nat) (row col : Int) (s : GenState) (log : CallLog),
      (drunken_walk_traced rng R C fuel row col (s, log)).map Prod.fst =
        drunken_walk rng R C fuel row col s := by
  intro fuel
  induction fuel with
  | zero => intro row col s log; rfl
  | succ fuel ih =>
    intro row col s log
    simp only [drunken_walk_traced, drunken_walk]
    exact drunken_walk_loop_traced_fst ih R C (row, col) _ _ _ _

theorem TraceInv.after_setCon {R C : Nat} {m : Grid} {log : CallLog} (h : TraceInv R C m log)
    (a : Int × Int) (d : Nat) (v : Int) : TraceInv R C (Maze.setCon m a d v) log := by
  refine ⟨fun p hp => ?_, h.nodup, h.entries, fun p hp => ?_⟩
  · rw [setCon_row, setCon_col]; exact h.coords p hp
  · rw [setCon_visited]; exact h.seen p hp

theorem drunken_walk_loop_traced_inv {R C : Nat}
    {walkT : Int → Int → GenState × CallLog → Option (GenState × CallLog)}
    (hwalk : ∀ row col s log s1 log1, TraceInv R C s.maze log → InRange R C (row, col) →
      (s.maze (row, col)).visited = 0 → walkT row col (s, log) = some (s1, log1) →
      TraceInv R C s1.maze log1)
    (a : Int × Int) (d : List Nat) :
    ∀ (is : List Nat) (s : GenState) (log : CallLog) (s1 : GenState) (log1 : CallLog),
      TraceInv R C s.maze log →
      drunken_walk_loop_traced walkT R C a d is (s, log) = some (s1, log1) →
      TraceInv R C s1.maze log1 := by
  intro is
  induction is with
  | nil =>
    intro s log s1 log1 hinv h
    simp only [drunken_walk_loop_traced, Option.some.injEq, Prod.mk.injEq] at h
    rw [← h.1, ← h.2]; exact hinv
  | cons i is ih =>
    intro s log s1 log1 hinv h
    rw [drunken_walk_loop_traced] at h
    cases hT : drunken_walk_dir_traced walkT R C a (d.getD i 0) (s, log) with
    | none => rw [hT] at h; exact absurd h (by simp)
    | some st2 =>
      obtain ⟨s2, log2⟩ := st2
      rw [hT] at h
      replace h : drunken_walk_loop_traced walkT R C a d is (s2, log2) = some (s1, log1) := h
      refine ih s2 log2 s1 log1 ?_ h
      unfold drunken_walk_dir_traced at hT
      generalize d.getD i 0 = dir at hT
      cases hgn : get_neighbor R C s.maze a dir with
      | none =>
        simp only [hgn, Option.some.injEq, Prod.mk.injEq] at hT
        rw [← hT.1, ← hT.2]; exact hinv.after_setCon a _ 1
      | some q =>
        simp only [hgn] at hT
        have hq : InRange R C q := get_neighbor_inRange hgn
        split_ifs at hT with h1 h2
        · simp only [setCon_row, setCon_col] at hT
          rw [(hinv.coords q hq).1, (hinv.coords q hq).2] at hT
          refine hwalk q.1 q.2 _ log s2 log2 (hinv.after_setCon a _ 0) hq ?_ hT
          show (Maze.setCon s.maze a _ 0 q).visited = 0
          rw [setCon_visited]; exact h1
        · simp only [Option.some.injEq, Prod.mk.injEq] at hT
          rw [← hT.1, ← hT.2]; exact hinv.after_setCon a _ _
        · simp only [Option.some.injEq, Prod.mk.injEq] at hT
          rw [← hT.1, ← hT.2]; exact hinv.after_setCon a _ 1

theorem drunken_walk_traced_inv (rng : Nat → Nat) (R C : Nat) :
    ∀ (fuel : Nat) (row col : Int) (s : GenState) (log : CallLog) (s1 : GenState)
      (log1 : CallLog), TraceInv R C s.maze log → InRange R C (row, col) →
      (s.maze (row, col)).visited = 0 →
      drunken_walk_traced rng R C fuel row col (s, log) = some (s1, log1) →
      TraceInv R C s1.maze log1 := by
  intro fuel
  induction fuel with
  | zero => intro row col s log s1 log1 _ _ _ h; simp [drunken_walk_traced] at h
  | succ fuel ih =>
    intro row col s log s1 log1 hinv hin hvis h
    simp only [drunken_walk_traced] at h
    refine drunken_walk_loop_traced_inv ih (row, col) _ _ _ _ s1 log1 ?_ h
    have hnot : (row, col) ∉ log.map Prod.fst := by
      intro hmem
      exact (hinv.seen _ hin).1 hmem hvis
    refine ⟨fun p hp => ?_, ?_, ?_, fun p hp => ?_⟩
    · show (setVisited s.maze (row, col) 1 p).row = p.1 ∧
        (setVisited s.maze (row, col) 1 p).col = p.2
      rw [setVisited_row, setVisited_col]; exact hinv.coords p hp
    · rw [List.map_append, List.map_singleton]
      exact List.Nodup.append hinv.nodup (List.nodup_singleton _)
        (by
          intro x hx hx1
          rw [List.mem_singleton] at hx1
          rw [hx1] at hx
          exact hnot hx)
    · intro e he
      rw [List.mem_append, List.mem_singleton] at he
      rcases he with he | he
      · exact hinv.entries e he
      · rw [he]; exact ⟨hin, hvis⟩
    · show p ∈ List.map Prod.fst (log ++ [((row, col), (s.maze (row, col)).visited)]) ↔
        (setVisited s.maze (row, col) 1 p).visited ≠ 0
      rw [List.map_append, List.map_singleton, List.mem_append, List.mem_singleton,
        setVisited_visited]
      by_cases hp1 : p = (row, col)
      · simp [hp1]
      · simp only [hp1, or_false, if_false]
        exact hinv.seen p hp

theorem length_eq_of_nodup_all {R C : Nat} {l : List (Int × Int)} (hnd : l.Nodup)
    (hin : ∀ p ∈ l, InRange R C p) (hall : ∀ p, InRange R C p → p ∈ l) :
    l.length = R * C := by
  apply le_antisymm (length_le_of_nodup_inRange hnd hin)
  have hsub : (Finset.range R ×ˢ Finset.range C).image
      (fun x : Nat × Nat => ((x.1 : Int), (x.2 : Int))) ⊆ l.toFinset := by
    intro p hp
    rw [Finset.mem_image] at hp
    obtain ⟨x, hx, rfl⟩ := hp
    simp only [Finset.mem_product, Finset.mem_range] at hx
    rw [List.mem_toFinset]
    apply hall
    unfold InRange
    simp only
    omega
  have hcard := Finset.card_le_card hsub
  rw [List.toFinset_card_of_nodup hnd, Finset.card_image_of_injective] at hcard
  · simpa using hcard
  · intro x y hxy
    have ha := (Prod.mk.inj hxy).1
    have hb := (Prod.mk.inj hxy).2
    apply Prod.ext <;> omega

/-! ### Index order of the decoded flags -/

theorem decode_encode_maze_con {R C : Nat} (m0 gen : Grid) (result : Encoded)
    (hflags : ∀ p, InRange R C p → flagsSet (gen p)) :
    ∀ p, InRange R C p → ∀ i, i < 4 →
      (decode_maze R C (initialize_maze R C m0) (encode_maze R C gen result) p).con (3 - i) =
        (gen p).con i := by
  intro p hp i hi
  have h := load_maze_apply m0 (encode_maze R C gen result) hp
  unfold load_maze at h
  rw [h, encode_maze_eq]
  simp only [hp, if_true]
  exact decode_encode_room_con _ _ (hflags p hp) i hi

theorem and_div_eq_bit (hex : Nat) :
    (hex &&& 1) / 1 = hex % 2 ∧ (hex &&& 2) / 2 = hex / 2 % 2 ∧
    (hex &&& 4) / 4 = hex / 4 % 2 ∧ (hex &&& 8) / 8 = hex / 8 % 2 := by
  have hmod : ∀ op : Nat, 15 &&& op = op → hex &&& op = (hex % 16) &&& op := by
    intro op hop
    have h16 : hex % 16 = hex &&& 15 := (Nat.and_pow_two_sub_one_eq_mod hex 4).symm
    rw [h16, Nat.and_assoc, hop]
  have key : ∀ h, h < 16 → (h &&& 1) / 1 = h % 2 ∧ (h &&& 2) / 2 = h / 2 % 2 ∧
      (h &&& 4) / 4 = h / 4 % 2 ∧ (h &&& 8) / 8 = h / 8 % 2 := by decide
  obtain ⟨k1, k2, k3, k4⟩ := key (hex % 16) (Nat.mod_lt _ (by decide))
  rw [hmod 1 (by decide), hmod 2 (by decide), hmod 4 (by decide), hmod 8 (by decide),
    k1, k2, k3, k4]
  refine ⟨?_, ?_, ?_, ?_⟩ <;> omega

theorem rooms_2x3_flagsSet (p : Int × Int) : flagsSet (rooms_2x3 p) := by
  have h : ∀ c0 c1 c2 c3 : Int, (c0 = 0 ∨ c0 = 1) → (c1 = 0 ∨ c1 = 1) → (c2 = 0 ∨ c2 = 1) →
      (c3 = 0 ∨ c3 = 1) → flagsSet (roomWith c0 c1 c2 c3) := by
    intro c0 c1 c2 c3 h0 h1 h2 h3 d hd
    interval_cases d
    · exact h0
    · exact h1
    · exact h2
    · exact h3
  show flagsSet (if p = (0, 0) then roomWith 1 0 1 1
    else if p = (0, 1) then roomWith 1 0 1 0
    else if p = (0, 2) then roomWith 1 0 0 1
    else if p = (1, 0) then roomWith 0 1 1 0
    else if p = (1, 1) then roomWith 0 1 0 1
    else if p = (1, 2) then roomWith 0 1 1 1
    else roomWith 1 1 1 1)
  split_ifs <;> exact h _ _ _ _ (by decide) (by decide) (by decide) (by decide)

/-- The generator run with `rand()` returning 0, 1, 2, ... on a 2 by 3 grid
leaves the connections of `rooms_2x3`. -/
theorem generate_rooms_2x3 :
    (generate (fun n => n) 6 (2 : Nat) (3 : Nat) blank).map
      (fun s => [(0, 0), (0, 1), (0, 2), (1, 0), (1, 1), (1, 2)].map
        (fun p => (List.range 4).map (s.maze p).con)) =
    some ([(0, 0), (0, 1), (0, 2), (1, 0), (1, 1), (1, 2)].map
      (fun p => (List.range 4).map (rooms_2x3 p).con)) := by
  decide

/-- The decoded array, element by element: in the 1 by 2 maze generated with
`rand()` returning 0 throughout, the room (0, 0) is encoded as 7 and decoded
with `con[0] = 0`.  The element `con[0]` holds the flag of direction
`3 - 0`, EAST; read as the flag of NORTH it would be open towards no room. -/
theorem decoded_elements_1x2 :
    (generate (fun _ => 0) 2 (1 : Nat) (2 : Nat) blank).map
      (fun s =>
        (encode_maze (1 : Nat) (2 : Nat) s.maze (fun _ => 0) (0, 0),
         get_neighbor (1 : Nat) (2 : Nat)
          (decode_maze (1 : Nat) (2 : Nat) (initialize_maze (1 : Nat) (2 : Nat) blank)
            (encode_maze (1 : Nat) (2 : Nat) s.maze (fun _ => 0))) (0, 0) NORTH,
         (decode_maze (1 : Nat) (2 : Nat) (initialize_maze (1 : Nat) (2 : Nat) blank)
            (encode_maze (1 : Nat) (2 : Nat) s.maze (fun _ => 0)) (0, 0)).con NORTH)) =
      some (7, none, 0) := by
  decide

/-! ## Claims -/

/-- C1 (as stated, refuted): element by element, `encode_room` and
`create_room_connections` are not mutually inverse.  The room with walls on
all sides except WEST encodes to 0xb, and decoding 0xb gives a room with
`con[WEST] = 1` and `con[SOUTH] = 0`; and decoding 1 and encoding the result
gives 8. -/
theorem encode_decode_not_inverse :
    encode_room (roomWith 1 1 0 1) = 11 ∧
    (create_room_connections (roomWith 1 1 0 1)
      (to_unsigned (encode_room (roomWith 1 1 0 1)))).con WEST = 1 ∧
    (create_room_connections (roomWith 1 1 0 1)
      (to_unsigned (encode_room (roomWith 1 1 0 1)))).con SOUTH = 0 ∧
    (roomWith 1 1 0 1).con WEST = 0 ∧ (roomWith 1 1 0 1).con SOUTH = 1 ∧
    encode_room (create_room_connections (roomWith 0 0 0 0) 1) = 8 := by
  decide

/-- C1 (as the code has it): the two functions are inverse up to the order of
the array: the solver keeps direction `d` in `con[3 - d]` (the element `dfs`
tests for direction `d`).  For a room whose flags are 0 or 1, decoding
`encode_room(room)` gives `con[3 - d] = room.con[d]` for each of the four
directions, and likewise `decode_maze` after `encode_maze` on a whole grid; and
for `hex` in 0..15, the flags decoded from `hex`, weighted 8, 4, 2, 1 from
`con[0]` to `con[3]`, give `hex` back, while `encode_room`, which weights
`con[0]` to `con[3]` by 1, 2, 4, 8, gives `hex` with its four bits
reversed. -/
theorem encode_decode_index_reversed (room0 room : maze_room) (hex : Nat) (R C : Nat)
    (gen m0 : Grid) (result : Encoded)
    (hroom : flagsSet room) (hhex : hex < 16) (hgen : ∀ p, InRange R C p → flagsSet (gen p)) :
    ((create_room_connections room0 (to_unsigned (encode_room room))).con (3 - NORTH) =
        room.con NORTH ∧
      (create_room_connections room0 (to_unsigned (encode_room room))).con (3 - SOUTH) =
        room.con SOUTH ∧
      (create_room_connections room0 (to_unsigned (encode_room room))).con (3 - WEST) =
        room.con WEST ∧
      (create_room_connections room0 (to_unsigned (encode_room room))).con (3 - EAST) =
        room.con EAST) ∧
    (∀ p, InRange R C p → ∀ d, d < 4 →
      (decode_maze R C (initialize_maze R C m0) (encode_maze R C gen result) p).con (3 - d) =
        (gen p).con d) ∧
    8 * (create_room_connections room0 hex).con 0 + 4 * (create_room_connections room0 hex).con 1
      + 2 * (create_room_connections room0 hex).con 2 + (create_room_connections room0 hex).con 3
      = (hex : Int) ∧
    encode_room (create_room_connections room0 hex) =
      ((8 * (hex % 2) + 4 * (hex / 2 % 2) + 2 * (hex / 4 % 2) + hex / 8 % 2 : Nat) : Int) := by
  obtain ⟨b1, b2, b4, b8⟩ := and_div_eq_bit hex
  refine ⟨⟨?_, ?_, ?_, ?_⟩, decode_encode_maze_con m0 gen result hgen, ?_, ?_⟩
  · exact decode_encode_room_con room0 room hroom NORTH (by decide)
  · exact decode_encode_room_con room0 room hroom SOUTH (by decide)
  · exact decode_encode_room_con room0 room hroom WEST (by decide)
  · exact decode_encode_room_con room0 room hroom EAST (by decide)
  · simp only [create_room_connections_con, b1, b2, b4, b8]
    norm_num
    omega
  · unfold encode_room
    simp only [create_room_connections_con, b1, b2, b4, b8]
    norm_num

/-- Witness for `encode_decode_index_reversed`: the room with walls on all
sides except WEST, the value 1, and the 2 by 3 maze `rooms_2x3`. -/
theorem encode_decode_index_reversed_witness :
    ((create_room_connections (roomWith 0 0 0 0)
        (to_unsigned (encode_room (roomWith 1 1 0 1)))).con (3 - NORTH) =
        (roomWith 1 1 0 1).con NORTH ∧
      (create_room_connections (roomWith 0 0 0 0)
        (to_unsigned (encode_room (roomWith 1 1 0 1)))).con (3 - SOUTH) =
        (roomWith 1 1 0 1).con SOUTH ∧
      (create_room_connections (roomWith 0 0 0 0)
        (to_unsigned (encode_room (roomWith 1 1 0 1)))).con (3 - WEST) =
        (roomWith 1 1 0 1).con WEST ∧
      (create_room_connections (roomWith 0 0 0 0)
        (to_unsigned (encode_room (roomWith 1 1 0 1)))).con (3 - EAST) =
        (roomWith 1 1 0 1).con EAST) ∧
    (∀ p, InRange 2 3 p → ∀ d, d < 4 →
      (decode_maze (2 : Nat) (3 : Nat) (initialize_maze (2 : Nat) (3 : Nat) blank)
        (encode_maze (2 : Nat) (3 : Nat) rooms_2x3 (fun _ => 0)) p).con (3 - d) =
        (rooms_2x3 p).con d) ∧
    8 * (create_room_connections (roomWith 0 0 0 0) 1).con 0 +
      4 * (create_room_connections (roomWith 0 0 0 0) 1).con 1
      + 2 * (create_room_connections (roomWith 0 0 0 0) 1).con 2 +
      (create_room_connections (roomWith 0 0 0 0) 1).con 3
      = ((1 : Nat) : Int) ∧
    encode_room (create_room_connections (roomWith 0 0 0 0) 1) =
      ((8 * (1 % 2) + 4 * (1 / 2 % 2) + 2 * (1 / 4 % 2) + 1 / 8 % 2 : Nat) : Int) :=
  encode_decode_index_reversed (roomWith 0 0 0 0) (roomWith 1 1 0 1) 1 2 3 rooms_2x3 blank
    (fun _ => 0) (by intro d hd; interval_cases d <;> decide) (by decide)
    (fun p _ => rooms_2x3_flagsSet p)

/-- C2 (as stated, refuted): with the numbering of the code, `encode_room` is
not `8*con[WEST] + 4*con[EAST] + 2*con[SOUTH] + con[NORTH]`: a room whose only
wall is on the WEST encodes to 4. -/
theorem encode_room_west_east_swapped :
    flagsSet (roomWith 0 0 1 0) ∧
    encode_room (roomWith 0 0 1 0) = 4 ∧
    encode_room (roomWith 0 0 1 0) ≠
      8 * (roomWith 0 0 1 0).con WEST + 4 * (roomWith 0 0 1 0).con EAST +
        2 * (roomWith 0 0 1 0).con SOUTH + (roomWith 0 0 1 0).con NORTH := by
  refine ⟨?_, by decide, by decide⟩
  intro d hd
  interval_cases d <;> decide

/-- C2 (amended): for a room whose four flags are 0 or 1, `encode_room` is
`8*con[EAST] + 4*con[WEST] + 2*con[SOUTH] + con[NORTH]` under the numbering of
the code (NORTH = 0, SOUTH = 1, WEST = 2, EAST = 3), and lies in [0, 15]. -/
theorem encode_room_formula (room : maze_room) (h : flagsSet room) :
    encode_room room =
      8 * room.con EAST + 4 * room.con WEST + 2 * room.con SOUTH + room.con NORTH ∧
    0 ≤ encode_room room ∧ encode_room room ≤ 15 := by
  have h0 := h 0 (by decide)
  have h1 := h 1 (by decide)
  have h2 := h 2 (by decide)
  have h3 := h 3 (by decide)
  refine ⟨rfl, ?_, ?_⟩ <;> unfold encode_room <;> omega

/-- Witness for `encode_room_formula`: the room with walls on all sides except
WEST. -/
theorem encode_room_formula_witness :
    encode_room (roomWith 1 1 0 1) =
      8 * (roomWith 1 1 0 1).con EAST + 4 * (roomWith 1 1 0 1).con WEST +
        2 * (roomWith 1 1 0 1).con SOUTH + (roomWith 1 1 0 1).con NORTH ∧
    0 ≤ encode_room (roomWith 1 1 0 1) ∧ encode_room (roomWith 1 1 0 1) ≤ 15 :=
  encode_room_formula (roomWith 1 1 0 1) (by intro d hd; interval_cases d <;> decide)

/-- C3: for every positive size and every `rand()` stream, `initialize_maze`
followed by `drunken_walk(0, 0, ...)` returns (with a recursion depth of
`R * C`) and leaves a maze whose graph of open connections is a spanning tree
of the grid: it is connected and acyclic, has exactly `R * C - 1` edges, and
has exactly one simple path between any two rooms. -/
theorem drunken_walk_spanning_tree (rng : Nat → Nat) (R C : Nat) (hR : 0 < R) (hC : 0 < C)
    (fuel : Nat) (hfuel : R * C ≤ fuel) (m0 : Grid) :
    ∃ s, generate rng fuel R C m0 = some s ∧
      (openGraph R C s.maze).IsTree ∧
      Nat.card (openGraph R C s.maze).edgeSet = R * C - 1 ∧
      ∀ u v, ∃! p : (openGraph R C s.maze).Walk u v, p.IsPath := by
  obtain ⟨s, hs, hdone⟩ := generate_done rng R C hR hC fuel hfuel m0
  have ht := hdone.isTree hR hC
  exact ⟨s, hs, ht, card_edgeSet_of_isTree ht, ht.existsUnique_path⟩

/-- Witness for `drunken_walk_spanning_tree`: a 2 by 3 maze. -/
theorem drunken_walk_spanning_tree_witness :
    ∃ s, generate (fun n => n) 6 (2 : Nat) (3 : Nat) blank = some s ∧
      (openGraph 2 3 s.maze).IsTree ∧
      Nat.card (openGraph 2 3 s.maze).edgeSet = 2 * 3 - 1 ∧
      ∀ u v, ∃! p : (openGraph 2 3 s.maze).Walk u v, p.IsPath :=
  drunken_walk_spanning_tree (fun n => n) 2 3 (by decide) (by decide) 6 (by decide) blank

/-- C4: in the generated maze, a connection with no neighbour inside the
array is a wall, and the two sides of every shared wall agree. -/
theorem drunken_walk_walls_agree (rng : Nat → Nat) (R C : Nat) (hR : 0 < R) (hC : 0 < C)
    (fuel : Nat) (hfuel : R * C ≤ fuel) (m0 : Grid) :
    ∃ s, generate rng fuel R C m0 = some s ∧
      (∀ p, InRange R C p → ∀ d, d < 4 → get_neighbor R C s.maze p d = none →
        (s.maze p).con d = 1) ∧
      (∀ p, InRange R C p → ∀ d, d < 4 → ∀ q, get_neighbor R C s.maze p d = some q →
        (s.maze p).con d = (s.maze q).con (get_opposite_dir d)) := by
  obtain ⟨s, hs, hdone⟩ := generate_done rng R C hR hC fuel hfuel m0
  refine ⟨s, hs, ?_, ?_⟩
  · intro p hp d hd hn
    rw [get_neighbor_eq R C s.maze p d (hdone.coords p hp)] at hn
    split_ifs at hn with hin
    exact hdone.walls p hp d hd hin
  · intro p hp d hd q hn
    rw [get_neighbor_eq R C s.maze p d (hdone.coords p hp)] at hn
    split_ifs at hn with hin
    rw [← Option.some.inj hn]
    exact hdone.sym p hp d hd hin

/-- Witness for `drunken_walk_walls_agree`: a 2 by 3 maze. -/
theorem drunken_walk_walls_agree_witness :
    ∃ s, generate (fun n => n) 6 (2 : Nat) (3 : Nat) blank = some s ∧
      (∀ p, InRange 2 3 p → ∀ d, d < 4 → get_neighbor (2 : Nat) (3 : Nat) s.maze p d = none →
        (s.maze p).con d = 1) ∧
      (∀ p, InRange 2 3 p → ∀ d, d < 4 → ∀ q,
        get_neighbor (2 : Nat) (3 : Nat) s.maze p d = some q →
        (s.maze p).con d = (s.maze q).con (get_opposite_dir d)) :=
  drunken_walk_walls_agree (fun n => n) 2 3 (by decide) (by decide) 6 (by decide) blank

/-- C5: no flag is left unset.  After `initialize_maze` and
`drunken_walk(0, 0, ...)` every room of the array has its four flags in
{0, 1}; and after `initialize_maze` and `decode_maze` on any encoded matrix
every room of the array has its four flags in {0, 1}. -/
theorem no_flag_left_unset (rng : Nat → Nat) (R C : Nat) (hR : 0 < R) (hC : 0 < C)
    (fuel : Nat) (hfuel : R * C ≤ fuel) (m0 : Grid) (enc : Encoded) :
    (∃ s, generate rng fuel R C m0 = some s ∧
      ∀ p, InRange R C p → flagsSet (s.maze p)) ∧
    (∀ p, InRange R C p → flagsSet (decode_maze R C (initialize_maze R C m0) enc p)) := by
  constructor
  · obtain ⟨s, hs, hdone⟩ := generate_done rng R C hR hC fuel hfuel m0
    exact ⟨s, hs, hdone.flags⟩
  · intro p hp
    rw [decode_maze_eq]
    simp only [hp, if_true]
    exact create_room_connections_flagsSet _ _

/-- Witness for `no_flag_left_unset`: a 2 by 3 maze and the all-walls
matrix. -/
theorem no_flag_left_unset_witness :
    (∃ s, generate (fun n => n) 6 (2 : Nat) (3 : Nat) blank = some s ∧
      ∀ p, InRange 2 3 p → flagsSet (s.maze p)) ∧
    (∀ p, InRange 2 3 p →
      flagsSet (decode_maze (2 : Nat) (3 : Nat)
        (initialize_maze (2 : Nat) (3 : Nat) blank) (fun _ => 15) p)) :=
  no_flag_left_unset (fun n => n) 2 3 (by decide) (by decide) 6 (by decide) blank (fun _ => 15)

/-- C6: for every positive size and every `rand()` stream, the generated maze,
encoded with `encode_maze` and decoded with `decode_maze` into a freshly
initialized grid, is consistent.  The solver keeps the flag of direction `d`
in `con[3 - d]`, the element `dfs` tests before it steps to
`get_neighbor(room, d)`.  Read there, a decoded flag that is open towards a
neighbour inside the grid is open on the neighbour's side in the opposite
direction, and every decoded flag that points outside the grid is a wall. -/
theorem decoded_flags_consistent (rng : Nat → Nat) (R C : Nat) (hR : 0 < R) (hC : 0 < C)
    (fuel : Nat) (hfuel : R * C ≤ fuel) (m0 m1 : Grid) (result : Encoded) :
    ∃ s, generate rng fuel R C m0 = some s ∧
      (∀ p, InRange R C p → ∀ d, d < 4 → ∀ q,
        get_neighbor R C
          (decode_maze R C (initialize_maze R C m1) (encode_maze R C s.maze result)) p d =
          some q →
        (decode_maze R C (initialize_maze R C m1) (encode_maze R C s.maze result) p).con
          (3 - d) = 0 →
        (decode_maze R C (initialize_maze R C m1) (encode_maze R C s.maze result) q).con
          (3 - get_opposite_dir d) = 0) ∧
      (∀ p, InRange R C p → ∀ d, d < 4 →
        get_neighbor R C
          (decode_maze R C (initialize_maze R C m1) (encode_maze R C s.maze result)) p d =
          none →
        (decode_maze R C (initialize_maze R C m1) (encode_maze R C s.maze result) p).con
          (3 - d) = 1) := by
  obtain ⟨s, hs, hdone⟩ := generate_done rng R C hR hC fuel hfuel m0
  have hcon := decode_encode_maze_con m1 s.maze result hdone.flags
  have hcoords : ∀ p, InRange R C p →
      (decode_maze R C (initialize_maze R C m1) (encode_maze R C s.maze result) p).row = p.1 ∧
      (decode_maze R C (initialize_maze R C m1) (encode_maze R C s.maze result) p).col = p.2 :=
    (load_maze_inv R C m1 (encode_maze R C s.maze result)).1.coords
  refine ⟨s, hs, ?_, ?_⟩
  · intro p hp d hd q hn hopen
    rw [get_neighbor_eq R C _ p d (hcoords p hp)] at hn
    split_ifs at hn with hin
    rw [← Option.some.inj hn]
    rw [hcon p hp d hd] at hopen
    rw [hcon _ hin _ (get_opposite_dir_lt hd), ← hdone.sym p hp d hd hin]
    exact hopen
  · intro p hp d hd hn
    rw [get_neighbor_eq R C _ p d (hcoords p hp)] at hn
    split_ifs at hn with hin
    rw [hcon p hp d hd]
    exact hdone.walls p hp d hd hin

/-- Witness for `decoded_flags_consistent`: the 2 by 3 maze generated with
`rand()` returning 0, 1, 2, ... -/
theorem decoded_flags_consistent_witness :
    ∃ s, generate (fun n => n) 6 (2 : Nat) (3 : Nat) blank = some s ∧
      (∀ p, InRange 2 3 p → ∀ d, d < 4 → ∀ q,
        get_neighbor (2 : Nat) (3 : Nat)
          (decode_maze (2 : Nat) (3 : Nat) (initialize_maze (2 : Nat) (3 : Nat) blank)
            (encode_maze (2 : Nat) (3 : Nat) s.maze (fun _ => 0))) p d = some q →
        (decode_maze (2 : Nat) (3 : Nat) (initialize_maze (2 : Nat) (3 : Nat) blank)
          (encode_maze (2 : Nat) (3 : Nat) s.maze (fun _ => 0)) p).con (3 - d) = 0 →
        (decode_maze (2 : Nat) (3 : Nat) (initialize_maze (2 : Nat) (3 : Nat) blank)
          (encode_maze (2 : Nat) (3 : Nat) s.maze (fun _ => 0)) q).con
          (3 - get_opposite_dir d) = 0) ∧
      (∀ p, InRange 2 3 p → ∀ d, d < 4 →
        get_neighbor (2 : Nat) (3 : Nat)
          (decode_maze (2 : Nat) (3 : Nat) (initialize_maze (2 : Nat) (3 : Nat) blank)
            (encode_maze (2 : Nat) (3 : Nat) s.maze (fun _ => 0))) p d = none →
        (decode_maze (2 : Nat) (3 : Nat) (initialize_maze (2 : Nat) (3 : Nat) blank)
          (encode_maze (2 : Nat) (3 : Nat) s.maze (fun _ => 0)) p).con (3 - d) = 1) :=
  decoded_flags_consistent (fun n => n) 2 3 (by decide) (by decide) 6 (by decide) blank blank
    (fun _ => 0)

/-- C7: end-to-end solvability.  For every positive size, every `rand()`
stream and every start and goal inside the array, the generated maze, encoded
with `encode_maze` and decoded with `decode_maze` into a freshly initialized
grid, is solved: `dfs` returns 1 (in either build mode, with a recursion depth
of `R * C`), and `print_pruned_path` then prints the chain of `next` pointers
from the start, which runs from the start to the goal and repeats no room. -/
theorem generated_maze_solvable (rng : Nat → Nat) (R C : Nat) (hR : 0 < R) (hC : 0 < C)
    (fuel : Nat) (hfuel : R * C ≤ fuel) (m0 m1 : Grid) (result : Encoded) (full : Bool)
    (out : List Line) (start goal : Int × Int)
    (hs : InRange R C start) (hg : InRange R C goal) :
    ∃ s, generate rng fuel R C m0 = some s ∧
      ∃ (s1 : SolveState) (l : List (Int × Int)), dfs full goal.1 goal.2 R C fuel start.1 start.2
          ⟨decode_maze R C (initialize_maze R C m1) (encode_maze R C s.maze result), out⟩ =
          some (1, s1) ∧
        (∀ out1, print_pruned_path s1.maze fuel start out1 =
          some (0, out1 ++ l.map lineOf)) ∧
        l.Nodup ∧ l.head? = some start ∧ l.getLast? = some goal := by
  obtain ⟨s, hs1, hdone⟩ := generate_done rng R C hR hC fuel hfuel m0
  have hload := load_maze_inv R C m1 (encode_maze R C s.maze result)
  have hreach := hdone.reach hR hC hload.1.coords (load_encode_con hdone m1 result)
  obtain ⟨ret, s1, l, hdfs, hret, hok, hcl, hhead, _, hnd, _, hlast, _, hprint⟩ :=
    dfs_path full goal hload.1 hs (hload.2 start hs).1 fuel hfuel out
  have hne : ret ≠ 0 := dfs_complete (fun p hp => (hload.2 p hp).1) hs hg
    ((hreach start hs).2.trans (hreach goal hg).1) hok hcl
  have h1 : ret = 1 := by
    rcases hret with h | h
    · exact absurd h hne
    · exact h
  subst h1
  exact ⟨s, hs1, s1, l, hdfs, hprint, hnd, hhead, hlast rfl⟩

/-- Witness for `generated_maze_solvable`: a 2 by 3 maze solved from (1, 2) to
(0, 0). -/
theorem generated_maze_solvable_witness :
    ∃ s, generate (fun n => n) 6 (2 : Nat) (3 : Nat) blank = some s ∧
      ∃ (s1 : SolveState) (l : List (Int × Int)), dfs false (0, 0).1 (0, 0).2 (2 : Nat) (3 : Nat) 6 (1, 2).1 (1, 2).2
          ⟨decode_maze (2 : Nat) (3 : Nat) (initialize_maze (2 : Nat) (3 : Nat) blank)
            (encode_maze (2 : Nat) (3 : Nat) s.maze (fun _ => 0)), []⟩ =
          some (1, s1) ∧
        (∀ out1, print_pruned_path s1.maze 6 (1, 2) out1 =
          some (0, out1 ++ l.map lineOf)) ∧
        l.Nodup ∧ l.head? = some (1, 2) ∧ l.getLast? = some (0, 0) :=
  generated_maze_solvable (fun n => n) 2 3 (by decide) (by decide) 6 (by decide) blank blank
    (fun _ => 0) false [] (1, 2) (0, 0) (by decide) (by decide)

/-- C8: on a grid whose rooms store their coordinates, with every `visited`
flag 0 and every `next` pointer unset, `dfs` from a start inside the array
returns (with a recursion depth of `R * C`); and when it returns 1, following
`next` from the start, as `print_pruned_path` does, ends after finitely many
rooms: the chain begins at the start, ends at the goal, and each room of it
is followed by its neighbour in a direction `i` with `con[3 - i] == 0`. -/
theorem dfs_success_chain (full : Bool) (R C : Nat) (m : Grid) (start goal : Int × Int)
    (out : List Line) (hcoords : coordsOK R C m)
    (hfresh : ∀ p, InRange R C p → (m p).visited = 0 ∧ (m p).next = none)
    (hs : InRange R C start) (fuel : Nat) (hfuel : R * C ≤ fuel) :
    ∃ ret s1, dfs full goal.1 goal.2 R C fuel start.1 start.2 ⟨m, out⟩ = some (ret, s1) ∧
      (ret = 1 → ∃ l, (∀ out1, print_pruned_path s1.maze fuel start out1 =
          some (0, out1 ++ l.map lineOf)) ∧
        NextChain s1.maze l ∧ l.head? = some start ∧ l.getLast? = some goal ∧
        l.Chain' (OpenStep R C s1.maze)) := by
  obtain ⟨ret, s1, l, hdfs, _, _, _, hhead, hchain, _, hsteps, hlast, _, hprint⟩ :=
    dfs_path full goal ⟨hcoords, fun p hp _ => (hfresh p hp).2⟩ hs
      (hfresh start hs).1 fuel hfuel out
  exact ⟨ret, s1, hdfs, fun h1 => ⟨l, hprint, hchain, hhead, hlast h1, hsteps⟩⟩

/-- Witness for `dfs_success_chain`: the 1 by 2 maze encoded as 7, b, solved
from (0, 0) to (0, 1). -/
theorem dfs_success_chain_witness :
    ∃ ret s1, dfs false (0, 1).1 (0, 1).2 (1 : Nat) (2 : Nat) 2 (0, 0).1 (0, 0).2
        ⟨load_maze (1 : Nat) (2 : Nat) blank (fun p => if p = (0, 0) then 7 else 11), []⟩ =
        some (ret, s1) ∧
      (ret = 1 → ∃ l, (∀ out1, print_pruned_path s1.maze 2 (0, 0) out1 =
          some (0, out1 ++ l.map lineOf)) ∧
        NextChain s1.maze l ∧ l.head? = some (0, 0) ∧ l.getLast? = some (0, 1) ∧
        l.Chain' (OpenStep 1 2 s1.maze)) :=
  dfs_success_chain false 1 2
    (load_maze (1 : Nat) (2 : Nat) blank (fun p => if p = (0, 0) then 7 else 11))
    (0, 0) (0, 1) [] (load_maze_inv 1 2 blank _).1.coords (load_maze_inv 1 2 blank _).2
    (by decide) 2 (by decide)

/-- C9: on the grid decoded from the all-walls matrix (every value 15), `dfs`
from a start inside the array to a different goal returns 0.  (This holds for
every size of the array and every positive recursion depth.) -/
theorem dfs_all_walls (full : Bool) (R C : Nat) (m0 : Grid) (out : List Line)
    (start goal : Int × Int) (hs : InRange R C start) (hne : start ≠ goal)
    (fuel : Nat) (hfuel : 0 < fuel) :
    ∃ s1, dfs full goal.1 goal.2 R C fuel start.1 start.2
      ⟨decode_maze R C (initialize_maze R C m0) (fun _ => 15), out⟩ = some (0, s1) := by
  obtain ⟨k, rfl⟩ : ∃ k, fuel = k + 1 := ⟨fuel - 1, by omega⟩
  have hg : ¬ (start.1 = goal.1 ∧ start.2 = goal.2) := fun hc => hne (Prod.ext hc.1 hc.2)
  have hcon : ∀ i, i < 4 →
      (decode_maze R C (initialize_maze R C m0) (fun _ => 15) start).con (3 - i) ≠ 0 := by
    intro i hi
    have := load_maze_apply m0 (fun _ => 15) hs
    unfold load_maze at this
    rw [this, create_room_connections_con]
    have h15 : to_unsigned 15 = 15 := by decide
    rw [h15]
    split_ifs <;> first | decide | omega
  have hloop := dfs_loop_walled (dfs full goal.1 goal.2 R C k) full R C start [0, 1, 2, 3]
    { (if full then print_room ⟨decode_maze R C (initialize_maze R C m0) (fun _ => 15), out⟩
          start
        else ⟨decode_maze R C (initialize_maze R C m0) (fun _ => 15), out⟩) with
      maze := setVisited
        (if full then print_room ⟨decode_maze R C (initialize_maze R C m0) (fun _ => 15), out⟩
          start
        else ⟨decode_maze R C (initialize_maze R C m0) (fun _ => 15), out⟩).maze start 1 }
    (by
      intro i hi
      have hi4 : i < 4 := by
        simp only [List.mem_cons, List.mem_singleton, List.not_mem_nil, or_false] at hi
        omega
      cases full <;> simpa [setVisited_con, print_room] using hcon i hi4)
  exact ⟨_, by simp only [dfs, hg, if_false]; exact hloop⟩

/-- Witness for `dfs_all_walls`: a 2 by 2 grid, from (0, 0) to (1, 1). -/
theorem dfs_all_walls_witness :
    ∃ s1, dfs false (1, 1).1 (1, 1).2 (2 : Nat) (2 : Nat) 4 (0, 0).1 (0, 0).2
      ⟨decode_maze (2 : Nat) (2 : Nat) (initialize_maze (2 : Nat) (2 : Nat) blank)
        (fun _ => 15), []⟩ = some (0, s1) :=
  dfs_all_walls false 2 2 blank [] (0, 0) (1, 1) (by decide) (by decide) 4 (by decide)

/-- C10 (as stated, refuted): on the 2 by 2 all-walls maze, from (0, 0) to
(1, 1), `dfs` returns 0, and the solver in pruned mode still writes the header
and the line of the start room, and exits with status 0. -/
theorem solver_main_emits_on_failure :
    (dfs false 1 1 (2 : Nat) (2 : Nat) 4 0 0
      ⟨decode_maze (2 : Nat) (2 : Nat) (initialize_maze (2 : Nat) (2 : Nat) blank)
        (fun _ => 15), []⟩).map Prod.fst = some 0 ∧
    solver_main false 4 2 2 0 0 1 1 (some (fun _ => 15)) blank =
      some (0, [Line.header "PRUNED", Line.coords 0 0]) := by
  decide

/-- C10 (amended): when the arguments pass the check of `main` and `dfs`
returns 0, the solver in pruned mode writes the header followed by the chain
of `next` pointers from the start room (which begins with the start room and
does not contain the goal), and exits with status 0. -/
theorem solver_main_no_path (R C : Nat) (sr sc gr gc : Int)
    (hcheck : ¬ (sr ≥ R ∨ sc ≥ C ∨ gr ≥ R ∨ gr ≥ C ∨ sr < 0 ∨ sc < 0 ∨ gr < 0 ∨ gc < 0))
    (enc : Encoded) (m0 : Grid) (fuel : Nat) (hfuel : R * C ≤ fuel) :
    ∃ ret s1, dfs false gr gc R C fuel sr sc
        ⟨decode_maze R C (initialize_maze R C m0) enc, []⟩ = some (ret, s1) ∧
      (ret = 0 → ∃ l, solver_main false fuel R C sr sc gr gc (some enc) m0 =
          some (0, Line.header "PRUNED" :: l.map lineOf) ∧
        l.head? = some (sr, sc) ∧ NextChain s1.maze l ∧ (gr, gc) ∉ l) := by
  have hs : InRange R C (sr, sc) := by unfold InRange; simp only; omega
  have hload := load_maze_inv R C m0 enc
  obtain ⟨ret, s1, l, hdfs, _, _, _, hhead, hchain, _, _, _, hgoal, hprint⟩ :=
    dfs_path false (gr, gc) hload.1 hs (hload.2 _ hs).1 fuel hfuel []
  refine ⟨ret, s1, hdfs, fun h0 => ⟨l, ?_, hhead, hchain, hgoal h0⟩⟩
  have hout : s1.out = [] := dfs_out gr gc R C fuel sr sc _ ret s1 hdfs
  have hdims : ¬ ((R : Int) ≤ 0 ∨ (C : Int) ≤ 0) := by omega
  have hdfs1 : dfs false gr gc R C fuel sr sc
      ⟨decode_maze R C (initialize_maze R C m0) enc, []⟩ = some (ret, s1) := hdfs
  simp only [solver_main, hdims, hcheck, if_false, Bool.false_eq_true]
  rw [hdfs1]
  simp only [hout, List.nil_append, hprint]
  simp

/-- Witness for `solver_main_no_path`: the 2 by 2 all-walls maze, from (0, 0)
to (1, 1). -/
theorem solver_main_no_path_witness :
    ∃ ret s1, dfs false 1 1 (2 : Nat) (2 : Nat) 4 0 0
        ⟨decode_maze (2 : Nat) (2 : Nat) (initialize_maze (2 : Nat) (2 : Nat) blank)
          (fun _ => 15), []⟩ = some (ret, s1) ∧
      (ret = 0 → ∃ l, solver_main false 4 (2 : Nat) (2 : Nat) 0 0 1 1 (some (fun _ => 15)) blank =
          some (0, Line.header "PRUNED" :: l.map lineOf) ∧
        l.head? = some (0, 0) ∧ NextChain s1.maze l ∧ ((1 : Int), (1 : Int)) ∉ l) :=
  solver_main_no_path 2 2 0 0 1 1 (by decide) (fun _ => 15) blank 4 (by decide)

/-- C11 (fails on the code): the argument check of the solver's `main` tests
`goal_row >= num_cols` where the goal column is meant.  On a 2 by 5 grid the
goal (1, 7), which lies outside the grid, passes the check and the search
runs; on a 5 by 2 grid the goal (3, 1), which lies inside, is rejected. -/
theorem solver_main_goal_col_unchecked :
    solver_main false 10 2 5 0 0 1 7 (some (fun _ => 15)) blank =
      some (0, [Line.header "PRUNED", Line.coords 0 0]) ∧
    is_in_range 1 7 2 5 = 0 ∧
    solver_main false 10 5 2 0 0 3 1 (some (fun _ => 15)) blank = some (1, []) ∧
    is_in_range 3 1 5 2 = 1 ∧ is_in_range 0 0 5 2 = 1 := by
  decide

/-- C12: `dfs` called on the goal itself returns 1 at once and leaves the maze
as it is (without `FULL` the whole state, file included); and on a 1 by 1 grid
decoded from any value, with start = goal = (0, 0), `dfs` returns 1 and
`print_pruned_path` prints the one-room path (0, 0). -/
theorem dfs_start_is_goal :
    (∀ (full : Bool) (gr gc R C : Int) (fuel : Nat) (s : SolveState),
      ∃ s1, dfs full gr gc R C (fuel + 1) gr gc s = some (1, s1) ∧ s1.maze = s.maze ∧
        (full = false → s1 = s)) ∧
    (∀ (enc : Encoded) (m0 : Grid) (fuel : Nat) (out : List Line),
      dfs false 0 0 (1 : Nat) (1 : Nat) (fuel + 1) 0 0
          ⟨decode_maze (1 : Nat) (1 : Nat) (initialize_maze (1 : Nat) (1 : Nat) m0) enc, out⟩ =
        some (1, ⟨decode_maze (1 : Nat) (1 : Nat) (initialize_maze (1 : Nat) (1 : Nat) m0) enc,
          out⟩) ∧
      print_pruned_path
          (decode_maze (1 : Nat) (1 : Nat) (initialize_maze (1 : Nat) (1 : Nat) m0) enc)
          (fuel + 1) (0, 0) [] = some (0, [Line.coords 0 0])) := by
  constructor
  · intro full gr gc R C fuel s
    refine ⟨if full then print_room s (gr, gc) else s, ?_, ?_, ?_⟩
    · simp only [dfs, and_self, if_true]
    · cases full <;> rfl
    · intro h; rw [h]; rfl
  · intro enc m0 fuel out
    constructor
    · simp only [dfs, and_self, if_true]
      rfl
    · have h00 : InRange 1 1 (0, 0) := by decide
      have hl := load_maze_apply m0 enc h00
      unfold load_maze at hl
      simp only [print_pruned_path, hl, create_room_connections_row,
        create_room_connections_col, create_room_connections_next]
      rfl

/-- C13: `is_in_range` returns 1 when `0 <= row < rows` and `0 <= col < cols`
and 0 otherwise; and for a room that stores the coordinates (r, c),
`get_neighbor` returns the room at (r-1, c) for NORTH, (r+1, c) for SOUTH,
(r, c-1) for WEST and (r, c+1) for EAST when those coordinates are in range,
and `NULL` otherwise.  (`get_neighbor` only computes a pointer: it writes
nothing.) -/
theorem is_in_range_get_neighbor (num_rows num_cols : Int) (maze : Grid)
    (room : Int × Int) (r c : Int) (hrow : (maze room).row = r) (hcol : (maze room).col = c) :
    (∀ row col rows cols : Int,
      (is_in_range row col rows cols = 1 ↔ (0 ≤ row ∧ row < rows ∧ 0 ≤ col ∧ col < cols)) ∧
      (is_in_range row col rows cols = 0 ↔
        ¬ (0 ≤ row ∧ row < rows ∧ 0 ≤ col ∧ col < cols))) ∧
    get_neighbor num_rows num_cols maze room NORTH =
      (if 0 ≤ r - 1 ∧ r - 1 < num_rows ∧ 0 ≤ c ∧ c < num_cols then some (r - 1, c)
        else none) ∧
    get_neighbor num_rows num_cols maze room SOUTH =
      (if 0 ≤ r + 1 ∧ r + 1 < num_rows ∧ 0 ≤ c ∧ c < num_cols then some (r + 1, c)
        else none) ∧
    get_neighbor num_rows num_cols maze room WEST =
      (if 0 ≤ r ∧ r < num_rows ∧ 0 ≤ c - 1 ∧ c - 1 < num_cols then some (r, c - 1)
        else none) ∧
    get_neighbor num_rows num_cols maze room EAST =
      (if 0 ≤ r ∧ r < num_rows ∧ 0 ≤ c + 1 ∧ c + 1 < num_cols then some (r, c + 1)
        else none) := by
  have hrange : ∀ row col rows cols : Int,
      (is_in_range row col rows cols ≠ 0 ↔ (0 ≤ row ∧ row < rows ∧ 0 ≤ col ∧ col < cols)) := by
    intro row col rows cols
    unfold is_in_range
    split_ifs with h
    · simp; omega
    · simp; omega
  refine ⟨?_, ?_, ?_, ?_, ?_⟩
  · intro row col rows cols
    unfold is_in_range
    split_ifs with h
    · simp; omega
    · simp; omega
  all_goals
    unfold get_neighbor
    simp only [hrow, hcol, hrange]
    simp [Direction, NORTH, SOUTH, WEST, EAST]

/-- Witness for `is_in_range_get_neighbor`: the room (1, 1) of an initialized
2 by 2 grid. -/
theorem is_in_range_get_neighbor_witness :
    (∀ row col rows cols : Int,
      (is_in_range row col rows cols = 1 ↔ (0 ≤ row ∧ row < rows ∧ 0 ≤ col ∧ col < cols)) ∧
      (is_in_range row col rows cols = 0 ↔
        ¬ (0 ≤ row ∧ row < rows ∧ 0 ≤ col ∧ col < cols))) ∧
    get_neighbor 2 2 (initialize_maze 2 2 blank) (1, 1) NORTH =
      (if (0 : Int) ≤ 1 - 1 ∧ (1 : Int) - 1 < 2 ∧ (0 : Int) ≤ 1 ∧ (1 : Int) < 2
        then some ((1 : Int) - 1, (1 : Int)) else none) ∧
    get_neighbor 2 2 (initialize_maze 2 2 blank) (1, 1) SOUTH =
      (if (0 : Int) ≤ 1 + 1 ∧ (1 : Int) + 1 < 2 ∧ (0 : Int) ≤ 1 ∧ (1 : Int) < 2
        then some ((1 : Int) + 1, (1 : Int)) else none) ∧
    get_neighbor 2 2 (initialize_maze 2 2 blank) (1, 1) WEST =
      (if (0 : Int) ≤ 1 ∧ (1 : Int) < 2 ∧ (0 : Int) ≤ 1 - 1 ∧ (1 : Int) - 1 < 2
        then some ((1 : Int), (1 : Int) - 1) else none) ∧
    get_neighbor 2 2 (initialize_maze 2 2 blank) (1, 1) EAST =
      (if (0 : Int) ≤ 1 ∧ (1 : Int) < 2 ∧ (0 : Int) ≤ 1 + 1 ∧ (1 : Int) + 1 < 2
        then some ((1 : Int), (1 : Int) + 1) else none) :=
  is_in_range_get_neighbor 2 2 (initialize_maze 2 2 blank) (1, 1) 1 1 (by decide) (by decide)

/-- C14 (fails on the code): the four draws `rand() % 4` have 256 equally
likely outcomes, and they do not spread evenly over the 24 orders.  The order
`{SOUTH, NORTH, EAST, WEST}` comes from 15 of them and the order
`{EAST, SOUTH, WEST, NORTH}` from 8; the identity order comes from 10. -/
theorem shuffle_array_not_uniform :
    all_draws.length = 256 ∧
    shuffle_count [SOUTH, NORTH, EAST, WEST] = 15 ∧
    shuffle_count [EAST, SOUTH, WEST, NORTH] = 8 ∧
    shuffle_count [NORTH, SOUTH, WEST, EAST] = 10 ∧
    shuffle_count [SOUTH, NORTH, EAST, WEST] ≠ shuffle_count [EAST, SOUTH, WEST, NORTH] := by
  decide!

/-- C14 (as the code has it): whatever `rand()` returns, `shuffle_array`
leaves a permutation of `{NORTH, SOUTH, WEST, EAST}` in the array and makes
four calls of `rand()`; and each of the 24 orders is reached, by at least 8
and at most 15 of the 256 draw sequences. -/
theorem shuffle_array_permutation :
    (∀ (rng : Nat → Nat) (calls : Nat),
      List.Perm (shuffle_array rng [NORTH, SOUTH, WEST, EAST] calls).1
        [NORTH, SOUTH, WEST, EAST] ∧
      (shuffle_array rng [NORTH, SOUTH, WEST, EAST] calls).2 = calls + 4) ∧
    (∀ l : List Nat, List.Perm l [NORTH, SOUTH, WEST, EAST] →
      8 ≤ shuffle_count l ∧ shuffle_count l ≤ 15) := by
  constructor
  · intro rng calls
    rw [shuffle_array_eq]
    refine ⟨?_, rfl⟩
    have key : ∀ r0 r1 r2 r3 : Fin 4,
        (shuffle4 r0 r1 r2 r3).Nodup ∧ (shuffle4 r0 r1 r2 r3).length = 4 ∧
        ∀ x ∈ shuffle4 r0 r1 r2 r3, x < 4 := by decide
    obtain ⟨hnd, hlen, hlt⟩ := key ⟨rng calls % 4, Nat.mod_lt _ (by decide)⟩
      ⟨rng (calls + 1) % 4, Nat.mod_lt _ (by decide)⟩
      ⟨rng (calls + 2) % 4, Nat.mod_lt _ (by decide)⟩
      ⟨rng (calls + 3) % 4, Nat.mod_lt _ (by decide)⟩
    have hsub : shuffle4 (rng calls % 4) (rng (calls + 1) % 4) (rng (calls + 2) % 4)
        (rng (calls + 3) % 4) ⊆ [NORTH, SOUTH, WEST, EAST] := by
      intro x hx
      have := hlt x hx
      have h4 : ∀ y : Nat, y < 4 → y ∈ [NORTH, SOUTH, WEST, EAST] := by decide
      exact h4 x this
    exact (List.Subperm.perm_of_length_le (List.subperm_of_subset hnd hsub)
      (by rw [hlen]; decide))
  · intro l hl
    have key : ∀ a b c d : Fin 4, [a.val, b.val, c.val, d.val].Nodup →
        8 ≤ shuffle_count [a.val, b.val, c.val, d.val] ∧
        shuffle_count [a.val, b.val, c.val, d.val] ≤ 15 := by decide!
    have hlen : l.length = 4 := hl.length_eq
    have hnd : l.Nodup := hl.nodup_iff.2 (by decide)
    have hlt : ∀ x ∈ l, x < 4 := by
      intro x hx
      have h4 : ∀ y ∈ [NORTH, SOUTH, WEST, EAST], y < 4 := by decide
      exact h4 x (hl.subset hx)
    match l, hlen, hnd, hlt with
    | [a, b, c, d], _, hnd, hlt =>
      exact key ⟨a, hlt a (by simp)⟩ ⟨b, hlt b (by simp)⟩ ⟨c, hlt c (by simp)⟩
        ⟨d, hlt d (by simp)⟩ hnd

/-- C15 (as stated, refuted): decoding the header's own example 0xb (binary
1011, the value `encode_room` gives a room whose only open side is WEST) sets
`con[SOUTH]` to 0 and `con[WEST]` to 1: the element `con[d]` receives bit
`3 - d` of `hex`, not the bit `encode_room` writes `con[d]` into. -/
theorem create_room_connections_example_0xb :
    encode_room (roomWith 1 1 0 1) = 11 ∧
    (create_room_connections (roomWith 0 0 0 0) 11).con NORTH = 1 ∧
    (create_room_connections (roomWith 0 0 0 0) 11).con SOUTH = 0 ∧
    (create_room_connections (roomWith 0 0 0 0) 11).con WEST = 1 ∧
    (create_room_connections (roomWith 0 0 0 0) 11).con EAST = 1 ∧
    (create_room_connections (roomWith 0 0 0 0) 11).con WEST ≠ (roomWith 1 1 0 1).con WEST ∧
    (create_room_connections (roomWith 0 0 0 0) 11).con SOUTH ≠
      (roomWith 1 1 0 1).con SOUTH := by
  decide

/-- C15 (as the code has it): `create_room_connections` puts the bit of
direction `d` (the bit of weight `2^d`, into which `encode_room` writes
`con[d]`) in `con[3 - d]`, the element `dfs` tests for direction `d`.  Decoding
0xb sets the element of every direction to 1 except that of WEST,
`con[3 - WEST]`, which is 0; and on a room decoded from 0xb the loop of `dfs`
makes no move for NORTH, SOUTH and EAST. -/
theorem create_room_connections_slots :
    (∀ (room : maze_room) (hex : Nat),
      (create_room_connections room hex).con (3 - NORTH) = ((hex % 2 : Nat) : Int) ∧
      (create_room_connections room hex).con (3 - SOUTH) = ((hex / 2 % 2 : Nat) : Int) ∧
      (create_room_connections room hex).con (3 - WEST) = ((hex / 4 % 2 : Nat) : Int) ∧
      (create_room_connections room hex).con (3 - EAST) = ((hex / 8 % 2 : Nat) : Int)) ∧
    (∀ room : maze_room,
      (create_room_connections room 11).con (3 - NORTH) = 1 ∧
      (create_room_connections room 11).con (3 - SOUTH) = 1 ∧
      (create_room_connections room 11).con (3 - WEST) = 0 ∧
      (create_room_connections room 11).con (3 - EAST) = 1) ∧
    (∀ (search : Int → Int → SolveState → Option (Int × SolveState)) (full : Bool)
      (R C : Int) (m : Grid) (cur : Int × Int) (room : maze_room) (out : List Line),
      dfs_dir search full R C cur NORTH
          ⟨setRoom m cur (create_room_connections room 11), out⟩ =
        some (none, ⟨setRoom m cur (create_room_connections room 11), out⟩) ∧
      dfs_dir search full R C cur SOUTH
          ⟨setRoom m cur (create_room_connections room 11), out⟩ =
        some (none, ⟨setRoom m cur (create_room_connections room 11), out⟩) ∧
      dfs_dir search full R C cur EAST
          ⟨setRoom m cur (create_room_connections room 11), out⟩ =
        some (none, ⟨setRoom m cur (create_room_connections room 11), out⟩)) := by
  have hbits : ∀ (room : maze_room) (hex : Nat),
      (create_room_connections room hex).con (3 - NORTH) = ((hex % 2 : Nat) : Int) ∧
      (create_room_connections room hex).con (3 - SOUTH) = ((hex / 2 % 2 : Nat) : Int) ∧
      (create_room_connections room hex).con (3 - WEST) = ((hex / 4 % 2 : Nat) : Int) ∧
      (create_room_connections room hex).con (3 - EAST) = ((hex / 8 % 2 : Nat) : Int) := by
    intro room hex
    obtain ⟨b1, b2, b4, b8⟩ := and_div_eq_bit hex
    refine ⟨?_, ?_, ?_, ?_⟩
    · rw [create_room_connections_con, ← b1]; rfl
    · rw [create_room_connections_con, ← b2]; rfl
    · rw [create_room_connections_con, ← b4]; rfl
    · rw [create_room_connections_con, ← b8]; rfl
  refine ⟨hbits, fun room => hbits room 11, ?_⟩
  intro search full R C m cur room out
  obtain ⟨hN, hS, -, hE⟩ := hbits room 11
  have hcur : ∀ k, ((setRoom m cur (create_room_connections room 11)) cur).con k =
      (create_room_connections room 11).con k := by
    intro k; rw [setRoom_apply, if_pos rfl]
  refine ⟨?_, ?_, ?_⟩
  · cases hgn : get_neighbor R C (setRoom m cur (create_room_connections room 11)) cur NORTH with
    | none => simp only [dfs_dir, hgn]
    | some q =>
      have h1 : ((setRoom m cur (create_room_connections room 11)) cur).con (3 - NORTH) ≠ 0 := by
        rw [hcur, hN]; decide
      simp only [dfs_dir, hgn, h1, false_and, if_false]
  · cases hgn : get_neighbor R C (setRoom m cur (create_room_connections room 11)) cur SOUTH with
    | none => simp only [dfs_dir, hgn]
    | some q =>
      have h1 : ((setRoom m cur (create_room_connections room 11)) cur).con (3 - SOUTH) ≠ 0 := by
        rw [hcur, hS]; decide
      simp only [dfs_dir, hgn, h1, false_and, if_false]
  · cases hgn : get_neighbor R C (setRoom m cur (create_room_connections room 11)) cur EAST with
    | none => simp only [dfs_dir, hgn]
    | some q =>
      have h1 : ((setRoom m cur (create_room_connections room 11)) cur).con (3 - EAST) ≠ 0 := by
        rw [hcur, hE]; decide
      simp only [dfs_dir, hgn, h1, false_and, if_false]

/-- C16 (fails on the code): `create_room_connections` has no range check and
no way to report an error.  The value 27 is decoded like 11 and the value 16
like 0, and `decode_maze` decodes the cell value -1 (read as unsigned) to four
walls. -/
theorem create_room_connections_accepts_any_value :
    (List.range 4).map (create_room_connections (roomWith (-1) (-1) (-1) (-1)) 27).con =
      [1, 0, 1, 1] ∧
    (List.range 4).map (create_room_connections (roomWith (-1) (-1) (-1) (-1)) 16).con =
      [0, 0, 0, 0] ∧
    (List.range 4).map
      (decode_maze 1 1 (initialize_maze 1 1 blank) (fun _ => -1) (0, 0)).con =
      [1, 1, 1, 1] := by
  decide

/-- C16 (as the code has it): for every value `hex`, in the range 0..15 or
not, `create_room_connections` sets each of the four connections to 0 or 1,
keeps the other fields of the room, and looks at the low four bits only: it
decodes `hex` like `hex % 16`. -/
theorem create_room_connections_low_bits (room : maze_room) (hex : Nat) :
    flagsSet (create_room_connections room hex) ∧
    (create_room_connections room hex).row = room.row ∧
    (create_room_connections room hex).col = room.col ∧
    (create_room_connections room hex).visited = room.visited ∧
    (create_room_connections room hex).next = room.next ∧
    ∀ k, (create_room_connections room hex).con k =
      (create_room_connections room (hex % 16)).con k := by
  refine ⟨create_room_connections_flagsSet room hex, rfl, rfl, rfl, rfl, ?_⟩
  intro k
  have hmod : ∀ op : Nat, 15 &&& op = op → (hex % 16) &&& op = hex &&& op := by
    intro op hop
    have h16 : hex % 16 = hex &&& 15 := (Nat.and_pow_two_sub_one_eq_mod hex 4).symm
    rw [h16, Nat.and_assoc, hop]
  rw [create_room_connections_con, create_room_connections_con,
    hmod 1 (by decide), hmod 2 (by decide), hmod 4 (by decide), hmod 8 (by decide)]

/-- C17: for `rows > 0`, `cols > 0` and every `rand()` sequence,
`drunken_walk(0, 0, ...)` on a freshly initialized grid returns, and it does so
within recursion depth `rows * cols` (the run whose depth is limited to any
bound `fuel >= rows * cols` does not reach the limit).  The record of its
calls has `rows * cols` entries, holds no room twice and every room of the
grid, each entered while its `visited` flag was 0, and every room ends
visited. -/
theorem drunken_walk_enters_each_room_once (rng : Nat → Nat) (R C : Nat)
    (hR : 0 < R) (hC : 0 < C) (fuel : Nat) (hfuel : R * C ≤ fuel) (m0 : Grid) :
    ∃ (s : GenState) (log : CallLog),
      drunken_walk_traced rng R C fuel 0 0 (⟨initialize_maze R C m0, 0⟩, []) =
        some (s, log) ∧
      drunken_walk rng R C fuel 0 0 ⟨initialize_maze R C m0, 0⟩ = some s ∧
      log.length = R * C ∧
      (log.map Prod.fst).Nodup ∧ (∀ p, InRange R C p → p ∈ log.map Prod.fst) ∧
      (∀ e ∈ log, InRange R C e.1 ∧ e.2 = 0) ∧
      (∀ p, InRange R C p → (s.maze p).visited = 1) := by
  obtain ⟨s, hgen, hdone⟩ := generate_done rng R C hR hC fuel hfuel m0
  replace hgen : drunken_walk rng R C fuel 0 0 ⟨initialize_maze R C m0, 0⟩ = some s := hgen
  have href := drunken_walk_traced_fst rng R C fuel 0 0 ⟨initialize_maze R C m0, 0⟩ []
  rw [hgen] at href
  cases hT : drunken_walk_traced rng R C fuel 0 0 (⟨initialize_maze R C m0, 0⟩, []) with
  | none => rw [hT] at href; simp at href
  | some st =>
    obtain ⟨s1, log⟩ := st
    rw [hT] at href
    simp only [Option.map_some', Option.some.injEq] at href
    subst href
    have h00 : InRange R C (0, 0) := by
      unfold InRange
      simp only
      omega
    have hinit : TraceInv R C (initialize_maze R C m0) [] := by
      refine ⟨fun p hp => ?_, List.nodup_nil, fun e he => absurd he (List.not_mem_nil e),
        fun p hp => ?_⟩
      · rw [initialize_maze_apply m0 hp]; exact ⟨rfl, rfl⟩
      · rw [initialize_maze_apply m0 hp]; simp
    have hinv : TraceInv R C s1.maze log :=
      drunken_walk_traced_inv rng R C fuel 0 0 ⟨initialize_maze R C m0, 0⟩ [] s1 log hinit h00
        (by show (initialize_maze R C m0 (0, 0)).visited = 0
            rw [initialize_maze_apply m0 h00]) hT
    have hall : ∀ p, InRange R C p → p ∈ log.map Prod.fst := by
      intro p hp
      rw [hinv.seen p hp, hdone.visited p hp]
      decide
    have hin : ∀ p ∈ log.map Prod.fst, InRange R C p := by
      intro p hp
      rw [List.mem_map] at hp
      obtain ⟨e, he, rfl⟩ := hp
      exact (hinv.entries e he).1
    refine ⟨s1, log, rfl, hgen, ?_, hinv.nodup, hall, hinv.entries, hdone.visited⟩
    rw [← length_eq_of_nodup_all hinv.nodup hin hall, List.length_map]

/-- Witness for `drunken_walk_enters_each_room_once`: a 2 by 2 grid, `rand()`
returning 0 every time, recursion depth limited to 4. -/
theorem drunken_walk_enters_each_room_once_witness :
    ∃ (s : GenState) (log : CallLog),
      drunken_walk_traced (fun _ => 0) (2 : Nat) (2 : Nat) 4 0 0
        (⟨initialize_maze (2 : Nat) (2 : Nat) blank, 0⟩, []) = some (s, log) ∧
      drunken_walk (fun _ => 0) (2 : Nat) (2 : Nat) 4 0 0
        ⟨initialize_maze (2 : Nat) (2 : Nat) blank, 0⟩ = some s ∧
      log.length = 2 * 2 ∧
      (log.map Prod.fst).Nodup ∧ (∀ p, InRange 2 2 p → p ∈ log.map Prod.fst) ∧
      (∀ e ∈ log, InRange 2 2 e.1 ∧ e.2 = 0) ∧
      (∀ p, InRange 2 2 p → (s.maze p).visited = 1) :=
  drunken_walk_enters_each_room_once (fun _ => 0) 2 2 (by decide) (by decide) 4 (by decide)
    blank

/-- C19: on a grid whose rooms store their coordinates and are all unvisited,
for start and goal inside the grid, `dfs` returns (recursion depth `R * C` is
enough), the value is 0 or 1, and it is 1 exactly when the goal is reachable
from the start by steps `c -> get_neighbor(c, i)`, `i` in 0..3, with the
neighbour inside the grid and `c.con[3 - i] == 0`. -/
theorem dfs_sound_complete (full : Bool) (R C : Nat) (m : Grid) (start goal : Int × Int)
    (hcoords : coordsOK R C m) (hvis : ∀ p, InRange R C p → (m p).visited = 0)
    (hs : InRange R C start) (hg : InRange R C goal)
    (fuel : Nat) (hfuel : R * C ≤ fuel) (out : List Line) :
    ∃ (ret : Int) (s1 : SolveState),
      dfs full goal.1 goal.2 R C fuel start.1 start.2 ⟨m, out⟩ = some (ret, s1) ∧
      (ret = 0 ∨ ret = 1) ∧
      (ret = 1 ↔ Relation.ReflTransGen (OpenStep R C m) start goal) := by
  have hinv : SolveInv R C (forget_next m) := forget_next_inv hcoords
  have hs0 : (forget_next m start).visited = 0 := by
    rw [forget_next_visited]; exact hvis start hs
  obtain ⟨ret, s1, l, hdfs, hret, hok, hcl, hhead, -, -, hsteps, hlast, -, -⟩ :=
    dfs_path full goal hinv hs hs0 fuel hfuel out
  obtain ⟨t1, hdfs1, -⟩ := dfs_same_search full goal.1 goal.2 R C fuel start.1 start.2
    ⟨forget_next m, out⟩ ⟨m, out⟩ ret s1 (SameSearch.of_forget_next m) hdfs
  refine ⟨ret, t1, hdfs1, hret, ?_, ?_⟩
  · intro h1
    have hback : ∀ p, (m p).con = (s1.maze p).con ∧ (m p).row = (s1.maze p).row ∧
        (m p).col = (s1.maze p).col := by
      intro p
      obtain ⟨h1, h2, h3⟩ := hok.same p
      obtain ⟨g1, g2, g3⟩ := forget_next_same m p
      exact ⟨by rw [h1, g1], by rw [h2, g2], by rw [h3, g3]⟩
    have hsteps0 : l.Chain' (OpenStep R C m) :=
      hsteps.imp (fun _ _ hstep => OpenStep.congr hback hstep)
    have hl := hlast h1
    cases l with
    | nil => simp at hhead
    | cons a rest =>
      simp only [List.head?_cons, Option.some.injEq] at hhead
      subst hhead
      exact reflTransGen_of_chain _ rest _ goal hsteps0 hl
  · intro hreach
    have hreach1 : Relation.ReflTransGen (OpenStep R C (forget_next m)) start goal :=
      hreach.mono (fun _ _ hstep => OpenStep.congr (forget_next_same m) hstep)
    have hfresh : ∀ p, InRange R C p → (forget_next m p).visited = 0 := by
      intro p hp
      rw [forget_next_visited]; exact hvis p hp
    have hne := dfs_complete hfresh hs hg hreach1 hok hcl
    rcases hret with h | h
    · exact absurd h hne
    · exact h

/-- Witness for `dfs_sound_complete`, at two decoded 2 by 3 mazes searched from
(0, 0) for (1, 2).  In the maze of `rooms_2x3` the goal is five steps away and
`dfs` returns 1; in `blocked_2x3` the goal is walled off and `dfs` returns 0
after it has searched the other five rooms. -/
theorem dfs_sound_complete_witness :
    (∃ (ret : Int) (s1 : SolveState),
      dfs true (1, 2).1 (1, 2).2 (2 : Nat) (3 : Nat) 6 (0, 0).1 (0, 0).2
        ⟨decode_maze (2 : Nat) (3 : Nat) (initialize_maze (2 : Nat) (3 : Nat) blank)
          (encode_maze (2 : Nat) (3 : Nat) rooms_2x3 (fun _ => 0)), []⟩ = some (ret, s1) ∧
      (ret = 0 ∨ ret = 1) ∧
      (ret = 1 ↔
        Relation.ReflTransGen
          (OpenStep 2 3
            (decode_maze (2 : Nat) (3 : Nat) (initialize_maze (2 : Nat) (3 : Nat) blank)
              (encode_maze (2 : Nat) (3 : Nat) rooms_2x3 (fun _ => 0))))
          (0, 0) (1, 2))) ∧
    (dfs true 1 2 2 3 6 0 0
        ⟨decode_maze 2 3 (initialize_maze 2 3 blank) (encode_maze 2 3 rooms_2x3 (fun _ => 0)),
          []⟩).map (fun x => (x.1, x.2.out)) =
      some (1, [Line.coords 0 0, Line.coords 1 0, Line.coords 1 1, Line.coords 0 1,
        Line.coords 0 2, Line.coords 1 2]) ∧
    (∃ (ret : Int) (s1 : SolveState),
      dfs true (1, 2).1 (1, 2).2 (2 : Nat) (3 : Nat) 6 (0, 0).1 (0, 0).2
        ⟨decode_maze (2 : Nat) (3 : Nat) (initialize_maze (2 : Nat) (3 : Nat) blank)
          blocked_2x3, []⟩ = some (ret, s1) ∧
      (ret = 0 ∨ ret = 1) ∧
      (ret = 1 ↔
        Relation.ReflTransGen
          (OpenStep 2 3
            (decode_maze (2 : Nat) (3 : Nat) (initialize_maze (2 : Nat) (3 : Nat) blank)
              blocked_2x3))
          (0, 0) (1, 2))) ∧
    (dfs true 1 2 2 3 6 0 0
        ⟨decode_maze 2 3 (initialize_maze 2 3 blank) blocked_2x3, []⟩).map
      (fun x => (x.1, x.2.out)) =
      some (0, [Line.coords 0 0, Line.coords 1 0, Line.coords 1 1, Line.coords 0 1,
        Line.coords 0 2, Line.coords 0 1, Line.coords 1 1, Line.coords 1 0,
        Line.coords 0 0]) :=
  ⟨dfs_sound_complete true 2 3
      (decode_maze (2 : Nat) (3 : Nat) (initialize_maze (2 : Nat) (3 : Nat) blank)
        (encode_maze (2 : Nat) (3 : Nat) rooms_2x3 (fun _ => 0))) (0, 0) (1, 2)
      (load_maze_inv 2 3 blank _).1.coords
      (fun p hp => ((load_maze_inv 2 3 blank _).2 p hp).1)
      (by decide) (by decide) 6 (by decide) [],
    by decide,
    dfs_sound_complete true 2 3
      (decode_maze (2 : Nat) (3 : Nat) (initialize_maze (2 : Nat) (3 : Nat) blank) blocked_2x3)
      (0, 0) (1, 2)
      (load_maze_inv 2 3 blank _).1.coords
      (fun p hp => ((load_maze_inv 2 3 blank _).2 p hp).1)
      (by decide) (by decide) 6 (by decide) [],
    by decide⟩

/-- C20: decoding what `encode_room` produced puts the generator's `con[i]`
into the solver's `con[3 - i]`; and on a cell whose connections are the
decoded ones, the step of `dfs`, which tests `con[3 - i]`, is the step that
tests the generator's own `con[i]`: it moves towards `get_neighbor(cell, i)`
exactly when the generator's cell has `con[i] == 0` and the neighbour is
unvisited. -/
theorem dfs_probe_compensates (R C : Nat) (gen m0 : Grid) (result : Encoded)
    (hflags : ∀ p, InRange R C p → flagsSet (gen p)) :
    (∀ (room0 room : maze_room) (i : Nat), flagsSet room → i < 4 →
      (create_room_connections room0 (to_unsigned (encode_room room))).con (3 - i) =
        room.con i) ∧
    (∀ (search : Int → Int → SolveState → Option (Int × SolveState)) (full : Bool)
      (cur : Int × Int) (i : Nat) (s : SolveState), InRange R C cur → i < 4 →
      (s.maze cur).con =
        (decode_maze R C (initialize_maze R C m0) (encode_maze R C gen result) cur).con →
      dfs_dir search full R C cur i s = dfs_dir_direct gen search full R C cur i s) := by
  refine ⟨fun room0 room i h hi => decode_encode_room_con room0 room h i hi, ?_⟩
  intro search full cur i s hcur hi hcon
  have h : (load_maze R C m0 (encode_maze R C gen result) cur).con (3 - i) =
      (gen cur).con i := by
    rw [load_maze_apply m0 _ hcur, encode_maze_eq]
    simp only [hcur, if_true]
    exact decode_encode_room_con _ _ (hflags cur hcur) i hi
  unfold load_maze at h
  unfold dfs_dir dfs_dir_direct
  simp only [hcon, h]

/-- Witness for `dfs_probe_compensates`: the 2 by 3 maze `rooms_2x3`, whose
rooms change under the reversal of the index order (the room (0, 0) has
`con[SOUTH] = 0` and is decoded with `con[SOUTH] = 1`, `con[3 - SOUTH] = 0`). -/
theorem dfs_probe_compensates_witness :
    ((∀ (room0 room : maze_room) (i : Nat), flagsSet room → i < 4 →
      (create_room_connections room0 (to_unsigned (encode_room room))).con (3 - i) =
        room.con i) ∧
    (∀ (search : Int → Int → SolveState → Option (Int × SolveState)) (full : Bool)
      (cur : Int × Int) (i : Nat) (s : SolveState), InRange 2 3 cur → i < 4 →
      (s.maze cur).con =
        (decode_maze (2 : Nat) (3 : Nat) (initialize_maze (2 : Nat) (3 : Nat) blank)
          (encode_maze (2 : Nat) (3 : Nat) rooms_2x3 (fun _ => 0)) cur).con →
      dfs_dir search full (2 : Nat) (3 : Nat) cur i s =
        dfs_dir_direct rooms_2x3 search full (2 : Nat) (3 : Nat) cur i s)) ∧
    (rooms_2x3 (0, 0)).con SOUTH = 0 ∧
    (decode_maze 2 3 (initialize_maze 2 3 blank)
      (encode_maze 2 3 rooms_2x3 (fun _ => 0)) (0, 0)).con SOUTH = 1 ∧
    (decode_maze 2 3 (initialize_maze 2 3 blank)
      (encode_maze 2 3 rooms_2x3 (fun _ => 0)) (0, 0)).con (3 - SOUTH) = 0 :=
  ⟨dfs_probe_compensates 2 3 rooms_2x3 blank (fun _ => 0) (fun p _ => rooms_2x3_flagsSet p),
    by decide, by decide, by decide⟩

end Maze
